import Mathlib

/-!
# Verification of gojsonsm's boolean decision tree and filter-expression output

This development gives a shallow embedding of the two source files of the
repository:

* `bintree.go` — the flat binary decision tree (`binTree`), its validator,
  and the per-evaluation three-valued state machine (`binTreeState`) with
  its short-circuit propagation protocol (`MarkNode` / `checkNode` /
  `resolveRecursive` / `Resolve` / `Reset` / `ResetNode`).
* `filterExprParser.go` — the parsed filter-expression AST (the `FE*`
  structures) and its translation to the expression IR
  (`OutputExpression`), together with the parenthesis-count check.

Go's runtime panics (index out of range, `panic(...)` calls, nil pointer
dereferences) are modelled by `Option`/error results: a `none` (or a
dedicated error constructor) result means the Go code would panic rather
than return.  The recursive state-machine operations carry an explicit
fuel parameter for termination; every top-level entry point passes a fuel
that is provably sufficient (each nested call either moves to a strictly
larger index or flips a state cell away from `Unknown`, so the nesting
depth is bounded by the number of nodes).
-/

set_option maxHeartbeats 1000000

namespace Gojsonsm

/-- Node types of the flat binary tree (`BinTreeNodeType` in bintree.go). -/
inductive BinTreeNodeType : Type
  | leaf
  | or
  | and
  | not
  | neor
  | loop
deriving DecidableEq, Repr

open BinTreeNodeType

/-- `binTreeNodeTypeHasLeft`: every node type except a leaf has a left child. -/
def binTreeNodeTypeHasLeft (nodeType : BinTreeNodeType) : Bool :=
  nodeType != leaf

/-- `binTreeNodeTypeHasRight`: node types other than leaf, not and loop have
a right child. -/
def binTreeNodeTypeHasRight (nodeType : BinTreeNodeType) : Bool :=
  nodeType != leaf && nodeType != not && nodeType != loop

/-- One node of the flat tree: the embedded `binTreePointers` (parent index,
left child index, right child index; 0 means "absent" for children) plus the
node type.  Go stores these as `int`; only non-negative values ever arise, so
they are modelled as `Nat`. -/
structure binTreeNode : Type where
  ParentIdx : Nat
  Left : Nat
  Right : Nat
  NodeType : BinTreeNodeType
deriving DecidableEq, Repr

/-- The flat tree: an array of nodes (`binTree` in bintree.go). -/
structure binTree : Type where
  data : List binTreeNode
deriving DecidableEq, Repr

/-- The three-valued (plus `Resolved`) state of one node
(`binTreeStateValue`). -/
inductive binTreeStateValue : Type
  | unknown
  | resolved
  | isTrue
  | isFalse
deriving DecidableEq, Repr

/-- A per-evaluation state over a tree (`binTreeState`).  The Go struct also
holds a pointer to its tree; here the tree is passed explicitly to each
operation, so the state is just the value array and the stall index. -/
structure binTreeState : Type where
  data : List binTreeStateValue
  stallIndex : Nat
deriving DecidableEq, Repr

/-- `binTree.NumNodes`. -/
def binTree.NumNodes (tree : binTree) : Nat :=
  tree.data.length

/-- `binTree.NewState`: a fresh all-`Unknown` state with stall index 0. -/
def binTree.NewState (tree : binTree) : binTreeState :=
  { data := tree.data.map (fun _ => .unknown), stallIndex := 0 }

/-- Errors of the validator: `goPanic` models a Go runtime panic (index out
of range); `msg`-free constructors stand for the `errors.New` results of
`validateItem`/`Validate`. -/
inductive ValidateErr : Type
  | goPanic
  | parentMismatch
  | badNodeType
  | badLeft
  | badRight
  | incomplete
deriving DecidableEq, Repr

/-- `binTree.validateItem`, with fuel.  The Go function recurses at
position `item+1` (and then at the position returned by the first child); in
Go the recursion is unbounded, but every nested call is at a strictly larger
position `≤ len`, so nesting depth is at most `len + 2` and the fuel passed
by `Validate` is always sufficient.  Reading `tree.data[item]` with `item`
out of range is a Go panic, modelled as `.error .goPanic`.

Note that the Go `switch` on the node type has a `default` branch returning
"unexpected node type"; since `BinTreeNodeType` is modelled as a closed
inductive with exactly the six declared values, that branch is
unrepresentable here. -/
def binTree.validateItemF (tree : binTree) : Nat → Nat → Nat → Except ValidateErr Nat
  | 0, _, _ => .error .goPanic
  | fuel + 1, item, parent =>
    match tree.data.get? item with
    | none => .error .goPanic
    | some idata =>
      if idata.ParentIdx ≠ parent then .error .parentMismatch
      else if idata.NodeType = leaf then .ok (item + 1)
      else if binTreeNodeTypeHasLeft idata.NodeType = false ∧ idata.Left ≠ 0 then
        .error .badLeft
      else if binTreeNodeTypeHasLeft idata.NodeType = true ∧
          (idata.Left = 0 ∨ tree.data.length ≤ idata.Left) then
        .error .badLeft
      else if binTreeNodeTypeHasRight idata.NodeType = false ∧ idata.Right ≠ 0 then
        .error .badRight
      else if binTreeNodeTypeHasRight idata.NodeType = true ∧
          (idata.Right = 0 ∨ tree.data.length ≤ idata.Right) then
        .error .badRight
      else
        match
          (if binTreeNodeTypeHasLeft idata.NodeType then
            tree.validateItemF fuel (item + 1) item
          else .ok (item + 1)) with
        | .error e => .error e
        | .ok pos =>
          if binTreeNodeTypeHasRight idata.NodeType then
            tree.validateItemF fuel pos item
          else .ok pos

/-- `binTree.Validate`.  The fuel `len + 2` always suffices (see
`validateItemF`). -/
def binTree.Validate (tree : binTree) : Except ValidateErr Unit :=
  match tree.validateItemF (tree.data.length + 2) 0 0 with
  | .error e => .error e
  | .ok pos => if pos ≠ tree.data.length then .error .incomplete else .ok ()

/-- `binTreeState.SetStallIndex`: returns the new state and the previous
stall index. -/
def binTreeState.SetStallIndex (state : binTreeState) (index : Nat) :
    binTreeState × Nat :=
  ({ state with stallIndex := index }, state.stallIndex)

/-- `binTreeState.Reset`: stall index back to 0, every cell `Unknown`. -/
def binTreeState.Reset (state : binTreeState) : binTreeState :=
  { data := state.data.map (fun _ => .unknown), stallIndex := 0 }

/-- `binTreeState.resolveRecursive`, acting on the raw value array (the Go
method reads `state.tree` and mutates only `state.data`).  For each child
link of `index`, if the child's cell is `Unknown` it is set to `Resolved`
and the walk recurses into it.  `none` models a Go index-out-of-range panic
(on `tree.data[index]` or on a child cell read).  Each nested call first
flips a distinct cell from `Unknown`, so a fuel of `length + 1` is always
sufficient. -/
def resolveRecursive (tree : binTree) :
    Nat → Nat → List binTreeStateValue → Option (List binTreeStateValue)
  | 0, _, _ => none
  | fuel + 1, index, sd =>
    match tree.data.get? index with
    | none => none
    | some defNode =>
      let afterLeft : Option (List binTreeStateValue) :=
        if binTreeNodeTypeHasLeft defNode.NodeType then
          match sd.get? defNode.Left with
          | none => none
          | some v =>
            if v = .unknown then
              resolveRecursive tree fuel defNode.Left (sd.set defNode.Left .resolved)
            else some sd
        else some sd
      match afterLeft with
      | none => none
      | some sd1 =>
        if binTreeNodeTypeHasRight defNode.NodeType then
          match sd1.get? defNode.Right with
          | none => none
          | some v =>
            if v = .unknown then
              resolveRecursive tree fuel defNode.Right (sd1.set defNode.Right .resolved)
            else some sd1
        else some sd1

/-- `binTreeState.resetNodeRecursive`, with fuel; follows the child links
and sets every visited cell to `Unknown`.  Again `none` models a panic on an
out-of-range index. -/
def resetNodeRecursive (tree : binTree) :
    Nat → Nat → List binTreeStateValue → Option (List binTreeStateValue)
  | 0, _, _ => none
  | fuel + 1, index, sd =>
    if index < sd.length then
      let sd0 := sd.set index .unknown
      match tree.data.get? index with
      | none => none
      | some defNode =>
        let afterLeft : Option (List binTreeStateValue) :=
          if binTreeNodeTypeHasLeft defNode.NodeType then
            resetNodeRecursive tree fuel defNode.Left sd0
          else some sd0
        match afterLeft with
        | none => none
        | some sd1 =>
          if binTreeNodeTypeHasRight defNode.NodeType then
            resetNodeRecursive tree fuel defNode.Right sd1
          else some sd1
    else none

/-- `binTreeState.ResetNode`. -/
def binTreeState.ResetNode (tree : binTree) (state : binTreeState) (index : Nat) :
    Option binTreeState :=
  match resetNodeRecursive tree (tree.data.length + 1) index state.data with
  | none => none
  | some sd => some { state with data := sd }

/-- The value written by `MarkNode(index, value)`. -/
def markValue (value : Bool) : binTreeStateValue :=
  if value then .isTrue else .isFalse

mutual

/-- `binTreeState.MarkNode`, with fuel.  `none` models a Go panic: marking a
non-`Unknown` cell ("cannot resolve same state node twice"), checking a leaf
("cannot check leaf"), or an out-of-range index.  The order of effects
follows the Go body exactly: panic check, write the truth value, resolve the
descendants, return at the root, return at the stall index, otherwise check
the parent. -/
def MarkNode (tree : binTree) :
    Nat → binTreeState → Nat → Bool → Option binTreeState
  | 0, _, _, _ => none
  | fuel + 1, state, index, value =>
    match state.data.get? index with
    | none => none
    | some v =>
      if v ≠ .unknown then none
      else
        let sd0 := state.data.set index (markValue value)
        match resolveRecursive tree (sd0.length + 1) index sd0 with
        | none => none
        | some sd1 =>
          let state1 : binTreeState := { state with data := sd1 }
          if index = 0 then some state1
          else if index = state1.stallIndex then some state1
          else
            match tree.data.get? index with
            | none => none
            | some defNode => checkNode tree fuel state1 defNode.ParentIdx

/-- `binTreeState.checkNode`, with fuel.  Each branch reads the child cells
in the same order (and with the same short-circuiting) as the Go `if`
conditions, so a panic on an out-of-range child cell occurs in the model
exactly when it occurs in Go. -/
def checkNode (tree : binTree) :
    Nat → binTreeState → Nat → Option binTreeState
  | 0, _, _ => none
  | fuel + 1, state, index =>
    match tree.data.get? index with
    | none => none
    | some defNode =>
      match defNode.NodeType with
      | leaf => none
      | .or =>
        -- if L == True || R == True { mark true }
        -- else if L == False && R == False { mark false }
        match state.data.get? defNode.Left with
        | none => none
        | some l =>
          if l = .isTrue then MarkNode tree fuel state index true
          else
            match state.data.get? defNode.Right with
            | none => none
            | some r =>
              if r = .isTrue then MarkNode tree fuel state index true
              else if l = .isFalse ∧ r = .isFalse then MarkNode tree fuel state index false
              else some state
      | .neor =>
        -- if L != Unknown && R != Unknown { mark (L == True || R == True) }
        match state.data.get? defNode.Left with
        | none => none
        | some l =>
          if l = .unknown then some state
          else
            match state.data.get? defNode.Right with
            | none => none
            | some r =>
              if r = .unknown then some state
              else if l = .isTrue ∨ r = .isTrue then MarkNode tree fuel state index true
              else MarkNode tree fuel state index false
      | .and =>
        -- if L == True && R == True { mark true }
        -- else if L == False || R == False { mark false }
        match state.data.get? defNode.Left with
        | none => none
        | some l =>
          if l = .isTrue then
            match state.data.get? defNode.Right with
            | none => none
            | some r =>
              if r = .isTrue then MarkNode tree fuel state index true
              else if r = .isFalse then MarkNode tree fuel state index false
              else some state
          else if l = .isFalse then MarkNode tree fuel state index false
          else
            match state.data.get? defNode.Right with
            | none => none
            | some r =>
              if r = .isFalse then MarkNode tree fuel state index false
              else some state
      | .not =>
        match state.data.get? defNode.Left with
        | none => none
        | some l =>
          if l = .isTrue then MarkNode tree fuel state index false
          else if l = .isFalse then MarkNode tree fuel state index true
          else some state
      | .loop =>
        match state.data.get? defNode.Left with
        | none => none
        | some l =>
          if l = .isTrue then MarkNode tree fuel state index true
          else if l = .isFalse then MarkNode tree fuel state index false
          else some state

end

/-- Fuel that is always sufficient for a top-level `MarkNode` call: inside
one call tree every nested `MarkNode` frame marks a distinct cell away from
`Unknown` (marking an already marked cell panics instead), so at most
`length` mark frames and as many interleaved `checkNode` frames occur. -/
def markFuel (state : binTreeState) : Nat :=
  2 * state.data.length + 2

/-- The top-level `MarkNode` entry point, at the always-sufficient fuel. -/
def binTreeState.MarkNodeTop (tree : binTree) (state : binTreeState)
    (index : Nat) (value : Bool) : Option binTreeState :=
  MarkNode tree (markFuel state) state index value

/-- `binTreeState.IsResolved`, on the `Option` view of the cell read (Go
panics when `index` is out of range). -/
def binTreeState.IsResolvedAt (state : binTreeState) (index : Nat) : Option Bool :=
  match state.data.get? index with
  | none => none
  | some v => some (v ≠ .unknown)

/-- `binTreeState.IsTrueAt` (Go `IsTrue`). -/
def binTreeState.IsTrueAt (state : binTreeState) (index : Nat) : Option Bool :=
  match state.data.get? index with
  | none => none
  | some v => some (v = .isTrue)

/-- The countdown loop of `binTreeState.Resolve`: at index `i`, mark with
`false` if the cell is still `Unknown`, then leave as soon as the root is
resolved, else continue at `i - 1`; the Go loop ends after `i = 0`. -/
def resolveLoop (tree : binTree) : binTreeState → Nat → Option binTreeState
  | state, i =>
    match state.data.get? i with
    | none => none
    | some v =>
      let afterMark : Option binTreeState :=
        if v = .unknown then state.MarkNodeTop tree i false else some state
      match afterMark with
      | none => none
      | some state1 =>
        match state1.data.get? 0 with
        | none => none
        | some r =>
          if r ≠ .unknown then some state1
          else
            match i with
            | 0 => some state1
            | i' + 1 => resolveLoop tree state1 i'

/-- `binTreeState.Resolve`: skip if the root is already resolved, otherwise
run the countdown from the last index.  On an empty state `IsResolved(0)`
panics in Go (index out of range), modelled by `none`. -/
def binTreeState.Resolve (tree : binTree) (state : binTreeState) :
    Option binTreeState :=
  match state.data.get? 0 with
  | none => none
  | some r =>
    if r ≠ .unknown then some state
    else resolveLoop tree state (state.data.length - 1)

/-! ## Basic list-cell lemmas -/

theorem get?_set_self {α : Type} (l : List α) (i : Nat) (a : α) (h : i < l.length) :
    (l.set i a).get? i = some a := by
  induction l generalizing i with
  | nil => simp at h
  | cons x xs ih =>
    cases i with
    | zero => rfl
    | succ i' => simpa using ih i' (by simpa using h)

theorem get?_set_of_ne {α : Type} (l : List α) {i j : Nat} (a : α) (h : i ≠ j) :
    (l.set i a).get? j = l.get? j := by
  induction l generalizing i j with
  | nil => simp
  | cons x xs ih =>
    cases i with
    | zero =>
      cases j with
      | zero => exact absurd rfl h
      | succ j' => rfl
    | succ i' =>
      cases j with
      | zero => rfl
      | succ j' => simpa using ih (fun hc => h (by simp [hc]))

theorem lt_length_of_get?_eq_some {α : Type} {l : List α} {i : Nat} {a : α}
    (h : l.get? i = some a) : i < l.length :=
  List.get?_eq_some.mp h |>.1

/-! ## The evolution relation of `resolveRecursive`

`resolveRecursive` only turns `Unknown` cells into `Resolved` ones; every
other cell keeps its value.  `Evolves` captures exactly that, and is the
workhorse for monotonicity. -/

/-- `sd'` is obtained from `sd` by turning some `Unknown` cells `Resolved`. -/
def Evolves (sd sd' : List binTreeStateValue) : Prop :=
  sd'.length = sd.length ∧
  ∀ j, sd'.get? j = sd.get? j ∨
    (sd.get? j = some .unknown ∧ sd'.get? j = some .resolved)

theorem evolves_refl (sd : List binTreeStateValue) : Evolves sd sd :=
  ⟨rfl, fun _ => Or.inl rfl⟩

theorem evolves_trans {a b c : List binTreeStateValue}
    (h1 : Evolves a b) (h2 : Evolves b c) : Evolves a c := by
  refine ⟨h2.1.trans h1.1, fun j => ?_⟩
  rcases h2.2 j with hc | ⟨hbU, hcR⟩
  · rcases h1.2 j with hb | ⟨haU, hbR⟩
    · exact Or.inl (hc.trans hb)
    · exact Or.inr ⟨haU, hc.trans hbR⟩
  · rcases h1.2 j with hb | ⟨haU, hbR⟩
    · exact Or.inr ⟨hb ▸ hbU, hcR⟩
    · rw [hbR] at hbU; cases hbU
  -- the contradictory case `some .resolved = some .unknown` is closed by `cases`

theorem Evolves.set_resolved {sd : List binTreeStateValue} {i : Nat}
    (h : sd.get? i = some .unknown) : Evolves sd (sd.set i .resolved) := by
  refine ⟨List.length_set .., fun j => ?_⟩
  by_cases hij : i = j
  · subst hij
    exact Or.inr ⟨h, get?_set_self _ _ _ (lt_length_of_get?_eq_some h)⟩
  · exact Or.inl (get?_set_of_ne _ _ hij)

theorem Evolves.get_ne_unknown {sd sd' : List binTreeStateValue}
    (h : Evolves sd sd') {j : Nat} {w : binTreeStateValue}
    (hw : sd.get? j = some w) (hne : w ≠ .unknown) : sd'.get? j = some w := by
  rcases h.2 j with heq | ⟨hU, _⟩
  · exact heq.trans hw
  · rw [hw] at hU; cases hU; exact absurd rfl hne

theorem resolveRecursive_evolves {tree : binTree} :
    ∀ {fuel index : Nat} {sd sd' : List binTreeStateValue},
      resolveRecursive tree fuel index sd = some sd' → Evolves sd sd'
  | 0, _, _, _, h => by simp [resolveRecursive] at h
  | fuel + 1, index, sd, sd', h => by
    rw [resolveRecursive] at h
    split at h
    · cases h
    · rename_i defNode hnode
      simp only at h
      split at h
      · cases h
      · rename_i sd1 hafter
        have h01 : Evolves sd sd1 := by
          split at hafter
          · split at hafter
            · cases hafter
            · rename_i v hv
              split at hafter
              · rename_i hU
                subst hU
                exact evolves_trans (Evolves.set_resolved hv) (resolveRecursive_evolves hafter)
              · cases hafter; exact evolves_refl sd
          · cases hafter; exact evolves_refl sd
        split at h
        · split at h
          · cases h
          · rename_i v hv
            split at h
            · rename_i hU
              subst hU
              exact evolves_trans h01
                (evolves_trans (Evolves.set_resolved hv) (resolveRecursive_evolves h))
            · cases h; exact h01
        · cases h; exact h01

/-! ## Monotonicity of the marking machinery

Once a cell is non-`Unknown`, neither `MarkNode` nor `checkNode` nor
`Resolve` ever changes it again (they all either keep cells or write into
`Unknown` cells); the stall index and the array length are preserved too. -/

/-- `st'` preserves every non-`Unknown` cell of `st`, its stall index and
its length. -/
def Pres (st st' : binTreeState) : Prop :=
  st'.stallIndex = st.stallIndex ∧ st'.data.length = st.data.length ∧
  ∀ j w, st.data.get? j = some w → w ≠ .unknown → st'.data.get? j = some w

theorem pres_refl (st : binTreeState) : Pres st st :=
  ⟨rfl, rfl, fun _ _ h _ => h⟩

theorem pres_trans {a b c : binTreeState} (h1 : Pres a b) (h2 : Pres b c) :
    Pres a c :=
  ⟨h2.1.trans h1.1, h2.2.1.trans h1.2.1,
    fun j w hj hw => h2.2.2 j w (h1.2.2 j w hj hw) hw⟩

mutual

theorem markNode_pres {tree : binTree} :
    ∀ {fuel : Nat} {st : binTreeState} {index : Nat} {value : Bool}
      {st' : binTreeState},
      MarkNode tree fuel st index value = some st' → Pres st st'
  | 0, _, _, _, _, h => by simp [MarkNode] at h
  | fuel + 1, st, index, value, st', h => by
    rw [MarkNode] at h
    split at h
    · cases h
    · rename_i v hv
      split at h
      · cases h
      · rename_i hU
        rw [not_not] at hU
        subst hU
        simp only at h
        split at h
        · cases h
        · rename_i sd1 hres
          have hev : Evolves (st.data.set index (markValue value)) sd1 :=
            resolveRecursive_evolves hres
          have hpres1 : Pres st { st with data := sd1 } := by
            refine ⟨rfl, ?_, ?_⟩
            · exact hev.1.trans (List.length_set ..)
            · intro j w hj hw
              have hji : index ≠ j := by
                intro hc; subst hc; rw [hv] at hj; cases hj; exact absurd rfl hw
              exact hev.get_ne_unknown
                ((get?_set_of_ne _ _ hji).trans hj) hw
          split at h
          · cases h; exact hpres1
          · split at h
            · cases h; exact hpres1
            · split at h
              · cases h
              · exact pres_trans hpres1 (checkNode_pres h)

theorem checkNode_pres {tree : binTree} :
    ∀ {fuel : Nat} {st : binTreeState} {index : Nat} {st' : binTreeState},
      checkNode tree fuel st index = some st' → Pres st st'
  | 0, _, _, _, h => by simp [checkNode] at h
  | fuel + 1, st, index, st', h => by
    rw [checkNode] at h
    split at h
    · cases h
    · rename_i defNode hnode
      split at h
      -- leaf
      · cases h
      -- or
      · split at h
        · cases h
        · split at h
          · exact markNode_pres h
          · split at h
            · cases h
            · split at h
              · exact markNode_pres h
              · split at h
                · exact markNode_pres h
                · cases h; exact pres_refl st
      -- neor
      · split at h
        · cases h
        · split at h
          · cases h; exact pres_refl st
          · split at h
            · cases h
            · split at h
              · cases h; exact pres_refl st
              · split at h
                · exact markNode_pres h
                · exact markNode_pres h
      -- and
      · split at h
        · cases h
        · split at h
          · split at h
            · cases h
            · split at h
              · exact markNode_pres h
              · split at h
                · exact markNode_pres h
                · cases h; exact pres_refl st
          · split at h
            · exact markNode_pres h
            · split at h
              · cases h
              · split at h
                · exact markNode_pres h
                · cases h; exact pres_refl st
      -- not
      · split at h
        · cases h
        · split at h
          · exact markNode_pres h
          · split at h
            · exact markNode_pres h
            · cases h; exact pres_refl st
      -- loop
      · split at h
        · cases h
        · split at h
          · exact markNode_pres h
          · split at h
            · exact markNode_pres h
            · cases h; exact pres_refl st

end

theorem markValue_ne_unknown (value : Bool) : markValue value ≠ .unknown := by
  cases value <;> simp [markValue]

theorem markValue_eq_isTrue (value : Bool) :
    markValue value = .isTrue ↔ value = true := by
  cases value <;> simp [markValue]

/-- A successful `MarkNode` leaves the marked cell at the written truth
value (`True`/`False` according to the argument). -/
theorem markNode_sets {tree : binTree} :
    ∀ {fuel : Nat} {st : binTreeState} {index : Nat} {value : Bool}
      {st' : binTreeState},
      MarkNode tree fuel st index value = some st' →
      st'.data.get? index = some (markValue value)
  | 0, _, _, _, _, h => by simp [MarkNode] at h
  | fuel + 1, st, index, value, st', h => by
    rw [MarkNode] at h
    split at h
    · cases h
    · rename_i v hv
      split at h
      · cases h
      · rename_i hU
        rw [not_not] at hU
        subst hU
        simp only at h
        split at h
        · cases h
        · rename_i sd1 hres
          have hi : index < st.data.length := lt_length_of_get?_eq_some hv
          have hset : (st.data.set index (markValue value)).get? index
              = some (markValue value) :=
            get?_set_self _ _ _ (by simpa using hi)
          have hsd1 : sd1.get? index = some (markValue value) :=
            (resolveRecursive_evolves hres).get_ne_unknown hset
              (markValue_ne_unknown value)
          split at h
          · cases h; exact hsd1
          · split at h
            · cases h; exact hsd1
            · split at h
              · cases h
              · exact (checkNode_pres h).2.2 index (markValue value) hsd1
                  (markValue_ne_unknown value)

/-- The `Resolve` countdown loop preserves non-`Unknown` cells, the stall
index and the length. -/
theorem resolveLoop_pres {tree : binTree} :
    ∀ {i : Nat} {st st' : binTreeState},
      resolveLoop tree st i = some st' → Pres st st' := by
  intro i
  induction i with
  | zero =>
    intro st st' h
    rw [resolveLoop] at h
    split at h
    · cases h
    · rename_i v hv
      simp only at h
      split at h
      · cases h
      · rename_i st1 hmark
        have h1 : Pres st st1 := by
          split at hmark
          · exact markNode_pres hmark
          · cases hmark; exact pres_refl st
        split at h
        · cases h
        · split at h
          · cases h; exact h1
          · cases h; exact h1
  | succ i' ih =>
    intro st st' h
    rw [resolveLoop] at h
    split at h
    · cases h
    · rename_i v hv
      simp only at h
      split at h
      · cases h
      · rename_i st1 hmark
        have h1 : Pres st st1 := by
          split at hmark
          · exact markNode_pres hmark
          · cases hmark; exact pres_refl st
        split at h
        · cases h
        · split at h
          · cases h; exact h1
          · exact pres_trans h1 (ih h)

/-- After a successful pass of the countdown loop the root is resolved. -/
theorem resolveLoop_root {tree : binTree} :
    ∀ {i : Nat} {st st' : binTreeState},
      resolveLoop tree st i = some st' →
      ∃ r, st'.data.get? 0 = some r ∧ r ≠ .unknown := by
  intro i
  induction i with
  | zero =>
    intro st st' h
    rw [resolveLoop] at h
    split at h
    · cases h
    · rename_i v hv
      simp only at h
      split at h
      · cases h
      · rename_i st1 hmark
        split at h
        · cases h
        · rename_i r hr
          split at h
          · rename_i hrne
            cases h; exact ⟨r, hr, hrne⟩
          · rename_i hrU
            rw [not_not] at hrU
            subst hrU
            -- index 0 was just processed, so the root cannot still be Unknown
            exfalso
            split at hmark
            · rename_i hvU
              have := markNode_sets hmark
              rw [this] at hr
              cases hr
            · rename_i hvne
              cases hmark
              rw [hv] at hr
              cases hr
              exact hvne rfl
  | succ i' ih =>
    intro st st' h
    rw [resolveLoop] at h
    split at h
    · cases h
    · rename_i v hv
      simp only at h
      split at h
      · cases h
      · rename_i st1 hmark
        split at h
        · cases h
        · rename_i r hr
          split at h
          · rename_i hrne
            cases h; exact ⟨r, hr, hrne⟩
          · exact ih h

/-- After a successful `Resolve` the root is resolved. -/
theorem resolve_root {tree : binTree} {st st' : binTreeState}
    (h : binTreeState.Resolve tree st = some st') :
    ∃ r, st'.data.get? 0 = some r ∧ r ≠ .unknown := by
  rw [binTreeState.Resolve] at h
  split at h
  · cases h
  · rename_i r hr
    split at h
    · rename_i hrne
      cases h; exact ⟨r, hr, hrne⟩
    · exact resolveLoop_root h

/-- `Resolve` preserves non-`Unknown` cells, the stall index and the
length. -/
theorem resolve_pres {tree : binTree} {st st' : binTreeState}
    (h : binTreeState.Resolve tree st = some st') : Pres st st' := by
  rw [binTreeState.Resolve] at h
  split at h
  · cases h
  · split at h
    · cases h; exact pres_refl st
    · exact resolveLoop_pres h

/-! ## Concrete trees and states used by the claim witnesses and
counterexamples -/

/-- `Or(0)` over two leaves, in pre-order layout. -/
def tree2 : binTree :=
  ⟨[⟨0, 1, 2, .or⟩, ⟨0, 0, 0, .leaf⟩, ⟨0, 0, 0, .leaf⟩]⟩

/-- A chain `Not(0) → Not(1) → Not(2) → Leaf(3)`. -/
def tree4 : binTree :=
  ⟨[⟨0, 1, 0, .not⟩, ⟨0, 2, 0, .not⟩, ⟨1, 3, 0, .not⟩, ⟨2, 0, 0, .leaf⟩]⟩

/-- `Or(0)` over `Leaf(1)` and `Neor(2)` over `Leaf(3)`, `Leaf(4)`. -/
def tree5 : binTree :=
  ⟨[⟨0, 1, 2, .or⟩, ⟨0, 0, 0, .leaf⟩, ⟨0, 3, 4, .neor⟩,
    ⟨2, 0, 0, .leaf⟩, ⟨2, 0, 0, .leaf⟩]⟩

/-- An `And(0)` whose left and right pointers both name index 1, over two
leaves; positionally well-formed, so `Validate` accepts it, but node 2 is
unreachable through the child pointers. -/
def tree8 : binTree :=
  ⟨[⟨0, 1, 1, .and⟩, ⟨0, 0, 0, .leaf⟩, ⟨0, 0, 0, .leaf⟩]⟩

/-- Claim C3 holds as stated: `MarkNode`, `checkNode` and `Resolve` never
change a non-`Unknown` cell; only `Reset`/`ResetNode` write `Unknown` into
a cell. -/
theorem claim_C3 :
    (∀ (tree : binTree) (fuel : Nat) (st : binTreeState) (index : Nat)
        (value : Bool) (st' : binTreeState),
      MarkNode tree fuel st index value = some st' →
      ∀ j w, st.data.get? j = some w → w ≠ .unknown →
        st'.data.get? j = some w) ∧
    (∀ (tree : binTree) (fuel : Nat) (st : binTreeState) (index : Nat)
        (st' : binTreeState),
      checkNode tree fuel st index = some st' →
      ∀ j w, st.data.get? j = some w → w ≠ .unknown →
        st'.data.get? j = some w) ∧
    (∀ (tree : binTree) (st st' : binTreeState),
      binTreeState.Resolve tree st = some st' →
      ∀ j w, st.data.get? j = some w → w ≠ .unknown →
        st'.data.get? j = some w) :=
  ⟨fun _ _ _ _ _ _ h j w hj hw => (markNode_pres h).2.2 j w hj hw,
   fun _ _ _ _ _ h j w hj hw => (checkNode_pres h).2.2 j w hj hw,
   fun _ _ _ h j w hj hw => (resolve_pres h).2.2 j w hj hw⟩

theorem claim_C3_witness :
    MarkNode tree2 (markFuel ⟨[.unknown, .isTrue, .unknown], 0⟩)
        ⟨[.unknown, .isTrue, .unknown], 0⟩ 2 false
      = some ⟨[.isTrue, .isTrue, .isFalse], 0⟩ ∧
    (binTreeState.data ⟨[.isTrue, .isTrue, .isFalse], 0⟩).get? 1
      = some .isTrue :=
  ⟨by decide,
   claim_C3.1 tree2 (markFuel ⟨[.unknown, .isTrue, .unknown], 0⟩)
     ⟨[.unknown, .isTrue, .unknown], 0⟩ 2 false
     ⟨[.isTrue, .isTrue, .isFalse], 0⟩ (by decide) 1 .isTrue (by decide)
     (by decide)⟩

/-- Claim C5: whenever `Resolve` returns (it panics on some degenerate
states, e.g. marking cascades that hit an already-resolved interior node),
the root cell is non-`Unknown` afterwards. -/
theorem claim_C5 :
    ∀ (tree : binTree) (st st' : binTreeState),
      binTreeState.Resolve tree st = some st' →
      ∃ r, st'.data.get? 0 = some r ∧ r ≠ .unknown :=
  fun _ _ _ h => resolve_root h

theorem claim_C5_witness :
    binTreeState.Resolve tree2 tree2.NewState
      = some ⟨[.isFalse, .isFalse, .isFalse], 0⟩ ∧
    ∃ r, (binTreeState.data ⟨[.isFalse, .isFalse, .isFalse], 0⟩).get? 0
        = some r ∧ r ≠ .unknown :=
  ⟨by decide,
   claim_C5 tree2 tree2.NewState ⟨[.isFalse, .isFalse, .isFalse], 0⟩
     (by decide)⟩

/-- Claim C6: `Resolve` is idempotent — a second call returns the very same
state (same array, same stall index). -/
theorem claim_C6 :
    ∀ (tree : binTree) (st st' : binTreeState),
      binTreeState.Resolve tree st = some st' →
      binTreeState.Resolve tree st' = some st' := by
  intro tree st st' h
  obtain ⟨r, hr, hrne⟩ := resolve_root h
  rw [binTreeState.Resolve, hr]
  simp [hrne]

theorem claim_C6_witness :
    binTreeState.Resolve tree2 tree2.NewState
      = some ⟨[.isFalse, .isFalse, .isFalse], 0⟩ ∧
    binTreeState.Resolve tree2 ⟨[.isFalse, .isFalse, .isFalse], 0⟩
      = some ⟨[.isFalse, .isFalse, .isFalse], 0⟩ :=
  ⟨by decide,
   claim_C6 tree2 tree2.NewState ⟨[.isFalse, .isFalse, .isFalse], 0⟩
     (by decide)⟩

/-- Claim C7: `MarkNode` on a cell that is already non-`Unknown` is the Go
panic "cannot resolve same state node twice" (modelled as `none`); the
panic fires before any write, so the state is not modified. -/
theorem claim_C7 :
    ∀ (tree : binTree) (st : binTreeState) (index : Nat)
      (w : binTreeStateValue) (value : Bool),
      st.data.get? index = some w → w ≠ .unknown →
      binTreeState.MarkNodeTop tree st index value = none := by
  intro tree st index w value hw hwne
  rw [binTreeState.MarkNodeTop]
  show MarkNode tree (2 * st.data.length + 2) st index value = none
  rw [show 2 * st.data.length + 2 = (2 * st.data.length + 1) + 1 from rfl,
    MarkNode, hw]
  simp [hwne]

theorem claim_C7_witness :
    (binTreeState.data ⟨[.unknown, .isTrue, .unknown], 0⟩).get? 1
      = some .isTrue ∧
    binTreeState.MarkNodeTop tree2 ⟨[.unknown, .isTrue, .unknown], 0⟩ 1 true
      = none :=
  ⟨by decide,
   claim_C7 tree2 ⟨[.unknown, .isTrue, .unknown], 0⟩ 1 .isTrue true
     (by decide) (by decide)⟩

/-! ## Decoding a spec-valid tree

Section 3.1 of the specification describes a valid tree as a flat array
laid out in pre-order: node `i`'s left child (when its type has one) sits
at `i + 1`, its right child right after the left subtree, parent pointers
name the actual parent, and the layout covers the whole array.  `BT`
captures the shape of such a subtree and `pDecodes tree i b` says that the
array region starting at `i` is exactly the pre-order layout of shape
`b`. -/

/-- The pure shape of a subtree: leaf, one child, or two children. -/
inductive BT : Type
  | leafB
  | unary (c : BT)
  | binary (l r : BT)
deriving DecidableEq, Repr

/-- Number of nodes of a shape. -/
def BT.size : BT → Nat
  | .leafB => 1
  | .unary c => c.size + 1
  | .binary l r => l.size + r.size + 1

theorem BT.size_pos (b : BT) : 1 ≤ b.size := by
  cases b <;> simp [BT.size]

/-- The parent pointer stored at index `j` (if `j` is in range). -/
def nodeParent (tree : binTree) (j : Nat) : Option Nat :=
  (tree.data.get? j).map (·.ParentIdx)

/-- The array region starting at `i` is the pre-order layout of shape `b`:
node types match the shapes, child pointers point at the pre-order
positions, absent children are 0, and children's parent pointers name
`i`. -/
inductive pDecodes (tree : binTree) : Nat → BT → Prop
  | leaf {i : Nat} {nd : binTreeNode} :
      tree.data.get? i = some nd → nd.NodeType = .leaf →
      nd.Left = 0 → nd.Right = 0 →
      pDecodes tree i .leafB
  | unary {i : Nat} {nd : binTreeNode} {c : BT} :
      tree.data.get? i = some nd →
      (nd.NodeType = .not ∨ nd.NodeType = .loop) →
      nd.Left = i + 1 → nd.Right = 0 →
      nodeParent tree (i + 1) = some i →
      pDecodes tree (i + 1) c →
      pDecodes tree i (.unary c)
  | binary {i : Nat} {nd : binTreeNode} {l r : BT} :
      tree.data.get? i = some nd →
      (nd.NodeType = .or ∨ nd.NodeType = .and ∨ nd.NodeType = .neor) →
      nd.Left = i + 1 → nd.Right = i + 1 + l.size →
      nodeParent tree (i + 1) = some i →
      nodeParent tree (i + 1 + l.size) = some i →
      pDecodes tree (i + 1) l →
      pDecodes tree (i + 1 + l.size) r →
      pDecodes tree i (.binary l r)

/-- The §3.1 validity of a whole tree: the root region decodes to a shape
covering the entire array, and the root's parent pointer is 0 (itself). -/
def specValid (tree : binTree) : Prop :=
  ∃ b : BT, pDecodes tree 0 b ∧ b.size = tree.data.length ∧
    nodeParent tree 0 = some 0

/-- `b` is a child of `a` through the stored child pointers (the links the
runtime walkers follow). -/
def childOf (tree : binTree) (a b : Nat) : Prop :=
  ∃ nd, tree.data.get? a = some nd ∧
    ((binTreeNodeTypeHasLeft nd.NodeType = true ∧ b = nd.Left) ∨
     (binTreeNodeTypeHasRight nd.NodeType = true ∧ b = nd.Right))

/-- `j` is reachable from `a` through child links whose targets are all
`Unknown` in `sd` — exactly the nodes the pruned depth-first walk of
`resolveRecursive` reaches and resolves. -/
inductive UDesc (tree : binTree) (sd : List binTreeStateValue) : Nat → Nat → Prop
  | base {a b : Nat} : childOf tree a b → sd.get? b = some .unknown →
      UDesc tree sd a b
  | cons {a b j : Nat} : childOf tree a b → sd.get? b = some .unknown →
      UDesc tree sd b j → UDesc tree sd a j

/-- Plain link-reachability (any number of child-link steps). -/
inductive Reaches (tree : binTree) : Nat → Nat → Prop
  | base {a b : Nat} : childOf tree a b → Reaches tree a b
  | cons {a b j : Nat} : childOf tree a b → Reaches tree b j → Reaches tree a j

theorem get?_some_of_lt {α : Type} {l : List α} {j : Nat} (h : j < l.length) :
    ∃ w, l.get? j = some w := by
  rcases hw : l.get? j with _ | w
  · rw [List.get?_eq_none] at hw; omega
  · exact ⟨w, rfl⟩

theorem pDecodes_get {tree : binTree} {i : Nat} {b : BT}
    (h : pDecodes tree i b) : ∃ nd, tree.data.get? i = some nd := by
  cases h with
  | leaf hget _ _ _ => exact ⟨_, hget⟩
  | unary hget _ _ _ _ _ => exact ⟨_, hget⟩
  | binary hget _ _ _ _ _ _ _ => exact ⟨_, hget⟩

theorem pDecodes_lt {tree : binTree} {i : Nat} {b : BT}
    (h : pDecodes tree i b) : i < tree.data.length := by
  obtain ⟨nd, hnd⟩ := pDecodes_get h
  exact lt_length_of_get?_eq_some hnd

/-- Every strict sub-position of a decoded region decodes to a shape lying
inside the region. -/
theorem pDecodes_sub {tree : binTree} {i : Nat} {b : BT}
    (h : pDecodes tree i b) :
    ∀ j, i < j → j < i + b.size →
      ∃ c : BT, pDecodes tree j c ∧ j + c.size ≤ i + b.size := by
  induction h with
  | leaf _ _ _ _ =>
    intro j h1 h2
    simp [BT.size] at h2
    omega
  | unary hget hty hleft hright hpar hc ih =>
    rename_i i nd c
    intro j h1 h2
    simp only [BT.size] at h2
    rcases Nat.lt_or_ge (i + 1) j with hj | hj
    · obtain ⟨d, hd, hbound⟩ := ih j hj (by omega)
      exact ⟨d, hd, by simp [BT.size]; omega⟩
    · have : j = i + 1 := by omega
      subst this
      exact ⟨c, hc, by simp [BT.size]; omega⟩
  | binary hget hty hleft hright hparl hparr hl hr ihl ihr =>
    rename_i i nd l r
    intro j h1 h2
    simp only [BT.size] at h2
    rcases Nat.lt_or_ge j (i + 1 + l.size) with hj | hj
    · rcases Nat.lt_or_ge (i + 1) j with hj2 | hj2
      · obtain ⟨d, hd, hbound⟩ := ihl j hj2 hj
        exact ⟨d, hd, by simp [BT.size]; omega⟩
      · have : j = i + 1 := by omega
        subst this
        exact ⟨l, hl, by simp [BT.size]; omega⟩
    · rcases Nat.lt_or_ge (i + 1 + l.size) j with hj2 | hj2
      · obtain ⟨d, hd, hbound⟩ := ihr j hj2 (by omega)
        exact ⟨d, hd, by simp [BT.size]; omega⟩
      · have : j = i + 1 + l.size := by omega
        subst this
        exact ⟨r, hr, by simp [BT.size]; omega⟩

theorem hasLeft_of_unary {t : BinTreeNodeType} (h : t = .not ∨ t = .loop) :
    binTreeNodeTypeHasLeft t = true := by
  rcases h with h | h <;> subst h <;> rfl

theorem hasRight_false_of_unary {t : BinTreeNodeType}
    (h : t = .not ∨ t = .loop) : binTreeNodeTypeHasRight t = false := by
  rcases h with h | h <;> subst h <;> rfl

theorem hasLeft_of_binary {t : BinTreeNodeType}
    (h : t = .or ∨ t = .and ∨ t = .neor) :
    binTreeNodeTypeHasLeft t = true := by
  rcases h with h | h | h <;> subst h <;> rfl

theorem hasRight_of_binary {t : BinTreeNodeType}
    (h : t = .or ∨ t = .and ∨ t = .neor) :
    binTreeNodeTypeHasRight t = true := by
  rcases h with h | h | h <;> subst h <;> rfl

/-- The pointer children of a decoded node sit strictly inside its region
and are themselves decoded. -/
theorem childOf_pDecodes {tree : binTree} {i c : Nat} {b : BT}
    (hdec : pDecodes tree i b) (hch : childOf tree i c) :
    ∃ bc : BT, pDecodes tree c bc ∧ i < c ∧ c + bc.size ≤ i + b.size := by
  obtain ⟨nd, hget, hdir⟩ := hch
  cases hdec with
  | leaf hget2 hty _ _ =>
    rw [hget2] at hget
    cases hget
    rcases hdir with ⟨hhas, _⟩ | ⟨hhas, _⟩ <;>
      · rw [hty] at hhas; cases hhas
  | unary hget2 hty hleft hright hpar hc =>
    rename_i nd2 cc
    rw [hget2] at hget
    cases hget
    rcases hdir with ⟨_, hc2⟩ | ⟨hhas, _⟩
    · rw [hleft] at hc2
      subst hc2
      exact ⟨cc, hc, by omega, by simp [BT.size]; omega⟩
    · rw [hasRight_false_of_unary hty] at hhas
      cases hhas
  | binary hget2 hty hleft hright hparl hparr hl hr =>
    rename_i nd2 l r
    rw [hget2] at hget
    cases hget
    rcases hdir with ⟨_, hc2⟩ | ⟨_, hc2⟩
    · rw [hleft] at hc2
      subst hc2
      exact ⟨l, hl, by omega, by simp [BT.size]; omega⟩
    · rw [hright] at hc2
      subst hc2
      exact ⟨r, hr, by omega, by simp [BT.size]; omega⟩

/-- A `UDesc` target lies strictly inside the region of the start node. -/
theorem udesc_range {tree : binTree} {sd : List binTreeStateValue} :
    ∀ {a j : Nat}, UDesc tree sd a j →
      ∀ {b : BT}, pDecodes tree a b → a < j ∧ j < a + b.size := by
  intro a j hud
  induction hud with
  | base hch _ =>
    intro b hdec
    obtain ⟨bc, _, h1, h2⟩ := childOf_pDecodes hdec hch
    have := bc.size_pos
    omega
  | cons hch _ _ ih =>
    rename_i a c j
    intro b hdec
    obtain ⟨bc, hbc, h1, h2⟩ := childOf_pDecodes hdec hch
    have h3 := ih hbc
    omega

/-- Reachability through `Unknown` links only looks at cells strictly
inside the region, so it is stable under changes outside it. -/
theorem udesc_congr {tree : binTree} {sd1 sd2 : List binTreeStateValue} :
    ∀ {a j : Nat}, UDesc tree sd1 a j →
      ∀ {b : BT}, pDecodes tree a b →
      (∀ p, a < p → p < a + b.size → sd2.get? p = sd1.get? p) →
      UDesc tree sd2 a j := by
  intro a j hud
  induction hud with
  | base hch hU =>
    rename_i a c
    intro b hdec heq
    obtain ⟨bc, _, h1, h2⟩ := childOf_pDecodes hdec hch
    have := bc.size_pos
    exact UDesc.base hch (by rw [heq c h1 (by omega)]; exact hU)
  | cons hch hU htail ih =>
    rename_i a c j
    intro b hdec heq
    obtain ⟨bc, hbc, h1, h2⟩ := childOf_pDecodes hdec hch
    have hcpos := bc.size_pos
    refine UDesc.cons hch (by rw [heq c h1 (by omega)]; exact hU) ?_
    exact ih hbc (fun p hp1 hp2 => heq p (by omega) (by omega))

/-- First-step decomposition of `UDesc` at a unary node. -/
theorem udesc_unary_step {tree : binTree} {sd : List binTreeStateValue}
    {i j : Nat} {nd : binTreeNode}
    (hget : tree.data.get? i = some nd)
    (hty : nd.NodeType = .not ∨ nd.NodeType = .loop)
    (hleft : nd.Left = i + 1)
    (hud : UDesc tree sd i j) :
    sd.get? (i + 1) = some .unknown ∧ (j = i + 1 ∨ UDesc tree sd (i + 1) j) := by
  cases hud with
  | base hch hU =>
    obtain ⟨nd2, hget2, hdir⟩ := hch
    rw [hget] at hget2
    cases hget2
    rcases hdir with ⟨_, hj⟩ | ⟨hhas, _⟩
    · rw [hleft] at hj
      subst hj
      exact ⟨hU, Or.inl rfl⟩
    · rw [hasRight_false_of_unary hty] at hhas
      cases hhas
  | cons hch hU htail =>
    rename_i c
    obtain ⟨nd2, hget2, hdir⟩ := hch
    rw [hget] at hget2
    cases hget2
    rcases hdir with ⟨_, hj⟩ | ⟨hhas, _⟩
    · rw [hleft] at hj
      subst hj
      exact ⟨hU, Or.inr htail⟩
    · rw [hasRight_false_of_unary hty] at hhas
      cases hhas

/-- First-step decomposition of `UDesc` at a binary node. -/
theorem udesc_binary_step {tree : binTree} {sd : List binTreeStateValue}
    {i j : Nat} {nd : binTreeNode} {rpos : Nat}
    (hget : tree.data.get? i = some nd)
    (hleft : nd.Left = i + 1) (hright : nd.Right = rpos)
    (hud : UDesc tree sd i j) :
    (sd.get? (i + 1) = some .unknown ∧ (j = i + 1 ∨ UDesc tree sd (i + 1) j)) ∨
    (sd.get? rpos = some .unknown ∧ (j = rpos ∨ UDesc tree sd rpos j)) := by
  cases hud with
  | base hch hU =>
    obtain ⟨nd2, hget2, hdir⟩ := hch
    rw [hget] at hget2
    cases hget2
    rcases hdir with ⟨_, hj⟩ | ⟨_, hj⟩
    · rw [hleft] at hj; subst hj; exact Or.inl ⟨hU, Or.inl rfl⟩
    · rw [hright] at hj; subst hj; exact Or.inr ⟨hU, Or.inl rfl⟩
  | cons hch hU htail =>
    obtain ⟨nd2, hget2, hdir⟩ := hch
    rw [hget] at hget2
    cases hget2
    rcases hdir with ⟨_, hj⟩ | ⟨_, hj⟩
    · rw [hleft] at hj; subst hj; exact Or.inl ⟨hU, Or.inr htail⟩
    · rw [hright] at hj; subst hj; exact Or.inr ⟨hU, Or.inr htail⟩

/-! ## Characterizing `resolveRecursive` on decoded subtrees

On a spec-valid subtree, the pruned walk of `resolveRecursive` resolves
exactly the cells reachable from the start node through `Unknown` links
(`UDesc`), and leaves every other cell unchanged. -/

/-- One child phase of `resolveRecursive` (the shared `if Unknown then set
and recurse else keep` pattern), characterized against the decoded child
subtree.  The characterization of the recursive call is taken as a
hypothesis `IH` so that the lemma can serve both phases inside the main
induction. -/
theorem resolve_child_step {tree : binTree} {c : BT}
    (IH : ∀ {i : Nat} {sd : List binTreeStateValue} {fuel : Nat},
      pDecodes tree i c → sd.length = tree.data.length → c.size ≤ fuel →
      ∃ sd', resolveRecursive tree fuel i sd = some sd' ∧
        sd'.length = sd.length ∧
        (∀ j, (j ≤ i ∨ i + c.size ≤ j) → sd'.get? j = sd.get? j) ∧
        (∀ j, i < j → j < i + c.size →
          (UDesc tree sd i j → sd'.get? j = some .resolved) ∧
          (¬ UDesc tree sd i j → sd'.get? j = sd.get? j)))
    {cpos : Nat} {sd : List binTreeStateValue} {fuel : Nat}
    (hdec : pDecodes tree cpos c) (hlen : sd.length = tree.data.length)
    (hfuel : c.size ≤ fuel) :
    ∃ sdmid,
      (match sd.get? cpos with
        | none => none
        | some v =>
          if v = .unknown then
            resolveRecursive tree fuel cpos (sd.set cpos .resolved)
          else some sd) = some sdmid ∧
      sdmid.length = sd.length ∧
      (∀ j, j ≠ cpos → (j ≤ cpos ∨ cpos + c.size ≤ j) →
        sdmid.get? j = sd.get? j) ∧
      (sd.get? cpos = some .unknown →
        sdmid.get? cpos = some .resolved ∧
        ∀ j, cpos < j → j < cpos + c.size →
          (UDesc tree sd cpos j → sdmid.get? j = some .resolved) ∧
          (¬ UDesc tree sd cpos j → sdmid.get? j = sd.get? j)) ∧
      (∀ w, sd.get? cpos = some w → w ≠ .unknown → sdmid = sd) := by
  have hcpos : cpos < sd.length := by
    rw [hlen]; exact pDecodes_lt hdec
  obtain ⟨w, hw⟩ := get?_some_of_lt hcpos
  by_cases hU : w = .unknown
  · subst hU
    have hlen0 : (sd.set cpos .resolved).length = tree.data.length := by
      rw [List.length_set]; exact hlen
    obtain ⟨sdm, hrec, hlenm, houtm, hinm⟩ := IH hdec hlen0 hfuel
    have hagree : ∀ p, cpos < p → p < cpos + c.size →
        (sd.set cpos .resolved).get? p = sd.get? p :=
      fun p hp1 _ => get?_set_of_ne _ _ (by omega)
    refine ⟨sdm, ?_, ?_, ?_, ?_, ?_⟩
    · rw [hw]; simp [hrec]
    · rw [hlenm, List.length_set]
    · intro j hj1 hj2
      rw [houtm j (by rcases hj2 with hj2 | hj2 <;> omega),
        get?_set_of_ne _ _ (fun hc => hj1 hc.symm)]
    · intro _
      refine ⟨?_, ?_⟩
      · rw [houtm cpos (Or.inl (le_refl cpos)),
          get?_set_self _ _ _ hcpos]
      · intro j hj1 hj2
        constructor
        · intro hud
          exact (hinm j hj1 hj2).1 (udesc_congr hud hdec hagree)
        · intro hnud
          have : ¬ UDesc tree (sd.set cpos .resolved) cpos j := fun hud0 =>
            hnud (udesc_congr hud0 hdec (fun p hp1 hp2 => (hagree p hp1 hp2).symm))
          rw [(hinm j hj1 hj2).2 this, hagree j hj1 hj2]
    · intro w2 hw2 hw2ne
      rw [hw] at hw2
      cases hw2
      exact absurd rfl hw2ne
  · refine ⟨sd, ?_, rfl, fun _ _ _ => rfl, ?_, fun _ _ _ => rfl⟩
    · rw [hw]; simp [hU]
    · intro hcontra
      rw [hw] at hcontra
      cases hcontra
      exact absurd rfl hU

/-- On a decoded subtree, a sufficiently fuelled `resolveRecursive` returns,
resolves exactly the `Unknown`-reachable strict descendants of the start
node, and changes nothing else. -/
theorem resolveRecursive_char {tree : binTree} {b : BT} :
    ∀ {i : Nat} {sd : List binTreeStateValue} {fuel : Nat},
      pDecodes tree i b → sd.length = tree.data.length → b.size ≤ fuel →
      ∃ sd', resolveRecursive tree fuel i sd = some sd' ∧
        sd'.length = sd.length ∧
        (∀ j, (j ≤ i ∨ i + b.size ≤ j) → sd'.get? j = sd.get? j) ∧
        (∀ j, i < j → j < i + b.size →
          (UDesc tree sd i j → sd'.get? j = some .resolved) ∧
          (¬ UDesc tree sd i j → sd'.get? j = sd.get? j)) := by
  induction b with
  | leafB =>
    intro i sd fuel hdec hlen hfuel
    obtain ⟨f, rfl⟩ : ∃ f, fuel = f + 1 :=
      ⟨fuel - 1, by have := BT.size_pos .leafB; omega⟩
    cases hdec with
    | leaf hget hty hl0 hr0 =>
      rename_i nd
      have hL : binTreeNodeTypeHasLeft nd.NodeType = false := by rw [hty]; rfl
      have hR : binTreeNodeTypeHasRight nd.NodeType = false := by rw [hty]; rfl
      refine ⟨sd, ?_, rfl, fun _ _ => rfl, ?_⟩
      · rw [resolveRecursive, hget]
        simp [hL, hR]
      · intro j h1 h2
        exfalso
        simp [BT.size] at h2
        omega
  | unary c ih =>
    intro i sd fuel hdec hlen hfuel
    obtain ⟨f, rfl⟩ : ∃ f, fuel = f + 1 :=
      ⟨fuel - 1, by have := BT.size_pos (.unary c); omega⟩
    cases hdec with
    | unary hget hty hleft hright hpar hc =>
      rename_i nd
      have hL : binTreeNodeTypeHasLeft nd.NodeType = true := hasLeft_of_unary hty
      have hR : binTreeNodeTypeHasRight nd.NodeType = false :=
        hasRight_false_of_unary hty
      have hcf : c.size ≤ f := by simp [BT.size] at hfuel; omega
      obtain ⟨sdmid, hstep, hlenm, houtm, hUm, hkeepm⟩ :=
        resolve_child_step (fun {x y z} => ih) hc hlen hcf
      have hchild : childOf tree i (i + 1) :=
        ⟨nd, hget, Or.inl ⟨hL, hleft.symm⟩⟩
      have hcpos : i + 1 < sd.length := by rw [hlen]; exact pDecodes_lt hc
      refine ⟨sdmid, ?_, hlenm, ?_, ?_⟩
      · rw [resolveRecursive, hget]
        simp only [hL, hleft, hR, if_true, if_false, Bool.false_eq_true]
        rw [hstep]
      · intro j hj
        have hsz : BT.size (.unary c) = c.size + 1 := rfl
        have hcsz := c.size_pos
        rw [hsz] at hj
        exact houtm j (by omega) (by omega)
      · intro j h1 h2
        have hsz : j < i + 1 + c.size := by
          have : BT.size (.unary c) = c.size + 1 := rfl
          omega
        by_cases hji : j = i + 1
        · subst hji
          obtain ⟨w, hw⟩ := get?_some_of_lt hcpos
          by_cases hwU : w = .unknown
          · subst hwU
            exact ⟨fun _ => (hUm hw).1, fun hnud => absurd (UDesc.base hchild hw) hnud⟩
          · have hmid : sdmid = sd := hkeepm w hw hwU
            constructor
            · intro hud
              obtain ⟨hUc, _⟩ := udesc_unary_step hget hty hleft hud
              rw [hw] at hUc
              cases hUc
              exact absurd rfl hwU
            · intro _
              rw [hmid]
        · have hj2 : i + 1 < j := by omega
          obtain ⟨w, hw⟩ := get?_some_of_lt hcpos
          by_cases hwU : w = .unknown
          · subst hwU
            constructor
            · intro hud
              obtain ⟨_, hrest⟩ := udesc_unary_step hget hty hleft hud
              rcases hrest with heq | hud2
              · exact absurd heq hji
              · exact ((hUm hw).2 j hj2 hsz).1 hud2
            · intro hnud
              have : ¬ UDesc tree sd (i + 1) j := fun hud2 =>
                hnud (UDesc.cons hchild hw hud2)
              exact ((hUm hw).2 j hj2 hsz).2 this
          · have hmid : sdmid = sd := hkeepm w hw hwU
            constructor
            · intro hud
              obtain ⟨hUc, _⟩ := udesc_unary_step hget hty hleft hud
              rw [hw] at hUc
              cases hUc
              exact absurd rfl hwU
            · intro _
              rw [hmid]
  | binary l r ihl ihr =>
    intro i sd fuel hdec hlen hfuel
    obtain ⟨f, rfl⟩ : ∃ f, fuel = f + 1 :=
      ⟨fuel - 1, by have := BT.size_pos (.binary l r); omega⟩
    cases hdec with
    | binary hget hty hleft hright hparl hparr hl hr =>
      rename_i nd
      have hL : binTreeNodeTypeHasLeft nd.NodeType = true := hasLeft_of_binary hty
      have hR : binTreeNodeTypeHasRight nd.NodeType = true :=
        hasRight_of_binary hty
      have hsz : BT.size (.binary l r) = l.size + r.size + 1 := rfl
      have hlf : l.size ≤ f := by rw [hsz] at hfuel; omega
      have hrf : r.size ≤ f := by rw [hsz] at hfuel; omega
      have hlpos := l.size_pos
      have hrpos := r.size_pos
      obtain ⟨sdmid, hstepL, hlenm, houtm, hUm, hkeepm⟩ :=
        resolve_child_step (fun {x y z} => ihl) hl hlen hlf
      have hlen2 : sdmid.length = tree.data.length := hlenm.trans hlen
      obtain ⟨sdfin, hstepR, hlenf, houtf, hUf, hkeepf⟩ :=
        resolve_child_step (fun {x y z} => ihr) hr hlen2 hrf
      have hchL : childOf tree i (i + 1) := ⟨nd, hget, Or.inl ⟨hL, hleft.symm⟩⟩
      have hchR : childOf tree i (i + 1 + l.size) :=
        ⟨nd, hget, Or.inr ⟨hR, hright.symm⟩⟩
      have hposL : i + 1 < sd.length := by rw [hlen]; exact pDecodes_lt hl
      have hposR : i + 1 + l.size < sd.length := by rw [hlen]; exact pDecodes_lt hr
      -- the left phase does not touch the right region
      have hagree : ∀ p, i + 1 + l.size ≤ p → sdmid.get? p = sd.get? p :=
        fun p hp => houtm p (by omega) (by omega)
      -- reachability from the right child is the same before and after the
      -- left phase
      have hcongrR : ∀ {j}, UDesc tree sd (i + 1 + l.size) j ↔
          UDesc tree sdmid (i + 1 + l.size) j := by
        intro j
        constructor
        · intro hud
          exact udesc_congr hud hr (fun p hp1 _ => hagree p (by omega))
        · intro hud
          exact udesc_congr hud hr (fun p hp1 _ => (hagree p (by omega)).symm)
      refine ⟨sdfin, ?_, hlenf.trans hlenm, ?_, ?_⟩
      · rw [resolveRecursive, hget]
        simp only [hL, hleft, hR, if_true]
        rw [hstepL]
        simp only [hright]
        rw [hstepR]
      · intro j hj
        rw [hsz] at hj
        rw [houtf j (by omega) (by omega)]
        exact houtm j (by omega) (by omega)
      · intro j h1 h2
        rw [hsz] at h2
        rcases Nat.lt_or_ge j (i + 1 + l.size) with hjzone | hjzone
        · -- j lies in the left region (including the left child itself)
          have hfin_mid : sdfin.get? j = sdmid.get? j :=
            houtf j (by omega) (by omega)
          by_cases hji : j = i + 1
          · subst hji
            obtain ⟨w, hw⟩ := get?_some_of_lt hposL
            by_cases hwU : w = .unknown
            · subst hwU
              refine ⟨fun _ => by rw [hfin_mid]; exact (hUm hw).1,
                fun hnud => absurd (UDesc.base hchL hw) hnud⟩
            · have hmid : sdmid = sd := hkeepm w hw hwU
              constructor
              · intro hud
                rcases udesc_binary_step hget hleft hright hud with
                  ⟨hUc, _⟩ | ⟨_, hrest⟩
                · rw [hw] at hUc; cases hUc; exact absurd rfl hwU
                · rcases hrest with heq | hud2
                  · omega
                  · have := (udesc_range hud2 hr).1
                    omega
              · intro _
                rw [hfin_mid, hmid]
          · have hj2 : i + 1 < j := by omega
            obtain ⟨w, hw⟩ := get?_some_of_lt hposL
            by_cases hwU : w = .unknown
            · subst hwU
              constructor
              · intro hud
                rcases udesc_binary_step hget hleft hright hud with
                  ⟨_, hrest⟩ | ⟨_, hrest⟩
                · rcases hrest with heq | hud2
                  · exact absurd heq hji
                  · rw [hfin_mid]
                    exact ((hUm hw).2 j hj2 (by omega)).1 hud2
                · rcases hrest with heq | hud2
                  · omega
                  · have := (udesc_range hud2 hr).1
                    omega
              · intro hnud
                have : ¬ UDesc tree sd (i + 1) j := fun hud2 =>
                  hnud (UDesc.cons hchL hw hud2)
                rw [hfin_mid]
                exact ((hUm hw).2 j hj2 (by omega)).2 this
            · have hmid : sdmid = sd := hkeepm w hw hwU
              constructor
              · intro hud
                rcases udesc_binary_step hget hleft hright hud with
                  ⟨hUc, _⟩ | ⟨_, hrest⟩
                · rw [hw] at hUc; cases hUc; exact absurd rfl hwU
                · rcases hrest with heq | hud2
                  · omega
                  · have := (udesc_range hud2 hr).1
                    omega
              · intro _
                rw [hfin_mid, hmid]
        · -- j lies in the right region (including the right child itself)
          have hmid_sd : sdmid.get? j = sd.get? j := hagree j hjzone
          have hmid_r : sdmid.get? (i + 1 + l.size) = sd.get? (i + 1 + l.size) :=
            hagree _ (le_refl _)
          obtain ⟨w, hw⟩ := get?_some_of_lt hposR
          have hwm : sdmid.get? (i + 1 + l.size) = some w := by rw [hmid_r]; exact hw
          by_cases hji : j = i + 1 + l.size
          · subst hji
            by_cases hwU : w = .unknown
            · subst hwU
              refine ⟨fun _ => (hUf hwm).1,
                fun hnud => absurd (UDesc.base hchR hw) hnud⟩
            · have hfin : sdfin = sdmid := hkeepf w hwm hwU
              constructor
              · intro hud
                rcases udesc_binary_step hget hleft hright hud with
                  ⟨_, hrest⟩ | ⟨hUc, _⟩
                · rcases hrest with heq | hud2
                  · omega
                  · have := (udesc_range hud2 hl).2
                    omega
                · rw [hw] at hUc; cases hUc; exact absurd rfl hwU
              · intro _
                rw [hfin, hmid_sd]
          · have hj2 : i + 1 + l.size < j := by omega
            by_cases hwU : w = .unknown
            · subst hwU
              constructor
              · intro hud
                rcases udesc_binary_step hget hleft hright hud with
                  ⟨_, hrest⟩ | ⟨_, hrest⟩
                · rcases hrest with heq | hud2
                  · omega
                  · have := (udesc_range hud2 hl).2
                    omega
                · rcases hrest with heq | hud2
                  · exact absurd heq hji
                  · exact ((hUf hwm).2 j hj2 (by omega)).1 (hcongrR.mp hud2)
              · intro hnud
                have : ¬ UDesc tree sdmid (i + 1 + l.size) j := fun hud2 =>
                  hnud (UDesc.cons hchR hw (hcongrR.mpr hud2))
                rw [((hUf hwm).2 j hj2 (by omega)).2 this]
                exact hmid_sd
            · have hfin : sdfin = sdmid := hkeepf w hwm hwU
              constructor
              · intro hud
                rcases udesc_binary_step hget hleft hright hud with
                  ⟨_, hrest⟩ | ⟨hUc, _⟩
                · rcases hrest with heq | hud2
                  · omega
                  · have := (udesc_range hud2 hl).2
                    omega
                · rw [hw] at hUc; cases hUc; exact absurd rfl hwU
              · intro _
                rw [hfin, hmid_sd]

/-- The decoded region fits inside the array. -/
theorem pDecodes_bound {tree : binTree} :
    ∀ {i : Nat} {b : BT}, pDecodes tree i b → i + b.size ≤ tree.data.length := by
  intro i b h
  induction h with
  | leaf hget _ _ _ =>
    have := lt_length_of_get?_eq_some hget
    simp [BT.size]
    omega
  | unary _ _ _ _ _ _ ih =>
    simp [BT.size] at ih ⊢
    omega
  | binary _ _ _ _ _ _ _ _ ihl ihr =>
    simp [BT.size] at ihl ihr ⊢
    omega

/-- A decoded parent is recorded in its pointer children's parent field. -/
theorem childOf_nodeParent {tree : binTree} {a c : Nat} {ba : BT}
    (hdec : pDecodes tree a ba) (hch : childOf tree a c) :
    nodeParent tree c = some a := by
  obtain ⟨nd, hget, hdir⟩ := hch
  cases hdec with
  | leaf hget2 hty _ _ =>
    rw [hget2] at hget
    cases hget
    rcases hdir with ⟨hhas, _⟩ | ⟨hhas, _⟩ <;> · rw [hty] at hhas; cases hhas
  | unary hget2 hty hleft hright hpar hc =>
    rw [hget2] at hget
    cases hget
    rcases hdir with ⟨_, hc2⟩ | ⟨hhas, _⟩
    · rw [hleft] at hc2; subst hc2; exact hpar
    · rw [hasRight_false_of_unary hty] at hhas; cases hhas
  | binary hget2 hty hleft hright hparl hparr hl hr =>
    rw [hget2] at hget
    cases hget
    rcases hdir with ⟨_, hc2⟩ | ⟨_, hc2⟩
    · rw [hleft] at hc2; subst hc2; exact hparl
    · rw [hright] at hc2; subst hc2; exact hparr

/-- Every strict interior position of a decoded region has a parent inside
the region: its stored parent field names a node `q` with `s ≤ q < j` whose
pointer child it is, and `q` is itself decoded within the region. -/
theorem pDecodes_parent_in {tree : binTree} :
    ∀ {s : Nat} {bs : BT}, pDecodes tree s bs →
      ∀ j, s < j → j < s + bs.size →
        ∃ q, nodeParent tree j = some q ∧ childOf tree q j ∧ s ≤ q ∧ q < j := by
  intro s bs h
  induction h with
  | leaf _ _ _ _ =>
    intro j h1 h2
    simp [BT.size] at h2
    omega
  | unary hget hty hleft hright hpar hc ih =>
    rename_i i nd c
    intro j h1 h2
    simp only [BT.size] at h2
    rcases Nat.lt_or_ge (i + 1) j with hj | hj
    · obtain ⟨q, hq1, hq2, hq3, hq4⟩ := ih j hj (by omega)
      exact ⟨q, hq1, hq2, by omega, hq4⟩
    · have : j = i + 1 := by omega
      subst this
      exact ⟨i, hpar, ⟨nd, hget, Or.inl ⟨hasLeft_of_unary hty, hleft.symm⟩⟩,
        le_refl i, by omega⟩
  | binary hget hty hleft hright hparl hparr hl hr ihl ihr =>
    rename_i i nd l r
    intro j h1 h2
    simp only [BT.size] at h2
    rcases Nat.lt_or_ge j (i + 1 + l.size) with hj | hj
    · rcases Nat.lt_or_ge (i + 1) j with hj2 | hj2
      · obtain ⟨q, hq1, hq2, hq3, hq4⟩ := ihl j hj2 hj
        exact ⟨q, hq1, hq2, by omega, hq4⟩
      · have : j = i + 1 := by omega
        subst this
        exact ⟨i, hparl, ⟨nd, hget, Or.inl ⟨hasLeft_of_binary hty, hleft.symm⟩⟩,
          le_refl i, by omega⟩
    · rcases Nat.lt_or_ge (i + 1 + l.size) j with hj2 | hj2
      · obtain ⟨q, hq1, hq2, hq3, hq4⟩ := ihr j hj2 (by omega)
        exact ⟨q, hq1, hq2, by omega, hq4⟩
      · have : j = i + 1 + l.size := by omega
        subst this
        exact ⟨i, hparr, ⟨nd, hget, Or.inr ⟨hasRight_of_binary hty, hright.symm⟩⟩,
          le_refl i, by omega⟩

/-- The target of a `UDesc` chain is `Unknown`. -/
theorem udesc_target_unknown {tree : binTree} {sd : List binTreeStateValue} :
    ∀ {a j : Nat}, UDesc tree sd a j → sd.get? j = some .unknown := by
  intro a j h
  induction h with
  | base _ hU => exact hU
  | cons _ _ _ ih => exact ih

/-- A chain of `Unknown` links that starts strictly before a decoded region
`[lo, lo + bl.size)` and ends strictly inside it must pass through `lo`
(the unique entry point), so `lo` itself is `Unknown`.  All chain nodes are
assumed reachable from a decoded start node. -/
theorem udesc_crossing {tree : binTree} {sd : List binTreeStateValue}
    {lo : Nat} {bl : BT} (hbl : pDecodes tree lo bl) :
    ∀ {a j : Nat}, UDesc tree sd a j →
      ∀ {ba : BT}, pDecodes tree a ba → a < lo → lo < j → j < lo + bl.size →
      sd.get? lo = some .unknown := by
  intro a j hud
  induction hud with
  | base hch hU =>
    rename_i a c
    intro ba ha halo hloj hjhi
    exfalso
    obtain ⟨q, hq1, _, hq3, hq4⟩ := pDecodes_parent_in hbl c hloj hjhi
    have := childOf_nodeParent ha hch
    rw [this] at hq1
    cases hq1
    omega
  | cons hch hU htail ih =>
    rename_i a c j
    intro ba ha halo hloj hjhi
    obtain ⟨bc, hbc, hac, _⟩ := childOf_pDecodes ha hch
    rcases Nat.lt_trichotomy c lo with hc | hc | hc
    · exact ih hbc hc hloj hjhi
    · subst hc
      exact hU
    · -- `c` is past `lo`: either strictly inside the region (impossible,
      -- since its recorded parent would have to be both `a` and inside) or
      -- past it (impossible, since chains only move to larger indices).
      exfalso
      rcases Nat.lt_or_ge c (lo + bl.size) with hc2 | hc2
      · obtain ⟨q, hq1, _, hq3, hq4⟩ := pDecodes_parent_in hbl c hc hc2
        have := childOf_nodeParent ha hch
        rw [this] at hq1
        cases hq1
        omega
      · have := (udesc_range htail hbc).1
        omega

/-! ## Stall discipline

While the stall index is `s`, a `MarkNode` at or below `s` never changes
any cell outside the decoded region of `s`: the upward cascade stops at `s`
at the latest, and all descendant resolution stays inside the region. -/

mutual

theorem markNode_stall {tree : binTree} {s : Nat} {bs : BT} :
    ∀ {fuel : Nat} {st : binTreeState} {index : Nat} {value : Bool}
      {st' : binTreeState},
      pDecodes tree s bs →
      st.stallIndex = s → st.data.length = tree.data.length →
      s ≤ index → index < s + bs.size →
      MarkNode tree fuel st index value = some st' →
      ∀ j, j < s ∨ s + bs.size ≤ j → st'.data.get? j = st.data.get? j
  | 0, _, _, _, _, _, _, _, _, _, h => by simp [MarkNode] at h
  | fuel + 1, st, index, value, st', hbs, hstall, hlen, hsi, his, h => by
    rw [MarkNode] at h
    split at h
    · cases h
    · rename_i v hv
      split at h
      · cases h
      · rename_i hU
        rw [not_not] at hU
        subst hU
        simp only at h
        split at h
        · cases h
        · rename_i sd1 hres
          -- the subtree of `index` inside the stalled region
          obtain ⟨bi, hbi, hbound⟩ :
              ∃ bi : BT, pDecodes tree index bi ∧
                index + bi.size ≤ s + bs.size := by
            rcases Nat.eq_or_lt_of_le hsi with heq | hlt
            · exact ⟨bs, heq ▸ hbs, heq ▸ le_refl _⟩
            · obtain ⟨bi, hbi, hb⟩ := pDecodes_sub hbs index hlt his
              exact ⟨bi, hbi, hb⟩
          have hlen0 : (st.data.set index (markValue value)).length
              = tree.data.length := by rw [List.length_set]; exact hlen
          have hfuel0 : bi.size ≤ (st.data.set index (markValue value)).length + 1 := by
            have := pDecodes_bound hbi
            rw [hlen0]
            omega
          obtain ⟨sd1x, hrecx, hlenx, houtx, hinx⟩ :=
            resolveRecursive_char hbi hlen0 hfuel0
          rw [hres] at hrecx
          cases hrecx
          have hphase : ∀ j, j < s ∨ s + bs.size ≤ j →
              sd1.get? j = st.data.get? j := by
            intro j hj
            rw [houtx j (by rcases hj with hj | hj <;> omega),
              get?_set_of_ne _ _ (by rcases hj with hj | hj <;> omega)]
          split at h
          · cases h; exact fun j hj => hphase j hj
          · split at h
            · cases h; exact fun j hj => hphase j hj
            · rename_i hne0 hnes
              split at h
              · cases h
              · rename_i defNode hnode
                -- the stall guard did not fire, so `index ≠ s`
                have hstall1 : index ≠ s := by
                  intro hc
                  exact hnes (by simpa [hstall] using hc)
                have hsi2 : s < index := by omega
                obtain ⟨q, hq1, _, hq3, hq4⟩ :=
                  pDecodes_parent_in hbs index hsi2 his
                have hqpar : defNode.ParentIdx = q := by
                  rw [nodeParent, hnode] at hq1
                  simpa using hq1
                intro j hj
                have hchk1 : checkNode tree fuel { st with data := sd1 } q
                    = some st' := by rw [← hqpar]; exact h
                have hstl : ({ st with data := sd1 } : binTreeState).stallIndex
                    = s := hstall
                have hln : ({ st with data := sd1 } : binTreeState).data.length
                    = tree.data.length := by simpa using hlenx.trans hlen0
                have h2 := checkNode_stall hbs hstl hln hq3 (by omega)
                  hchk1 j hj
                rw [h2]
                exact hphase j hj

theorem checkNode_stall {tree : binTree} {s : Nat} {bs : BT} :
    ∀ {fuel : Nat} {st : binTreeState} {index : Nat} {st' : binTreeState},
      pDecodes tree s bs →
      st.stallIndex = s → st.data.length = tree.data.length →
      s ≤ index → index < s + bs.size →
      checkNode tree fuel st index = some st' →
      ∀ j, j < s ∨ s + bs.size ≤ j → st'.data.get? j = st.data.get? j
  | 0, _, _, _, _, _, _, _, _, h => by simp [checkNode] at h
  | fuel + 1, st, index, st', hbs, hstall, hlen, hsi, his, h => by
    rw [checkNode] at h
    have mark := fun {value : Bool} (hm : MarkNode tree fuel st index value = some st') =>
      markNode_stall hbs hstall hlen hsi his hm
    split at h
    · cases h
    · rename_i defNode hnode
      split at h
      · cases h
      · split at h
        · cases h
        · split at h
          · exact mark h
          · split at h
            · cases h
            · split at h
              · exact mark h
              · split at h
                · exact mark h
                · cases h; exact fun _ _ => rfl
      · split at h
        · cases h
        · split at h
          · cases h; exact fun _ _ => rfl
          · split at h
            · cases h
            · split at h
              · cases h; exact fun _ _ => rfl
              · split at h
                · exact mark h
                · exact mark h
      · split at h
        · cases h
        · split at h
          · split at h
            · cases h
            · split at h
              · exact mark h
              · split at h
                · exact mark h
                · cases h; exact fun _ _ => rfl
          · split at h
            · exact mark h
            · split at h
              · cases h
              · split at h
                · exact mark h
                · cases h; exact fun _ _ => rfl
      · split at h
        · cases h
        · split at h
          · exact mark h
          · split at h
            · exact mark h
            · cases h; exact fun _ _ => rfl
      · split at h
        · cases h
        · split at h
          · exact mark h
          · split at h
            · exact mark h
            · cases h; exact fun _ _ => rfl

end

/-- Claim C4, amended with `s ≠ 0`: marks at or below a stalled node `s`
other than the root leave every cell outside `s`'s subtree — in particular
the root — untouched.  (With `stallIndex = 0`, its initial value, the guard
never fires before the root check and a mark can resolve the root; see the
counterexample.) -/
theorem claim_C4 :
    ∀ (tree : binTree) (bs : BT) (st : binTreeState) (s index : Nat)
      (value : Bool) (st' : binTreeState),
      pDecodes tree s bs → st.stallIndex = s → s ≠ 0 →
      st.data.length = tree.data.length →
      s ≤ index → index < s + bs.size →
      st.data.get? 0 = some .unknown →
      binTreeState.MarkNodeTop tree st index value = some st' →
      st'.data.get? 0 = some .unknown := by
  intro tree bs st s index value st' hbs hstall hs0 hlen hsi his hroot h
  rw [markNode_stall hbs hstall hlen hsi his h 0 (Or.inl (by omega))]
  exact hroot

/-- The claim as frozen also covers `stallIndex = 0` (the root itself, which
is also the initial stall value); there a mark below the "stalled node" does
resolve the root. -/
theorem claim_C4_counterexample :
    pDecodes tree2 0 (.binary .leafB .leafB) ∧
    (binTree.NewState tree2).stallIndex = 0 ∧
    0 ≤ 1 ∧ 1 < 0 + (BT.binary .leafB .leafB).size ∧
    (binTree.NewState tree2).data.get? 0 = some .unknown ∧
    binTreeState.MarkNodeTop tree2 (binTree.NewState tree2) 1 true
      = some ⟨[.isTrue, .isTrue, .resolved], 0⟩ ∧
    ¬ (binTreeState.data ⟨[.isTrue, .isTrue, .resolved], 0⟩).get? 0
        = some .unknown :=
  ⟨.binary rfl (Or.inl rfl) rfl rfl rfl rfl (.leaf rfl rfl rfl rfl)
      (.leaf rfl rfl rfl rfl),
   rfl, by omega, by decide, by decide, by decide, by decide⟩

theorem claim_C4_witness :
    pDecodes tree4 1 (.unary (.unary .leafB)) ∧
    (1 : Nat) ≠ 0 ∧
    (1 ≤ 3 ∧ 3 < 1 + (BT.unary (.unary .leafB)).size) ∧
    binTreeState.MarkNodeTop tree4
        ⟨[.unknown, .unknown, .unknown, .unknown], 1⟩ 3 false
      = some ⟨[.unknown, .isFalse, .isTrue, .isFalse], 1⟩ ∧
    (binTreeState.data ⟨[.unknown, .isFalse, .isTrue, .isFalse], 1⟩).get? 0
      = some .unknown :=
  ⟨.unary rfl (Or.inl rfl) rfl rfl rfl
      (.unary rfl (Or.inl rfl) rfl rfl rfl (.leaf rfl rfl rfl rfl)),
   by omega, by decide, by decide,
   claim_C4 tree4 (.unary (.unary .leafB))
     ⟨[.unknown, .unknown, .unknown, .unknown], 1⟩ 1 3 false
     ⟨[.unknown, .isFalse, .isTrue, .isFalse], 1⟩
     (.unary rfl (Or.inl rfl) rfl rfl rfl
       (.unary rfl (Or.inl rfl) rfl rfl rfl (.leaf rfl rfl rfl rfl)))
     rfl (by omega) (by decide) (by decide) (by decide) (by decide)
     (by decide)⟩

/-! ## The upward cascade never re-enters a freshly resolved subtree

After a node is marked, the cascade `checkNode → MarkNode` walks up through
ancestors; each ancestor's descendant resolution prunes at the marked node
(the unique entry point into its region, which is no longer `Unknown`), so
cells inside the region keep the values the first phase gave them. -/

mutual

theorem markNode_out {tree : binTree} {b0 : BT} :
    ∀ {fuel : Nat} {st : binTreeState} {q : Nat} {value : Bool}
      {st' : binTreeState} {bq bl : BT} {lo : Nat},
      pDecodes tree 0 b0 → b0.size = tree.data.length →
      pDecodes tree q bq → pDecodes tree lo bl → q < lo →
      st.data.length = tree.data.length →
      (∃ w, st.data.get? lo = some w ∧ w ≠ .unknown) →
      MarkNode tree fuel st q value = some st' →
      ∀ j, lo ≤ j → j < lo + bl.size → st'.data.get? j = st.data.get? j
  | 0, _, _, _, _, _, _, _, _, _, _, _, _, _, _, h => by simp [MarkNode] at h
  | fuel + 1, st, q, value, st', bq, bl, lo, hb0, hb0sz, hbq, hbl, hqlo,
      hlen, hloval, h => by
    rw [MarkNode] at h
    split at h
    · cases h
    · rename_i v hv
      split at h
      · cases h
      · rename_i hU
        rw [not_not] at hU
        subst hU
        simp only at h
        split at h
        · cases h
        · rename_i sd1 hres
          have hlen0 : (st.data.set q (markValue value)).length
              = tree.data.length := by rw [List.length_set]; exact hlen
          have hfuel0 : bq.size ≤ (st.data.set q (markValue value)).length + 1 := by
            have := pDecodes_bound hbq
            rw [hlen0]
            omega
          obtain ⟨sd1x, hrecx, hlenx, houtx, hinx⟩ :=
            resolveRecursive_char hbq hlen0 hfuel0
          rw [hres] at hrecx
          cases hrecx
          obtain ⟨w, hw, hwne⟩ := hloval
          -- the first phase leaves the `lo` region untouched
          have hphase : ∀ j, lo ≤ j → j < lo + bl.size →
              sd1.get? j = st.data.get? j := by
            intro j hj1 hj2
            have hjq : q ≠ j := by omega
            have hset : (st.data.set q (markValue value)).get? j
                = st.data.get? j := get?_set_of_ne _ _ hjq
            rcases Nat.lt_or_ge j (q + bq.size) with hzone | hzone
            · -- inside the region of `q`: not reachable through `Unknown`
              -- links, because the chain would cross the non-`Unknown` `lo`
              have hnud : ¬ UDesc tree (st.data.set q (markValue value)) q j := by
                intro hud
                have hUlo : (st.data.set q (markValue value)).get? lo
                    = some .unknown := by
                  rcases Nat.eq_or_lt_of_le hj1 with heq | hlt
                  · subst heq
                    exact udesc_target_unknown hud
                  · exact udesc_crossing hbl hud hbq hqlo hlt hj2
                rw [get?_set_of_ne _ _ (by omega), hw] at hUlo
                cases hUlo
                exact absurd rfl hwne
              rw [(hinx j (by omega) hzone).2 hnud]
              exact hset
            · rw [houtx j (Or.inr hzone)]
              exact hset
          split at h
          · cases h; exact hphase
          · split at h
            · cases h; exact hphase
            · rename_i hne0 hnes
              split at h
              · cases h
              · rename_i defNode hnode
                have hq0 : 0 < q := Nat.pos_of_ne_zero hne0
                have hqlen : q < 0 + b0.size := by
                  have := pDecodes_lt hbq
                  omega
                obtain ⟨q2, hq1, _, _, hq4⟩ :=
                  pDecodes_parent_in hb0 q hq0 hqlen
                have hqpar : defNode.ParentIdx = q2 := by
                  rw [nodeParent, hnode] at hq1
                  simpa using hq1
                obtain ⟨bq2, hbq2⟩ : ∃ bq2 : BT, pDecodes tree q2 bq2 := by
                  rcases Nat.eq_zero_or_pos q2 with hz | hz
                  · exact ⟨b0, hz ▸ hb0⟩
                  · obtain ⟨c, hc, _⟩ := pDecodes_sub hb0 q2 hz (by omega)
                    exact ⟨c, hc⟩
                intro j hj1 hj2
                have hchk2 : checkNode tree fuel { st with data := sd1 } q2
                    = some st' := by rw [← hqpar]; exact h
                have h2 := checkNode_out
                  hb0 hb0sz hbq2 hbl (by omega)
                  (by simpa using hlenx.trans hlen0)
                  ⟨w, by rw [hphase lo (le_refl lo) (by have := bl.size_pos; omega)]; exact hw, hwne⟩
                  hchk2 j hj1 hj2
                rw [h2]
                exact hphase j hj1 hj2

theorem checkNode_out {tree : binTree} {b0 : BT} :
    ∀ {fuel : Nat} {st : binTreeState} {q : Nat} {st' : binTreeState}
      {bq bl : BT} {lo : Nat},
      pDecodes tree 0 b0 → b0.size = tree.data.length →
      pDecodes tree q bq → pDecodes tree lo bl → q < lo →
      st.data.length = tree.data.length →
      (∃ w, st.data.get? lo = some w ∧ w ≠ .unknown) →
      checkNode tree fuel st q = some st' →
      ∀ j, lo ≤ j → j < lo + bl.size → st'.data.get? j = st.data.get? j
  | 0, _, _, _, _, _, _, _, _, _, _, _, _, _, h => by simp [checkNode] at h
  | fuel + 1, st, q, st', bq, bl, lo, hb0, hb0sz, hbq, hbl, hqlo, hlen,
      hloval, h => by
    rw [checkNode] at h
    have mark := fun {value : Bool} (hm : MarkNode tree fuel st q value = some st') =>
      markNode_out hb0 hb0sz hbq hbl hqlo hlen hloval hm
    split at h
    · cases h
    · rename_i defNode hnode
      split at h
      · cases h
      · split at h
        · cases h
        · split at h
          · exact mark h
          · split at h
            · cases h
            · split at h
              · exact mark h
              · split at h
                · exact mark h
                · cases h; exact fun _ _ _ => rfl
      · split at h
        · cases h
        · split at h
          · cases h; exact fun _ _ _ => rfl
          · split at h
            · cases h
            · split at h
              · cases h; exact fun _ _ _ => rfl
              · split at h
                · exact mark h
                · exact mark h
      · split at h
        · cases h
        · split at h
          · split at h
            · cases h
            · split at h
              · exact mark h
              · split at h
                · exact mark h
                · cases h; exact fun _ _ _ => rfl
          · split at h
            · exact mark h
            · split at h
              · cases h
              · split at h
                · exact mark h
                · cases h; exact fun _ _ _ => rfl
      · split at h
        · cases h
        · split at h
          · exact mark h
          · split at h
            · exact mark h
            · cases h; exact fun _ _ _ => rfl
      · split at h
        · cases h
        · split at h
          · exact mark h
          · split at h
            · exact mark h
            · cases h; exact fun _ _ _ => rfl

end

/-- Claim C1, amended: on a spec-valid tree, a successful
`MarkNode(index, v)` writes the truth value at `index` and sets to
`Resolved` exactly those descendants of `index` that are reachable from it
through a chain of `Unknown` nodes — the depth-first walk prunes at the
first non-`Unknown` node, so `Unknown` descendants hidden below a resolved
interior node are left `Unknown`; every other cell below `index` is
unchanged. -/
theorem claim_C1 :
    ∀ (tree : binTree) (b0 bi : BT) (st : binTreeState) (index : Nat)
      (value : Bool) (st' : binTreeState),
      pDecodes tree 0 b0 → b0.size = tree.data.length →
      pDecodes tree index bi →
      st.data.length = tree.data.length →
      st.data.get? index = some .unknown →
      binTreeState.MarkNodeTop tree st index value = some st' →
      st'.data.get? index = some (markValue value) ∧
      ∀ j, index < j → j < index + bi.size →
        (UDesc tree st.data index j → st'.data.get? j = some .resolved) ∧
        (¬ UDesc tree st.data index j → st'.data.get? j = st.data.get? j) := by
  intro tree b0 bi st index value st' hb0 hb0sz hbi hlen hUidx h
  refine ⟨markNode_sets h, ?_⟩
  rw [binTreeState.MarkNodeTop] at h
  rw [show markFuel st = (2 * st.data.length + 1) + 1 from rfl, MarkNode] at h
  split at h
  · cases h
  · rename_i v hv
    rw [hUidx] at hv
    cases hv
    split at h
    · cases h
    · simp only at h
      split at h
      · cases h
      · rename_i sd1 hres
        have hlen0 : (st.data.set index (markValue value)).length
            = tree.data.length := by rw [List.length_set]; exact hlen
        have hfuel0 : bi.size ≤ (st.data.set index (markValue value)).length + 1 := by
          have := pDecodes_bound hbi
          rw [hlen0]
          omega
        obtain ⟨sd1x, hrecx, hlenx, houtx, hinx⟩ :=
          resolveRecursive_char hbi hlen0 hfuel0
        rw [hres] at hrecx
        cases hrecx
        -- reachability is the same before and after the write at `index`
        have hcongr : ∀ {j}, UDesc tree st.data index j ↔
            UDesc tree (st.data.set index (markValue value)) index j := by
          intro j
          constructor
          · intro hud
            exact udesc_congr hud hbi (fun p hp1 _ => get?_set_of_ne _ _ (by omega))
          · intro hud
            exact udesc_congr hud hbi (fun p hp1 _ => (get?_set_of_ne _ _ (by omega)).symm)
        have hchar : ∀ j, index < j → j < index + bi.size →
            (UDesc tree st.data index j → sd1.get? j = some .resolved) ∧
            (¬ UDesc tree st.data index j → sd1.get? j = st.data.get? j) := by
          intro j h1 h2
          constructor
          · intro hud
            exact (hinx j h1 h2).1 (hcongr.mp hud)
          · intro hnud
            rw [(hinx j h1 h2).2 (fun hud => hnud (hcongr.mpr hud))]
            exact get?_set_of_ne _ _ (by omega)
        split at h
        · cases h
          exact hchar
        · split at h
          · cases h
            exact hchar
          · rename_i hne0 hnes
            split at h
            · cases h
            · rename_i defNode hnode
              have hidx0 : 0 < index := Nat.pos_of_ne_zero hne0
              have hidxlen : index < 0 + b0.size := by
                have := pDecodes_lt hbi
                omega
              obtain ⟨q2, hq1, _, _, hq4⟩ := pDecodes_parent_in hb0 index hidx0 hidxlen
              have hqpar : defNode.ParentIdx = q2 := by
                rw [nodeParent, hnode] at hq1
                simpa using hq1
              obtain ⟨bq2, hbq2⟩ : ∃ bq2 : BT, pDecodes tree q2 bq2 := by
                rcases Nat.eq_zero_or_pos q2 with hz | hz
                · exact ⟨b0, hz ▸ hb0⟩
                · obtain ⟨c, hc, _⟩ := pDecodes_sub hb0 q2 hz (by omega)
                  exact ⟨c, hc⟩
              have hmarked : sd1.get? index = some (markValue value) := by
                rw [houtx index (Or.inl (le_refl index))]
                exact get?_set_self _ _ _ (by
                  have := lt_length_of_get?_eq_some hUidx
                  simpa using this)
              intro j h1 h2
              have hchk3 : checkNode tree (2 * st.data.length + 1)
                  { st with data := sd1 } q2 = some st' := by
                rw [← hqpar]; exact h
              have h3 := checkNode_out
                hb0 hb0sz hbq2 hbi hq4 (by simpa using hlenx.trans hlen0)
                ⟨markValue value, hmarked, markValue_ne_unknown value⟩
                hchk3 j (by omega) h2
              refine ⟨fun hud => ?_, fun hnud => ?_⟩
              · rw [h3]
                exact (hchar j h1 h2).1 hud
              · rw [h3]
                exact (hchar j h1 h2).2 hnud

/-- The claim as frozen fails: in the spec-valid chain
`Not(0) → Not(1) → Not(2) → Leaf(3)` with node 1 already `False`, marking
the root leaves the `Unknown` descendants 2 and 3 `Unknown` (the walk
prunes at node 1), although the claim demands they become `Resolved`. -/
theorem claim_C1_counterexample :
    pDecodes tree4 0 (.unary (.unary (.unary .leafB))) ∧
    (BT.unary (.unary (.unary .leafB))).size = tree4.data.length ∧
    Reaches tree4 0 3 ∧
    (binTreeState.data ⟨[.unknown, .isFalse, .unknown, .unknown], 0⟩).get? 0
      = some .unknown ∧
    (binTreeState.data ⟨[.unknown, .isFalse, .unknown, .unknown], 0⟩).get? 3
      = some .unknown ∧
    binTreeState.MarkNodeTop tree4
        ⟨[.unknown, .isFalse, .unknown, .unknown], 0⟩ 0 true
      = some ⟨[.isTrue, .isFalse, .unknown, .unknown], 0⟩ ∧
    ¬ (binTreeState.data ⟨[.isTrue, .isFalse, .unknown, .unknown], 0⟩).get? 3
        = some .resolved :=
  ⟨.unary rfl (Or.inl rfl) rfl rfl rfl
      (.unary rfl (Or.inl rfl) rfl rfl rfl
        (.unary rfl (Or.inl rfl) rfl rfl rfl (.leaf rfl rfl rfl rfl))),
   rfl,
   Reaches.cons ⟨⟨0, 1, 0, .not⟩, rfl, Or.inl ⟨rfl, rfl⟩⟩
     (Reaches.cons ⟨⟨0, 2, 0, .not⟩, rfl, Or.inl ⟨rfl, rfl⟩⟩
       (Reaches.base ⟨⟨1, 3, 0, .not⟩, rfl, Or.inl ⟨rfl, rfl⟩⟩)),
   by decide, by decide, by decide, by decide⟩

theorem claim_C1_witness :
    pDecodes tree4 2 (.unary .leafB) ∧
    (binTreeState.data ⟨[.unknown, .unknown, .unknown, .unknown], 0⟩).get? 2
      = some .unknown ∧
    binTreeState.MarkNodeTop tree4
        ⟨[.unknown, .unknown, .unknown, .unknown], 0⟩ 2 true
      = some ⟨[.isTrue, .isFalse, .isTrue, .resolved], 0⟩ ∧
    (binTreeState.data ⟨[.isTrue, .isFalse, .isTrue, .resolved], 0⟩).get? 2
      = some (markValue true) ∧
    (binTreeState.data ⟨[.isTrue, .isFalse, .isTrue, .resolved], 0⟩).get? 3
      = some .resolved := by
  have hdec2 : pDecodes tree4 2 (.unary .leafB) :=
    .unary rfl (Or.inl rfl) rfl rfl rfl (.leaf rfl rfl rfl rfl)
  have hb0 : pDecodes tree4 0 (.unary (.unary (.unary .leafB))) :=
    .unary rfl (Or.inl rfl) rfl rfl rfl
      (.unary rfl (Or.inl rfl) rfl rfl rfl
        (.unary rfl (Or.inl rfl) rfl rfl rfl (.leaf rfl rfl rfl rfl)))
  have hmain := claim_C1 tree4 (.unary (.unary (.unary .leafB))) (.unary .leafB)
    ⟨[.unknown, .unknown, .unknown, .unknown], 0⟩ 2 true
    ⟨[.isTrue, .isFalse, .isTrue, .resolved], 0⟩
    hb0 rfl hdec2 (by decide) (by decide) (by decide)
  refine ⟨hdec2, by decide, by decide, hmain.1, ?_⟩
  exact (hmain.2 3 (by omega) (by decide)).1
    (UDesc.base ⟨⟨1, 3, 0, .not⟩, rfl, Or.inl ⟨rfl, rfl⟩⟩ (by decide))

/-! ## The Neor invariant of mark traces

Over a spec-valid tree, every run of leaf marks from a fresh state keeps a
three-part invariant: non-`Unknown` propagates downwards (`CL`), an
`Unknown` Neor node keeps an `Unknown` child (`N1exc`, with at most one
transiently exempted node inside a cascade), and a decided Neor's truth
value equals the disjunction of its children's truths (`TRinv`). -/

/-- `CL`: every child of a non-`Unknown` node is non-`Unknown`. -/
def CL (tree : binTree) (sd : List binTreeStateValue) : Prop :=
  ∀ a c, childOf tree a c →
    ∀ w, sd.get? a = some w → w ≠ .unknown →
    ∀ w2, sd.get? c = some w2 → w2 ≠ .unknown

/-- `N1exc`: every `Unknown` Neor node other than `x` has an `Unknown`
child. -/
def N1exc (tree : binTree) (sd : List binTreeStateValue) (x : Nat) : Prop :=
  ∀ n nd, tree.data.get? n = some nd → nd.NodeType = .neor → n ≠ x →
    sd.get? n = some .unknown →
    sd.get? nd.Left = some .unknown ∨ sd.get? nd.Right = some .unknown

/-- `N1full`: every `Unknown` Neor node has an `Unknown` child. -/
def N1full (tree : binTree) (sd : List binTreeStateValue) : Prop :=
  ∀ n nd, tree.data.get? n = some nd → nd.NodeType = .neor →
    sd.get? n = some .unknown →
    sd.get? nd.Left = some .unknown ∨ sd.get? nd.Right = some .unknown

/-- `TRinv`: a Neor node holding `True`/`False` is `True` exactly when one
of its children is `True`. -/
def TRinv (tree : binTree) (sd : List binTreeStateValue) : Prop :=
  ∀ n nd w, tree.data.get? n = some nd → nd.NodeType = .neor →
    sd.get? n = some w → (w = .isTrue ∨ w = .isFalse) →
    (w = .isTrue ↔
      (sd.get? nd.Left = some .isTrue ∨ sd.get? nd.Right = some .isTrue))

theorem N1full.toExc {tree : binTree} {sd : List binTreeStateValue}
    (h : N1full tree sd) (x : Nat) : N1exc tree sd x :=
  fun n nd hget hty _ hU => h n nd hget hty hU

/-- Descendants of a non-`Unknown` node are all non-`Unknown` under `CL`. -/
theorem cl_span_closed {tree : binTree} {sd : List binTreeStateValue}
    (hcl : CL tree sd) (hlen : sd.length = tree.data.length) :
    ∀ {p : Nat} {bp : BT}, pDecodes tree p bp →
      ∀ w, sd.get? p = some w → w ≠ .unknown →
      ∀ k, p < k → k < p + bp.size →
      ∀ w2, sd.get? k = some w2 → w2 ≠ .unknown := by
  intro p bp hdec
  induction hdec with
  | leaf _ _ _ _ =>
    intro w hp hw k h1 h2
    simp [BT.size] at h2
    omega
  | unary hget hty hleft hright hpar hc ih =>
    rename_i i nd c
    intro w hp hw k h1 h2
    simp only [BT.size] at h2
    have hch : childOf tree i (i + 1) :=
      ⟨nd, hget, Or.inl ⟨hasLeft_of_unary hty, hleft.symm⟩⟩
    obtain ⟨w1, hw1⟩ := get?_some_of_lt (l := sd)
      (by rw [hlen]; exact pDecodes_lt hc)
    have hw1ne : w1 ≠ .unknown := hcl i (i + 1) hch w hp hw w1 hw1
    rcases Nat.lt_or_ge (i + 1) k with hk | hk
    · exact ih w1 hw1 hw1ne k hk (by omega)
    · have : k = i + 1 := by omega
      subst this
      intro w2 hw2
      rw [hw1] at hw2
      cases hw2
      exact hw1ne
  | binary hget hty hleft hright hparl hparr hl hr ihl ihr =>
    rename_i i nd l r
    intro w hp hw k h1 h2
    simp only [BT.size] at h2
    have hchL : childOf tree i (i + 1) :=
      ⟨nd, hget, Or.inl ⟨hasLeft_of_binary hty, hleft.symm⟩⟩
    have hchR : childOf tree i (i + 1 + l.size) :=
      ⟨nd, hget, Or.inr ⟨hasRight_of_binary hty, hright.symm⟩⟩
    obtain ⟨w1, hw1⟩ := get?_some_of_lt (l := sd)
      (by rw [hlen]; exact pDecodes_lt hl)
    obtain ⟨w2r, hw2r⟩ := get?_some_of_lt (l := sd)
      (by rw [hlen]; exact pDecodes_lt hr)
    have hw1ne : w1 ≠ .unknown := hcl i (i + 1) hchL w hp hw w1 hw1
    have hw2ne : w2r ≠ .unknown := hcl i (i + 1 + l.size) hchR w hp hw w2r hw2r
    rcases Nat.lt_or_ge k (i + 1 + l.size) with hk | hk
    · rcases Nat.lt_or_ge (i + 1) k with hk2 | hk2
      · exact ihl w1 hw1 hw1ne k hk2 hk
      · have : k = i + 1 := by omega
        subst this
        intro w2 hw2
        rw [hw1] at hw2
        cases hw2
        exact hw1ne
    · rcases Nat.lt_or_ge (i + 1 + l.size) k with hk2 | hk2
      · exact ihr w2r hw2r hw2ne k hk2 (by omega)
      · have : k = i + 1 + l.size := by omega
        subst this
        intro w2 hw2
        rw [hw2r] at hw2
        cases hw2
        exact hw2ne

/-- Under `CL`, every `Unknown` strict descendant is reachable through
`Unknown` links: the `Unknown` region below a node is upward closed. -/
theorem cl_udesc_complete {tree : binTree} {sd : List binTreeStateValue}
    (hcl : CL tree sd) (hlen : sd.length = tree.data.length) :
    ∀ {p : Nat} {bp : BT}, pDecodes tree p bp →
      ∀ k, p < k → k < p + bp.size → sd.get? k = some .unknown →
      UDesc tree sd p k := by
  intro p bp hdec
  induction hdec with
  | leaf _ _ _ _ =>
    intro k h1 h2
    simp [BT.size] at h2
    omega
  | unary hget hty hleft hright hpar hc ih =>
    rename_i i nd c
    intro k h1 h2 hkU
    simp only [BT.size] at h2
    have hch : childOf tree i (i + 1) :=
      ⟨nd, hget, Or.inl ⟨hasLeft_of_unary hty, hleft.symm⟩⟩
    obtain ⟨w1, hw1⟩ := get?_some_of_lt (l := sd)
      (by rw [hlen]; exact pDecodes_lt hc)
    rcases Nat.lt_or_ge (i + 1) k with hk | hk
    · by_cases hw1U : w1 = .unknown
      · subst hw1U
        exact UDesc.cons hch hw1 (ih k hk (by omega) hkU)
      · exfalso
        exact cl_span_closed hcl hlen hc w1 hw1 hw1U k hk (by omega)
          .unknown hkU rfl
    · have : k = i + 1 := by omega
      subst this
      exact UDesc.base hch hkU
  | binary hget hty hleft hright hparl hparr hl hr ihl ihr =>
    rename_i i nd l r
    intro k h1 h2 hkU
    simp only [BT.size] at h2
    have hchL : childOf tree i (i + 1) :=
      ⟨nd, hget, Or.inl ⟨hasLeft_of_binary hty, hleft.symm⟩⟩
    have hchR : childOf tree i (i + 1 + l.size) :=
      ⟨nd, hget, Or.inr ⟨hasRight_of_binary hty, hright.symm⟩⟩
    obtain ⟨w1, hw1⟩ := get?_some_of_lt (l := sd)
      (by rw [hlen]; exact pDecodes_lt hl)
    obtain ⟨w2r, hw2r⟩ := get?_some_of_lt (l := sd)
      (by rw [hlen]; exact pDecodes_lt hr)
    rcases Nat.lt_or_ge k (i + 1 + l.size) with hk | hk
    · rcases Nat.lt_or_ge (i + 1) k with hk2 | hk2
      · by_cases hw1U : w1 = .unknown
        · subst hw1U
          exact UDesc.cons hchL hw1 (ihl k hk2 hk hkU)
        · exfalso
          exact cl_span_closed hcl hlen hl w1 hw1 hw1U k hk2 hk .unknown hkU rfl
      · have : k = i + 1 := by omega
        subst this
        exact UDesc.base hchL hkU
    · rcases Nat.lt_or_ge (i + 1 + l.size) k with hk2 | hk2
      · by_cases hw2U : w2r = .unknown
        · subst hw2U
          exact UDesc.cons hchR hw2r (ihr k hk2 (by omega) hkU)
        · exfalso
          exact cl_span_closed hcl hlen hr w2r hw2r hw2U k hk2 (by omega)
            .unknown hkU rfl
      · have : k = i + 1 + l.size := by omega
        subst this
        exact UDesc.base hchR hkU

/-- With a global decode, every in-range position is decoded. -/
theorem global_decode_at {tree : binTree} {b0 : BT}
    (hb0 : pDecodes tree 0 b0) (hsz : b0.size = tree.data.length) :
    ∀ n, n < tree.data.length → ∃ bn : BT, pDecodes tree n bn := by
  intro n hn
  rcases Nat.eq_zero_or_pos n with hz | hz
  · exact ⟨b0, hz ▸ hb0⟩
  · obtain ⟨c, hc, _⟩ := pDecodes_sub hb0 n hz (by omega)
    exact ⟨c, hc⟩

/-- A successful `MarkNode` implies the marked cell was `Unknown`. -/
theorem markNode_some_unknown {tree : binTree} {fuel : Nat}
    {st : binTreeState} {index : Nat} {value : Bool} {st' : binTreeState}
    (h : MarkNode tree fuel st index value = some st') :
    st.data.get? index = some .unknown := by
  match fuel with
  | 0 => simp [MarkNode] at h
  | fuel + 1 =>
    rw [MarkNode] at h
    split at h
    · cases h
    · rename_i v hv
      split at h
      · cases h
      · rename_i hU
        rw [not_not] at hU
        subst hU
        exact hv

/-- The first phase of `MarkNode` (write the truth value, then prune-walk
the descendants) carries the Neor invariant: the subtree of the marked node
ends fully non-`Unknown`, and only its would-be parent can transiently lose
the `N1` property. -/
theorem phase1_inv {tree : binTree} {b0 bi : BT} {index pidx : Nat}
    {value : Bool} {st : binTreeState} {sd1 : List binTreeStateValue}
    (hb0 : pDecodes tree 0 b0) (hb0sz : b0.size = tree.data.length)
    (hbi : pDecodes tree index bi)
    (hlen : st.data.length = tree.data.length)
    (hcl : CL tree st.data) (hn1 : N1exc tree st.data index)
    (htr : TRinv tree st.data)
    (hUidx : st.data.get? index = some .unknown)
    (hpidx : nodeParent tree index = some pidx)
    (hside : ∀ nd, tree.data.get? index = some nd → nd.NodeType = .neor →
      (st.data.get? nd.Left ≠ some .unknown) ∧
      (st.data.get? nd.Right ≠ some .unknown) ∧
      (value = true ↔ (st.data.get? nd.Left = some .isTrue ∨
        st.data.get? nd.Right = some .isTrue)))
    (hres : resolveRecursive tree
        ((st.data.set index (markValue value)).length + 1)
        index (st.data.set index (markValue value)) = some sd1) :
    sd1.length = tree.data.length ∧
    sd1.get? index = some (markValue value) ∧
    (∀ j, j < index ∨ index + bi.size ≤ j → sd1.get? j = st.data.get? j) ∧
    CL tree sd1 ∧ N1exc tree sd1 pidx ∧ TRinv tree sd1 ∧
    (index = 0 → bi.size = tree.data.length → N1full tree sd1) := by
  have hidxlt : index < st.data.length := lt_length_of_get?_eq_some hUidx
  have hlen0 : (st.data.set index (markValue value)).length
      = tree.data.length := by rw [List.length_set]; exact hlen
  have hfuel0 : bi.size ≤ (st.data.set index (markValue value)).length + 1 := by
    have := pDecodes_bound hbi
    rw [hlen0]
    omega
  obtain ⟨sd1x, hrecx, hlenx, houtx, hinx⟩ := resolveRecursive_char hbi hlen0 hfuel0
  rw [hres] at hrecx
  cases hrecx
  have hcongr : ∀ {j : Nat}, UDesc tree st.data index j ↔
      UDesc tree (st.data.set index (markValue value)) index j := by
    intro j
    constructor
    · intro hud
      exact udesc_congr hud hbi (fun p hp1 _ => get?_set_of_ne _ _ (by omega))
    · intro hud
      exact udesc_congr hud hbi (fun p hp1 _ => (get?_set_of_ne _ _ (by omega)).symm)
  have F1 : ∀ j, j < index ∨ index + bi.size ≤ j →
      sd1.get? j = st.data.get? j := by
    intro j hj
    have hbp := bi.size_pos
    rw [houtx j (by rcases hj with hj | hj; exact Or.inl (by omega); exact Or.inr hj)]
    exact get?_set_of_ne _ _ (by rcases hj with hj | hj <;> omega)
  have F2 : sd1.get? index = some (markValue value) := by
    rw [houtx index (Or.inl (le_refl index))]
    exact get?_set_self _ _ _ hidxlt
  have F3R : ∀ k, index < k → k < index + bi.size →
      UDesc tree st.data index k → sd1.get? k = some .resolved := by
    intro k h1 h2 hud
    exact (hinx k h1 h2).1 (hcongr.mp hud)
  have F3K : ∀ k, index < k → k < index + bi.size →
      ¬ UDesc tree st.data index k → sd1.get? k = st.data.get? k := by
    intro k h1 h2 hnud
    rw [(hinx k h1 h2).2 (fun hud => hnud (hcongr.mpr hud))]
    exact get?_set_of_ne _ _ (by omega)
  have F5 : ∀ k, index < k → k < index + bi.size →
      ∀ w2, sd1.get? k = some w2 → w2 ≠ .unknown := by
    intro k h1 h2 w2 hw2
    by_cases hU : st.data.get? k = some .unknown
    · have := F3R k h1 h2 (cl_udesc_complete hcl hlen hbi k h1 h2 hU)
      rw [this] at hw2
      cases hw2
      intro hc
      cases hc
    · have hnud : ¬ UDesc tree st.data index k := fun hud =>
        hU (udesc_target_unknown hud)
      rw [F3K k h1 h2 hnud] at hw2
      intro hc
      subst hc
      exact hU hw2
  have F6 : ∀ j, j ≠ index →
      sd1.get? j = st.data.get? j ∨
      (st.data.get? j = some .unknown ∧ sd1.get? j = some .resolved) := by
    intro j hj
    have ev := resolveRecursive_evolves hres
    have hset : (st.data.set index (markValue value)).get? j = st.data.get? j :=
      get?_set_of_ne _ _ (fun hc => hj hc.symm)
    rcases ev.2 j with heq | ⟨hU, hR⟩
    · exact Or.inl (heq.trans hset)
    · exact Or.inr ⟨hset ▸ hU, hR⟩
  have F7 : ∀ j, j ≠ index →
      (sd1.get? j = some .isTrue ↔ st.data.get? j = some .isTrue) := by
    intro j hj
    rcases F6 j hj with heq | ⟨hU, hR⟩
    · rw [heq]
    · rw [hU, hR]
      constructor <;> · intro hc; cases hc
  have SE1 : ∀ n, childOf tree n index → n = pidx := by
    intro n hch
    have hch2 := hch
    obtain ⟨nd, hget, _⟩ := hch2
    obtain ⟨bn, hbn⟩ := global_decode_at hb0 hb0sz n (lt_length_of_get?_eq_some hget)
    have := childOf_nodeParent hbn hch
    rw [hpidx] at this
    simpa using this.symm
  have SE2 : ∀ n c, childOf tree n c → index < c → c < index + bi.size →
      index ≤ n ∧ n < index + bi.size := by
    intro n c hch h1 h2
    obtain ⟨q, hq1, _, hq3, hq4⟩ := pDecodes_parent_in hbi c h1 h2
    have hch2 := hch
    obtain ⟨nd, hget, _⟩ := hch2
    obtain ⟨bn, hbn⟩ := global_decode_at hb0 hb0sz n (lt_length_of_get?_eq_some hget)
    have := childOf_nodeParent hbn hch
    rw [hq1] at this
    have hnq : n = q := by simpa using this.symm
    subst hnq
    omega
  refine ⟨hlenx.trans hlen0, F2, F1, ?_, ?_, ?_, ?_⟩
  · -- CL
    intro a c hch w hw hwU w2 hw2
    rcases Nat.lt_trichotomy a index with ha | ha | ha
    · -- `a` strictly before the marked region
      have hsta : st.data.get? a = some w := by rw [← F1 a (Or.inl ha)]; exact hw
      by_cases hc1 : c = index
      · rw [hc1] at hch
        exact absurd rfl (hcl a index hch w hsta hwU .unknown hUidx)
      · by_cases hc2 : index < c ∧ c < index + bi.size
        · obtain ⟨hn1b, hn2b⟩ := SE2 a c hch hc2.1 hc2.2
          omega
        · have hcout : c < index ∨ index + bi.size ≤ c := by omega
          rw [F1 c hcout] at hw2
          exact hcl a c hch w hsta hwU w2 hw2
    · -- `a` is the marked node
      rw [ha] at hch
      obtain ⟨bc, hbc, h1, h2⟩ := childOf_pDecodes hbi hch
      have := bc.size_pos
      exact F5 c h1 (by omega) w2 hw2
    · rcases Nat.lt_or_ge a (index + bi.size) with ha2 | ha2
      · -- `a` strictly inside the marked region
        obtain ⟨ba, hba, hbound⟩ := pDecodes_sub hbi a ha ha2
        obtain ⟨bc, hbc, h1, h2⟩ := childOf_pDecodes hba hch
        have := bc.size_pos
        exact F5 c (by omega) (by omega) w2 hw2
      · -- `a` past the marked region
        have hsta : st.data.get? a = some w := by
          rw [← F1 a (Or.inr ha2)]; exact hw
        by_cases hc1 : c = index
        · rw [hc1] at hch
          exact absurd rfl (hcl a index hch w hsta hwU .unknown hUidx)
        · by_cases hc2 : index < c ∧ c < index + bi.size
          · obtain ⟨hn1b, hn2b⟩ := SE2 a c hch hc2.1 hc2.2
            omega
          · have hcout : c < index ∨ index + bi.size ≤ c := by omega
            rw [F1 c hcout] at hw2
            exact hcl a c hch w hsta hwU w2 hw2
  · -- N1exc at the parent of the marked node
    intro n nd hget hty hne hsd1U
    by_cases hn0 : n = index
    · subst hn0
      rw [F2] at hsd1U
      exact absurd (Option.some.inj hsd1U) (markValue_ne_unknown value)
    · by_cases hn2 : index < n ∧ n < index + bi.size
      · exact absurd rfl (F5 n hn2.1 hn2.2 .unknown hsd1U)
      · have hnout : n < index ∨ index + bi.size ≤ n := by omega
        have hstn : st.data.get? n = some .unknown := by
          rw [← F1 n hnout]; exact hsd1U
        have transfer : ∀ c, childOf tree n c →
            st.data.get? c = some .unknown → sd1.get? c = some .unknown := by
          intro c hch hstc
          by_cases hc1 : c = index
          · subst hc1
            exact absurd (SE1 n hch) hne
          · by_cases hc2 : index < c ∧ c < index + bi.size
            · obtain ⟨hq1, hq2⟩ := SE2 n c hch hc2.1 hc2.2
              omega
            · have hcout : c < index ∨ index + bi.size ≤ c := by omega
              rw [F1 c hcout]
              exact hstc
        have hchL : childOf tree n nd.Left :=
          ⟨nd, hget, Or.inl ⟨by rw [hty]; rfl, rfl⟩⟩
        have hchR : childOf tree n nd.Right :=
          ⟨nd, hget, Or.inr ⟨by rw [hty]; rfl, rfl⟩⟩
        rcases hn1 n nd hget hty hn0 hstn with hL | hR
        · exact Or.inl (transfer nd.Left hchL hL)
        · exact Or.inr (transfer nd.Right hchR hR)
  · -- TRinv
    intro n nd w hget hty hw hwTF
    by_cases hn0 : n = index
    · subst hn0
      rw [F2] at hw
      have hwmv : markValue value = w := Option.some.inj hw
      obtain ⟨hLne, hRne, hval⟩ := hside nd hget hty
      have hchL : childOf tree n nd.Left :=
        ⟨nd, hget, Or.inl ⟨by rw [hty]; rfl, rfl⟩⟩
      have hchR : childOf tree n nd.Right :=
        ⟨nd, hget, Or.inr ⟨by rw [hty]; rfl, rfl⟩⟩
      obtain ⟨bcL, hbcL, hL1, hL2⟩ := childOf_pDecodes hbi hchL
      obtain ⟨bcR, hbcR, hR1, hR2⟩ := childOf_pDecodes hbi hchR
      have hsdL : sd1.get? nd.Left = st.data.get? nd.Left :=
        F3K nd.Left hL1 (by have := bcL.size_pos; omega)
          (fun hud => hLne (udesc_target_unknown hud))
      have hsdR : sd1.get? nd.Right = st.data.get? nd.Right :=
        F3K nd.Right hR1 (by have := bcR.size_pos; omega)
          (fun hud => hRne (udesc_target_unknown hud))
      rw [hsdL, hsdR, ← hwmv, markValue_eq_isTrue]
      exact hval
    · rcases F6 n hn0 with heq | ⟨_, hR⟩
      · have hstn : st.data.get? n = some w := heq ▸ hw
        have hiff := htr n nd w hget hty hstn hwTF
        have hchL : childOf tree n nd.Left :=
          ⟨nd, hget, Or.inl ⟨by rw [hty]; rfl, rfl⟩⟩
        have hchR : childOf tree n nd.Right :=
          ⟨nd, hget, Or.inr ⟨by rw [hty]; rfl, rfl⟩⟩
        have hwne : w ≠ .unknown := by
          rcases hwTF with h | h <;> subst h <;> intro hc <;> cases hc
        have hchildT : ∀ c, childOf tree n c →
            (sd1.get? c = some .isTrue ↔ st.data.get? c = some .isTrue) := by
          intro c hch
          by_cases hc1 : c = index
          · rw [hc1] at hch
            exact absurd rfl (hcl n index hch w hstn hwne .unknown hUidx)
          · exact F7 c hc1
        rw [hchildT nd.Left hchL, hchildT nd.Right hchR]
        exact hiff
      · rw [hR] at hw
        cases hw
        rcases hwTF with h | h <;> cases h
  · -- when the root is marked, the whole array is non-`Unknown`
    intro hidx0 hbilen
    subst hidx0
    intro n nd hget hty hsd1U
    rcases Nat.eq_zero_or_pos n with hz | hz
    · subst hz
      rw [F2] at hsd1U
      exact absurd (Option.some.inj hsd1U) (markValue_ne_unknown value)
    · have hnlen : n < tree.data.length := lt_length_of_get?_eq_some hget
      exact absurd rfl (F5 n hz (by omega) .unknown hsd1U)

mutual

theorem markNode_inv {tree : binTree} {b0 : BT} :
    ∀ {fuel : Nat} {st : binTreeState} {index : Nat} {value : Bool}
      {st' : binTreeState},
      pDecodes tree 0 b0 → b0.size = tree.data.length →
      st.stallIndex = 0 → st.data.length = tree.data.length →
      CL tree st.data → N1exc tree st.data index → TRinv tree st.data →
      (∀ nd, tree.data.get? index = some nd → nd.NodeType = .neor →
        (st.data.get? nd.Left ≠ some .unknown) ∧
        (st.data.get? nd.Right ≠ some .unknown) ∧
        (value = true ↔ (st.data.get? nd.Left = some .isTrue ∨
          st.data.get? nd.Right = some .isTrue))) →
      MarkNode tree fuel st index value = some st' →
      CL tree st'.data ∧ N1full tree st'.data ∧ TRinv tree st'.data
  | 0, _, _, _, _, _, _, _, _, _, _, _, _, h => by simp [MarkNode] at h
  | fuel + 1, st, index, value, st', hb0, hb0sz, hstall0, hlen, hcl, hn1,
      htr, hside, h => by
    rw [MarkNode] at h
    split at h
    · cases h
    · rename_i v hv
      split at h
      · cases h
      · rename_i hU
        rw [not_not] at hU
        subst hU
        simp only at h
        split at h
        · cases h
        · rename_i sd1 hres
          have hidxlen : index < tree.data.length := by
            have := lt_length_of_get?_eq_some hv
            omega
          obtain ⟨bi, hbi, hbis⟩ :
              ∃ bi : BT, pDecodes tree index bi ∧
                (index = 0 → bi.size = tree.data.length) := by
            rcases Nat.eq_zero_or_pos index with hz | hz
            · exact ⟨b0, hz ▸ hb0, fun _ => hb0sz⟩
            · obtain ⟨c, hc, _⟩ := pDecodes_sub hb0 index hz (by omega)
              exact ⟨c, hc, fun h0 => absurd h0 (by omega)⟩
          obtain ⟨nd0, hnd0⟩ := get?_some_of_lt (l := tree.data) hidxlen
          have hpidx : nodeParent tree index = some nd0.ParentIdx := by
            rw [nodeParent, hnd0]
            rfl
          obtain ⟨hplen, hpF2, hpF1, hpCL, hpN1, hpTR, hpN1full⟩ :=
            phase1_inv hb0 hb0sz hbi hlen hcl hn1 htr hv hpidx hside hres
          split at h
          · rename_i h0
            cases h
            exact ⟨hpCL, hpN1full h0 (hbis h0), hpTR⟩
          · split at h
            · rename_i hne0 hsteq
              exfalso
              exact hne0 (by simpa [hstall0] using hsteq)
            · rename_i hne0 hnes
              split at h
              · cases h
              · rename_i defNode hnode
                have hdefnd : defNode = nd0 := by
                  rw [hnd0] at hnode
                  exact (Option.some.inj hnode).symm
                subst hdefnd
                exact checkNode_inv hb0 hb0sz (by simpa using hstall0)
                  (by simpa using hplen) hpCL hpN1 hpTR h

theorem checkNode_inv {tree : binTree} {b0 : BT} :
    ∀ {fuel : Nat} {st : binTreeState} {q : Nat} {st' : binTreeState},
      pDecodes tree 0 b0 → b0.size = tree.data.length →
      st.stallIndex = 0 → st.data.length = tree.data.length →
      CL tree st.data → N1exc tree st.data q → TRinv tree st.data →
      checkNode tree fuel st q = some st' →
      CL tree st'.data ∧ N1full tree st'.data ∧ TRinv tree st'.data
  | 0, _, _, _, _, _, _, _, _, _, _, h => by simp [checkNode] at h
  | fuel + 1, st, q, st', hb0, hb0sz, hstall0, hlen, hcl, hn1, htr, h => by
    rw [checkNode] at h
    split at h
    · cases h
    · rename_i defNode hnode
      -- N1 at `q` holds outright whenever `q` is not a Neor node
      have n1OfNotNeor : defNode.NodeType ≠ .neor → N1full tree st.data := by
        intro hnn n nd hget2 hty2 hU2
        by_cases hq : n = q
        · rw [hq, hnode] at hget2
          cases Option.some.inj hget2
          exact absurd hty2 hnn
        · exact hn1 n nd hget2 hty2 hq hU2
      split at h
      -- leaf: panic
      · cases h
      -- or
      · rename_i hty
        have side0 : ∀ nd, tree.data.get? q = some nd → nd.NodeType = .neor →
            (st.data.get? nd.Left ≠ some .unknown) ∧
            (st.data.get? nd.Right ≠ some .unknown) ∧
            ∀ {value : Bool}, (value = true ↔ (st.data.get? nd.Left = some .isTrue ∨
              st.data.get? nd.Right = some .isTrue)) := by
          intro nd hnd htyx
          rw [hnode] at hnd
          cases Option.some.inj hnd
          rw [hty] at htyx
          cases htyx
        have mark := fun {value : Bool} (hm : MarkNode tree fuel st q value = some st') =>
          markNode_inv hb0 hb0sz hstall0 hlen hcl hn1 htr
            (fun nd hnd htyx => ⟨(side0 nd hnd htyx).1, (side0 nd hnd htyx).2.1,
              (side0 nd hnd htyx).2.2⟩) hm
        have keep : CL tree st.data ∧ N1full tree st.data ∧ TRinv tree st.data :=
          ⟨hcl, n1OfNotNeor (by rw [hty]; intro hc; cases hc), htr⟩
        split at h
        · cases h
        · split at h
          · exact mark h
          · split at h
            · cases h
            · split at h
              · exact mark h
              · split at h
                · exact mark h
                · cases h; exact keep
      -- neor
      · rename_i hty
        split at h
        · cases h
        · rename_i l hl
          split at h
          · rename_i hlU
            cases h
            refine ⟨hcl, ?_, htr⟩
            intro n nd hget2 hty2 hU2
            by_cases hq : n = q
            · rw [hq, hnode] at hget2
              cases Option.some.inj hget2
              exact Or.inl (by rw [hl, hlU])
            · exact hn1 n nd hget2 hty2 hq hU2
          · rename_i hlU
            split at h
            · cases h
            · rename_i r hr
              split at h
              · rename_i hrU
                cases h
                refine ⟨hcl, ?_, htr⟩
                intro n nd hget2 hty2 hU2
                by_cases hq : n = q
                · rw [hq, hnode] at hget2
                  cases Option.some.inj hget2
                  exact Or.inr (by rw [hr, hrU])
                · exact hn1 n nd hget2 hty2 hq hU2
              · rename_i hrU
                have hLne : st.data.get? defNode.Left ≠ some .unknown := by
                  intro hc
                  rw [hl] at hc
                  exact hlU (Option.some.inj hc)
                have hRne : st.data.get? defNode.Right ≠ some .unknown := by
                  intro hc
                  rw [hr] at hc
                  exact hrU (Option.some.inj hc)
                have hsideAt : ∀ (value : Bool),
                    (value = true ↔ (l = .isTrue ∨ r = .isTrue)) →
                    ∀ nd, tree.data.get? q = some nd → nd.NodeType = .neor →
                    (st.data.get? nd.Left ≠ some .unknown) ∧
                    (st.data.get? nd.Right ≠ some .unknown) ∧
                    (value = true ↔ (st.data.get? nd.Left = some .isTrue ∨
                      st.data.get? nd.Right = some .isTrue)) := by
                  intro value hvality nd hnd _
                  rw [hnode] at hnd
                  cases Option.some.inj hnd
                  refine ⟨hLne, hRne, ?_⟩
                  rw [hvality, hl, hr]
                  constructor
                  · intro hd
                    rcases hd with hd | hd
                    · exact Or.inl (by rw [hd])
                    · exact Or.inr (by rw [hd])
                  · intro hd
                    rcases hd with hd | hd
                    · exact Or.inl (Option.some.inj hd)
                    · exact Or.inr (Option.some.inj hd)
                split at h
                · rename_i hcond
                  exact markNode_inv hb0 hb0sz hstall0 hlen hcl hn1 htr
                    (hsideAt true (by simpa using hcond)) h
                · rename_i hcond
                  exact markNode_inv hb0 hb0sz hstall0 hlen hcl hn1 htr
                    (hsideAt false (by
                      constructor
                      · intro hc; cases hc
                      · intro hd; exact absurd hd hcond)) h
      -- and
      · rename_i hty
        have mark := fun {value : Bool} (hm : MarkNode tree fuel st q value = some st') =>
          markNode_inv hb0 hb0sz hstall0 hlen hcl hn1 htr
            (fun nd hnd htyx => by
              rw [hnode] at hnd
              cases Option.some.inj hnd
              rw [hty] at htyx
              cases htyx) hm
        have keep : CL tree st.data ∧ N1full tree st.data ∧ TRinv tree st.data :=
          ⟨hcl, n1OfNotNeor (by rw [hty]; intro hc; cases hc), htr⟩
        split at h
        · cases h
        · split at h
          · split at h
            · cases h
            · split at h
              · exact mark h
              · split at h
                · exact mark h
                · cases h; exact keep
          · split at h
            · exact mark h
            · split at h
              · cases h
              · split at h
                · exact mark h
                · cases h; exact keep
      -- not
      · rename_i hty
        have mark := fun {value : Bool} (hm : MarkNode tree fuel st q value = some st') =>
          markNode_inv hb0 hb0sz hstall0 hlen hcl hn1 htr
            (fun nd hnd htyx => by
              rw [hnode] at hnd
              cases Option.some.inj hnd
              rw [hty] at htyx
              cases htyx) hm
        have keep : CL tree st.data ∧ N1full tree st.data ∧ TRinv tree st.data :=
          ⟨hcl, n1OfNotNeor (by rw [hty]; intro hc; cases hc), htr⟩
        split at h
        · cases h
        · split at h
          · exact mark h
          · split at h
            · exact mark h
            · cases h; exact keep
      -- loop
      · rename_i hty
        have mark := fun {value : Bool} (hm : MarkNode tree fuel st q value = some st') =>
          markNode_inv hb0 hb0sz hstall0 hlen hcl hn1 htr
            (fun nd hnd htyx => by
              rw [hnode] at hnd
              cases Option.some.inj hnd
              rw [hty] at htyx
              cases htyx) hm
        have keep : CL tree st.data ∧ N1full tree st.data ∧ TRinv tree st.data :=
          ⟨hcl, n1OfNotNeor (by rw [hty]; intro hc; cases hc), htr⟩
        split at h
        · cases h
        · split at h
          · exact mark h
          · split at h
            · exact mark h
            · cases h; exact keep

end

/-- A sequence of `MarkNode` calls (the order in which an evaluator reports
leaf verdicts), each through the top-level entry point. -/
def runMarks (tree : binTree) : List (Nat × Bool) → binTreeState → Option binTreeState
  | [], st => some st
  | m :: rest, st =>
    match st.MarkNodeTop tree m.1 m.2 with
    | none => none
    | some st1 => runMarks tree rest st1

theorem newState_cells {tree : binTree} :
    ∀ {j : Nat} {w : binTreeStateValue},
      (binTree.NewState tree).data.get? j = some w → w = .unknown := by
  intro j w h
  rw [binTree.NewState] at h
  simp only [List.get?_map] at h
  rcases hx : tree.data.get? j with _ | nd
  · rw [hx] at h; cases h
  · rw [hx] at h
    exact (Option.some.inj h).symm

theorem newState_length {tree : binTree} :
    (binTree.NewState tree).data.length = tree.data.length := by
  rw [binTree.NewState]
  simp

theorem newState_get {tree : binTree} {j : Nat} (h : j < tree.data.length) :
    (binTree.NewState tree).data.get? j = some .unknown := by
  obtain ⟨w, hw⟩ := get?_some_of_lt (l := (binTree.NewState tree).data)
    (by rw [newState_length]; exact h)
  rw [hw, newState_cells hw]

/-- The fresh state satisfies the three-part Neor invariant. -/
theorem newState_inv {tree : binTree} {b0 : BT}
    (hb0 : pDecodes tree 0 b0) (hb0sz : b0.size = tree.data.length) :
    CL tree (binTree.NewState tree).data ∧
    N1full tree (binTree.NewState tree).data ∧
    TRinv tree (binTree.NewState tree).data := by
  refine ⟨?_, ?_, ?_⟩
  · intro a c hch w hw hwU w2 hw2
    exact absurd (newState_cells hw) hwU
  · intro n nd hget hty _
    obtain ⟨bn, hbn⟩ := global_decode_at hb0 hb0sz n (lt_length_of_get?_eq_some hget)
    have hchL : childOf tree n nd.Left :=
      ⟨nd, hget, Or.inl ⟨by rw [hty]; rfl, rfl⟩⟩
    obtain ⟨bc, hbc, _, _⟩ := childOf_pDecodes hbn hchL
    exact Or.inl (newState_get (pDecodes_lt hbc))
  · intro n nd w hget hty hw hwTF
    have := newState_cells hw
    subst this
    rcases hwTF with h | h <;> cases h

/-- Running leaf marks from any state satisfying the invariant keeps it. -/
theorem runMarks_inv {tree : binTree} {b0 : BT}
    (hb0 : pDecodes tree 0 b0) (hb0sz : b0.size = tree.data.length) :
    ∀ (marks : List (Nat × Bool)) (st st' : binTreeState),
      st.stallIndex = 0 → st.data.length = tree.data.length →
      CL tree st.data → N1full tree st.data → TRinv tree st.data →
      (∀ m ∈ marks, ∀ nd, tree.data.get? m.1 = some nd →
        nd.NodeType = .leaf) →
      runMarks tree marks st = some st' →
      CL tree st'.data ∧ N1full tree st'.data ∧ TRinv tree st'.data ∧
        st'.stallIndex = 0 ∧ st'.data.length = tree.data.length := by
  intro marks
  induction marks with
  | nil =>
    intro st st' hstall hlen hcl hn1 htr _ h
    cases h
    exact ⟨hcl, hn1, htr, hstall, hlen⟩
  | cons m rest ih =>
    intro st st' hstall hlen hcl hn1 htr hleaves h
    rw [runMarks] at h
    split at h
    · cases h
    · rename_i st1 hmark
      rw [binTreeState.MarkNodeTop] at hmark
      have hside : ∀ nd, tree.data.get? m.1 = some nd → nd.NodeType = .neor →
          (st.data.get? nd.Left ≠ some .unknown) ∧
          (st.data.get? nd.Right ≠ some .unknown) ∧
          (m.2 = true ↔ (st.data.get? nd.Left = some .isTrue ∨
            st.data.get? nd.Right = some .isTrue)) := by
        intro nd hnd hty
        rw [hleaves m (List.mem_cons_self m rest) nd hnd] at hty
        cases hty
      obtain ⟨hcl1, hn11, htr1⟩ :=
        markNode_inv hb0 hb0sz hstall hlen hcl (hn1.toExc m.1) htr hside hmark
      have hpres := markNode_pres hmark
      exact ih st1 st' (hpres.1.trans hstall) (hpres.2.1.trans hlen)
        hcl1 hn11 htr1
        (fun m2 hm2 => hleaves m2 (List.mem_cons_of_mem m hm2)) h

/-- Claim C2, amended: over a spec-valid tree, after any successful run of
leaf marks from the fresh state, a Neor node is `Unknown` exactly while one
of its children is `Unknown`; once both children are non-`Unknown` it is
non-`Unknown`, and whenever it carries a truth value (it may instead be
`Resolved` when short-circuited from above) it is `True` iff one child is
`True`. -/
theorem claim_C2 :
    ∀ (tree : binTree) (b0 : BT) (marks : List (Nat × Bool))
      (st' : binTreeState),
      pDecodes tree 0 b0 → b0.size = tree.data.length →
      (∀ m ∈ marks, ∀ nd, tree.data.get? m.1 = some nd →
        nd.NodeType = .leaf) →
      runMarks tree marks (binTree.NewState tree) = some st' →
      ∀ n nd, tree.data.get? n = some nd → nd.NodeType = .neor →
        ((st'.data.get? nd.Left = some .unknown ∨
          st'.data.get? nd.Right = some .unknown) →
          st'.data.get? n = some .unknown) ∧
        (st'.data.get? nd.Left ≠ some .unknown →
          st'.data.get? nd.Right ≠ some .unknown →
          st'.data.get? n ≠ some .unknown) ∧
        (∀ w, st'.data.get? n = some w → (w = .isTrue ∨ w = .isFalse) →
          (w = .isTrue ↔ (st'.data.get? nd.Left = some .isTrue ∨
            st'.data.get? nd.Right = some .isTrue))) := by
  intro tree b0 marks st' hb0 hb0sz hleaves hrun n nd hget hty
  obtain ⟨hcl0, hn10, htr0⟩ := newState_inv hb0 hb0sz
  obtain ⟨hcl, hn1, htr, _, hlen⟩ := runMarks_inv hb0 hb0sz marks _ st'
    rfl newState_length hcl0 hn10 htr0 hleaves hrun
  refine ⟨?_, ?_, fun w hw hwTF => htr n nd w hget hty hw hwTF⟩
  · intro hdisj
    obtain ⟨w, hw⟩ := get?_some_of_lt (l := st'.data)
      (by rw [hlen]; exact lt_length_of_get?_eq_some hget)
    by_cases hwU : w = .unknown
    · rw [hw, hwU]
    · exfalso
      rcases hdisj with hd | hd
      · exact absurd rfl
          (hcl n nd.Left ⟨nd, hget, Or.inl ⟨by rw [hty]; rfl, rfl⟩⟩
            w hw hwU .unknown hd)
      · exact absurd rfl
          (hcl n nd.Right ⟨nd, hget, Or.inr ⟨by rw [hty]; rfl, rfl⟩⟩
            w hw hwU .unknown hd)
  · intro hLne hRne hUc
    rcases hn1 n nd hget hty hUc with hd | hd
    · exact hLne hd
    · exact hRne hd

/-- The claim as frozen fails: marking the single leaf under the `Or` root
of `tree5` short-circuits the whole `Neor` subtree from above; afterwards
both children of the `Neor` node 2 are non-`Unknown` and non-`True`, yet
node 2 is `Resolved`, not `False` as the claim demands. -/
theorem claim_C2_counterexample :
    pDecodes tree5 0 (.binary .leafB (.binary .leafB .leafB)) ∧
    tree5.data.get? 1 = some ⟨0, 0, 0, .leaf⟩ ∧
    tree5.data.get? 2 = some ⟨0, 3, 4, .neor⟩ ∧
    runMarks tree5 [(1, true)] (binTree.NewState tree5)
      = some ⟨[.isTrue, .isTrue, .resolved, .resolved, .resolved], 0⟩ ∧
    ¬ (binTreeState.data
        ⟨[.isTrue, .isTrue, .resolved, .resolved, .resolved], 0⟩).get? 3
      = some .unknown ∧
    ¬ (binTreeState.data
        ⟨[.isTrue, .isTrue, .resolved, .resolved, .resolved], 0⟩).get? 4
      = some .unknown ∧
    ¬ (binTreeState.data
        ⟨[.isTrue, .isTrue, .resolved, .resolved, .resolved], 0⟩).get? 3
      = some .isTrue ∧
    ¬ (binTreeState.data
        ⟨[.isTrue, .isTrue, .resolved, .resolved, .resolved], 0⟩).get? 4
      = some .isTrue ∧
    ¬ (binTreeState.data
        ⟨[.isTrue, .isTrue, .resolved, .resolved, .resolved], 0⟩).get? 2
      = some .isFalse :=
  ⟨.binary rfl (Or.inl rfl) rfl rfl rfl rfl (.leaf rfl rfl rfl rfl)
      (.binary rfl (Or.inr (Or.inr rfl)) rfl rfl rfl rfl
        (.leaf rfl rfl rfl rfl) (.leaf rfl rfl rfl rfl)),
   by decide, by decide, by decide, by decide, by decide, by decide,
   by decide, by decide⟩

theorem claim_C2_witness :
    runMarks tree5 [(3, true), (4, false)] (binTree.NewState tree5)
      = some ⟨[.isTrue, .resolved, .isTrue, .isTrue, .isFalse], 0⟩ ∧
    ¬ (binTreeState.data
        ⟨[.isTrue, .resolved, .isTrue, .isTrue, .isFalse], 0⟩).get? 2
      = some .unknown := by
  have hb0 : pDecodes tree5 0 (.binary .leafB (.binary .leafB .leafB)) :=
    .binary rfl (Or.inl rfl) rfl rfl rfl rfl (.leaf rfl rfl rfl rfl)
      (.binary rfl (Or.inr (Or.inr rfl)) rfl rfl rfl rfl
        (.leaf rfl rfl rfl rfl) (.leaf rfl rfl rfl rfl))
  have hleaves : ∀ m ∈ [((3 : Nat), true), ((4 : Nat), false)],
      ∀ nd, tree5.data.get? m.1 = some nd → nd.NodeType = .leaf := by
    intro m hm nd hnd
    rcases List.mem_cons.mp hm with rfl | hm2
    · cases hnd; rfl
    · rcases List.mem_cons.mp hm2 with rfl | hm3
      · cases hnd; rfl
      · cases hm3
  refine ⟨by decide, ?_⟩
  exact (claim_C2 tree5 (.binary .leafB (.binary .leafB .leafB))
    [(3, true), (4, false)]
    ⟨[.isTrue, .resolved, .isTrue, .isTrue, .isFalse], 0⟩
    hb0 rfl hleaves (by decide) 2 ⟨0, 3, 4, .neor⟩ (by decide) rfl).2.1
    (by decide) (by decide)

/-! ## Claim C8: the validator versus section 3.1 -/

/-- Soundness of the positional validator: on a decoded region whose stored
parent pointer is the one passed in, `validateItemF` succeeds and returns
the position one past the region, for any fuel of at least the region's
size. -/
theorem validateItemF_sound {tree : binTree} :
    ∀ {i : Nat} {b : BT}, pDecodes tree i b →
      ∀ fuel, b.size ≤ fuel → ∀ par, nodeParent tree i = some par →
        tree.validateItemF fuel i par = .ok (i + b.size) := by
  intro i b h
  induction h with
  | leaf hget hty hl hr =>
    rename_i i nd
    intro fuel hfuel par hpar
    obtain ⟨f, rfl⟩ : ∃ f, fuel = f + 1 :=
      ⟨fuel - 1, by simp [BT.size] at hfuel; omega⟩
    simp only [nodeParent, hget, Option.map_some'] at hpar
    have hpar' : nd.ParentIdx = par := Option.some.inj hpar
    rw [List.get?_eq_getElem?] at hget
    rw [binTree.validateItemF]
    simp [hget, hpar', hty, BT.size]
  | unary hget hty hleft hright hpar1 hc ih =>
    rename_i i nd c
    intro fuel hfuel par hpar
    simp only [BT.size] at hfuel
    obtain ⟨f, rfl⟩ : ∃ f, fuel = f + 1 := ⟨fuel - 1, by omega⟩
    simp only [nodeParent, hget, Option.map_some'] at hpar
    have hpar' : nd.ParentIdx = par := Option.some.inj hpar
    have htyne : ¬ nd.NodeType = leaf := by
      rcases hty with h | h <;> rw [h] <;> decide
    have hhasL : binTreeNodeTypeHasLeft nd.NodeType = true := by
      rcases hty with h | h <;> rw [h] <;> decide
    have hhasR : binTreeNodeTypeHasRight nd.NodeType = false := by
      rcases hty with h | h <;> rw [h] <;> decide
    have hlt : i + 1 < tree.data.length := pDecodes_lt hc
    have hihc := ih f (by omega) i hpar1
    rw [List.get?_eq_getElem?] at hget
    rw [binTree.validateItemF]
    simp [hget, hpar', htyne, hhasL, hhasR, hleft, hright, hihc, BT.size,
      Nat.not_le.mpr hlt]
    all_goals omega
  | binary hget hty hleft hright hpar1 hpar2 hl hr ihl ihr =>
    rename_i i nd l r
    intro fuel hfuel par hpar
    simp only [BT.size] at hfuel
    obtain ⟨f, rfl⟩ : ∃ f, fuel = f + 1 := ⟨fuel - 1, by omega⟩
    simp only [nodeParent, hget, Option.map_some'] at hpar
    have hpar' : nd.ParentIdx = par := Option.some.inj hpar
    have htyne : ¬ nd.NodeType = leaf := by
      rcases hty with h | h | h <;> rw [h] <;> decide
    have hhasL : binTreeNodeTypeHasLeft nd.NodeType = true := by
      rcases hty with h | h | h <;> rw [h] <;> decide
    have hhasR : binTreeNodeTypeHasRight nd.NodeType = true := by
      rcases hty with h | h | h <;> rw [h] <;> decide
    have hltL : i + 1 < tree.data.length := pDecodes_lt hl
    have hltR : i + 1 + l.size < tree.data.length := pDecodes_lt hr
    have hR0 : ¬ i + 1 + l.size = 0 := by omega
    have hihl := ihl f (by omega) i hpar1
    have hihr := ihr f (by omega) i hpar2
    rw [List.get?_eq_getElem?] at hget
    rw [binTree.validateItemF]
    simp [hget, hpar', htyne, hhasL, hhasR, hleft, hright, hihl, hihr,
      BT.size, Nat.not_le.mpr hltL, Nat.not_le.mpr hltR, hR0]
    all_goals omega

/-- Soundness half of C8: a spec-valid tree passes `Validate`. -/
theorem validate_sound {tree : binTree} (h : specValid tree) :
    tree.Validate = .ok () := by
  obtain ⟨b, hb, hsz, hroot⟩ := h
  rw [binTree.Validate]
  rw [validateItemF_sound hb (tree.data.length + 2) (by omega) 0 hroot]
  simp [hsz]

/-- `tree8` does not satisfy section 3.1: its root is binary, so a decode
would force the right child to sit after the left subtree (position at
least 2), but the stored right pointer is 1. -/
theorem tree8_not_specValid : ¬ specValid tree8 := by
  rintro ⟨b, hb, -, -⟩
  cases hb with
  | leaf hget hty hl hr =>
    rename_i nd
    have h0 := hget
    rw [show tree8.data.get? 0
      = some ⟨0, 1, 1, BinTreeNodeType.and⟩ from rfl] at h0
    cases Option.some.inj h0
    exact absurd hty (by decide)
  | unary hget hty hleft hright hpar hc =>
    rename_i nd c
    have h0 := hget
    rw [show tree8.data.get? 0
      = some ⟨0, 1, 1, BinTreeNodeType.and⟩ from rfl] at h0
    cases Option.some.inj h0
    rcases hty with h | h <;> exact absurd h (by decide)
  | binary hget hty hleft hright hpar1 hpar2 hl hr =>
    rename_i nd l r
    have h0 := hget
    rw [show tree8.data.get? 0
      = some ⟨0, 1, 1, BinTreeNodeType.and⟩ from rfl] at h0
    cases Option.some.inj h0
    have h1 : 1 = 0 + 1 + l.size := hright
    have := l.size_pos
    omega

/-- Claim C8, amended to the direction that holds: every tree satisfying
the section 3.1 layout passes `Validate`.  The converse fails (see the
counterexample): the validator checks child pointers only for range, never
against the pre-order positions it walks, so it accepts trees whose
pointers disagree with the layout. -/
theorem claim_C8 :
    ∀ tree : binTree, specValid tree → tree.Validate = .ok () :=
  fun _ h => validate_sound h

/-- The frozen iff fails: `tree8`'s `And` root stores 1 as both child
pointers, so the pointer structure violates section 3.1 (node 2 is not any
node's child), yet `Validate` accepts it. -/
theorem claim_C8_counterexample :
    tree8.Validate = .ok () ∧ ¬ specValid tree8 :=
  ⟨rfl, tree8_not_specValid⟩

theorem claim_C8_witness :
    specValid tree2 ∧ tree2.Validate = .ok () :=
  ⟨⟨.binary .leafB .leafB,
      .binary rfl (Or.inl rfl) rfl rfl rfl rfl
        (.leaf rfl rfl rfl rfl) (.leaf rfl rfl rfl rfl),
      rfl, rfl⟩,
   claim_C8 tree2
     ⟨.binary .leafB .leafB,
      .binary rfl (Or.inl rfl) rfl rfl rfl rfl
        (.leaf rfl rfl rfl rfl) (.leaf rfl rfl rfl rfl),
      rfl, rfl⟩⟩

/-! ## The filter-expression parser AST (filterExprParser.go)

The `FE*` structures translate the participle-bound structs; Go pointer
fields (`*T`) become `Option T`, slices become `List T`.  Error results
(`error` returns) become `Except FEErr`; the distinct `fmt.Errorf`
messages are abstracted to the `.invalid` constructor carrying the struct
name, since no behaviour ever branches on the message text.  A Go nil
dereference (calling a method that reads a field of a nil receiver) is the
`.goPanic` error. -/

/-- A Go float64: the translated code never performs float arithmetic, so
a value is carried opaquely as its IEEE-754 bit pattern together with the
rendering `fmt.Sprintf("%v", x)` would produce (used only by `String()`
methods). -/
structure GoFloat : Type where
  bits : Nat
  render : String
deriving DecidableEq, Repr

/-- The Go constant `math.Pi` (bit pattern and `%v` rendering). -/
def mathPi : GoFloat := ⟨0x400921FB54442D18, "3.141592653589793"⟩

/-- The Go constant `math.E`. -/
def mathE : GoFloat := ⟨0x4005BF0A8B145769, "2.718281828459045"⟩

/-- A Go `interface{}` value as stored inside a `ValueExpr`: the code puts
booleans, strings, ints, floats and nil there. -/
inductive GoValue : Type
  | null
  | bool (b : Bool)
  | str (s : String)
  | int (n : Int)
  | float (f : GoFloat)
deriving DecidableEq, Repr

/-- Modelled from the spec: the expression IR that `OutputExpression`
lowers into (the IR lives outside the two source files; the spec lists
its node kinds: And/Or/Not/True/False, Value, Field, Func, the six
comparisons, Exists/NotExists, and the Like/Regex/Pcre regex nodes). -/
inductive Expression : Type
  | orE (subs : List Expression)
  | andE (subs : List Expression)
  | notE (sub : Expression)
  | trueE
  | falseE
  | valueE (v : GoValue)
  | fieldE (Path : List String)
  | funcE (FuncName : String) (Params : List Expression)
  | equalsE (Lhs Rhs : Expression)
  | notEqualsE (Lhs Rhs : Expression)
  | greaterThanE (Lhs Rhs : Expression)
  | greaterEqualsE (Lhs Rhs : Expression)
  | lessThanE (Lhs Rhs : Expression)
  | lessEqualsE (Lhs Rhs : Expression)
  | existsE (sub : Expression)
  | notExistsE (sub : Expression)
  | likeE (Lhs Rhs : Expression)
  | regexE (pattern : String)
  | pcreE (pattern : String)
deriving Repr

/-- Errors of the parser-to-IR translation.  `malformedParenthesis` is
`ErrorMalformedParenthesis`, `notFound` is `ErrorNotFound`,
`malformedRegex` is the spec's *MalformedRegex*; `invalid what` stands for
the `fmt.Errorf("Invalid <what> ...")` family; `goPanic` is a Go runtime
panic (nil dereference). -/
inductive FEErr : Type
  | malformedParenthesis
  | notFound
  | malformedRegex
  | invalid (what : String)
  | goPanic
deriving DecidableEq, Repr

/-- Modelled from the spec: the IR function names for arithmetic and
numeric intrinsics (the constant definitions live outside the two source
files; the spec lists them as `add`, `sub`, `mul`, `div`, `mod`, `neg`,
`abs`, `sqrt`, `sin`, `cos`, `tan`, `asin`, `acos`, `atan`, `atan2`,
`pow`, `log`, `ln`, `exp`, `ceil`, `floor`, `round`, `radians`,
`degrees`, `date`). -/
def MathFuncAdd : String := "add"

def MathFuncSub : String := "sub"

def MathFuncMul : String := "mul"

def MathFuncDiv : String := "div"

def MathFuncMod : String := "mod"

def MathFuncNeg : String := "neg"

def MathFuncAbs : String := "abs"

def MathFuncSqrt : String := "sqrt"

def MathFuncSin : String := "sin"

def MathFuncCos : String := "cos"

def MathFuncTan : String := "tan"

def MathFuncAsin : String := "asin"

def MathFuncAcos : String := "acos"

def MathFuncAtan : String := "atan"

def MathFuncAtan2 : String := "atan2"

def MathFuncPow : String := "pow"

def MathFuncLog : String := "log"

def MathFuncLn : String := "ln"

def MathFuncExp : String := "exp"

def MathFuncCeil : String := "ceil"

def MathFuncFloor : String := "floor"

def MathFuncRound : String := "round"

def MathFuncRadians : String := "radians"

def MathFuncDegrees : String := "degrees"

def DateFunc : String := "date"

/-- Modelled from the spec: the grammar token for the META path
function. -/
def OperatorMeta : String := "META"

/-- Two characters form a month number 01–12. -/
def isMonthPair (m1 m2 : Char) : Bool :=
  (m1 = '0' && m2.isDigit && !(m2 = '0')) ||
  (m1 = '1' && (m2 = '0' || m2 = '1' || m2 = '2'))

/-- Two characters form a day number 01–31. -/
def isDayPair (d1 d2 : Char) : Bool :=
  (d1 = '0' && d2.isDigit && !(d2 = '0')) ||
  ((d1 = '1' || d1 = '2') && d2.isDigit) ||
  (d1 = '3' && (d2 = '0' || d2 = '1'))

/-- Modelled from the spec: an ISO-8601 year — four digits.  (The regular
expressions live outside the two source files; the spec names the three
patterns as ISO-8601 year, year-month, and complete date.) -/
def iso8601Year (s : String) : Bool :=
  match s.toList with
  | [a, b, c, d] => a.isDigit && b.isDigit && c.isDigit && d.isDigit
  | _ => false

/-- Modelled from the spec: an ISO-8601 year-month, `YYYY-MM` with month
01–12. -/
def iso8601YearAndMonth (s : String) : Bool :=
  match s.toList with
  | [a, b, c, d, h, m1, m2] =>
    a.isDigit && b.isDigit && c.isDigit && d.isDigit && h = '-' &&
      isMonthPair m1 m2
  | _ => false

/-- Modelled from the spec: an ISO-8601 complete date, `YYYY-MM-DD` with
month 01–12 and day 01–31. -/
def iso8601CompleteDate (s : String) : Bool :=
  match s.toList with
  | [a, b, c, d, h, m1, m2, h2, d1, d2] =>
    a.isDigit && b.isDigit && c.isDigit && d.isDigit && h = '-' &&
      isMonthPair m1 m2 && h2 = '-' && isDayPair d1 d2
  | _ => false

/-- Modelled from the spec: `tokenIsPcreValueType` recognizes a
PCRE-shaped literal by a leading/trailing slash marker. -/
def tokenIsPcreValueType (s : String) : Bool :=
  s.startsWith "/" && s.endsWith "/" && s.length ≥ 2

/-- Modelled from the spec: `MakePcreExpression` lowers a PCRE literal to
a `PcreLike` node; invalid patterns fail with *MalformedRegex*.  Which
patterns the regex backend rejects is outside the two source files, so the
backend's compile check is the explicit parameter `pcreOk`. -/
def MakePcreExpression (pcreOk : String → Bool) (s : String) :
    Except FEErr Expression :=
  if pcreOk s then .ok (.pcreE s) else .error .malformedRegex

/-- `FEOpenParen`: one captured `(`. -/
structure FEOpenParen : Type where
  Parens : String
deriving DecidableEq, Repr

/-- `FECloseParen`: one captured `)`. -/
structure FECloseParen : Type where
  Parens : String
deriving DecidableEq, Repr

/-- `FEBoolean`: the four capture slots for TRUE/true/FALSE/false. -/
structure FEBoolean : Type where
  TVal : Option Bool
  TVal1 : Option Bool
  FVal : Option Bool
  FVal1 : Option Bool
deriving DecidableEq, Repr

/-- `FEBoolean.IsSet`. -/
def FEBoolean.IsSet (feb : FEBoolean) : Bool :=
  feb.TVal.isSome || feb.TVal1.isSome || feb.FVal.isSome || feb.FVal1.isSome

/-- `FEBoolean.GetBool`. -/
def FEBoolean.GetBool (feb : FEBoolean) : Bool :=
  if feb.TVal = some true then true
  else if feb.TVal1 = some true then true
  else if feb.FVal = some true then false
  else if feb.FVal1 = some true then false
  else false

/-- `FEBoolean.OutputExpression`. -/
def FEBoolean.OutputExpression (f : FEBoolean) (asValue : Bool) :
    Except FEErr Expression :=
  if ¬ f.IsSet then .error (.invalid "FEBoolean")
  else if f.GetBool then
    if asValue then .ok (.valueE (.bool true)) else .ok .trueE
  else
    if asValue then .ok (.valueE (.bool false)) else .ok .falseE

/-- `FEValue`. -/
structure FEValue : Type where
  StrValue : Option String
  IntValue : Option Int
  FloatValue : Option GoFloat
deriving DecidableEq, Repr

/-- `FEValue.String`. -/
def FEValue.String (fev : FEValue) : String :=
  match fev.StrValue with
  | some s => s
  | none =>
    match fev.IntValue with
    | some i => toString i
    | none =>
      match fev.FloatValue with
      | some f => f.render
      | none => "?? (FEValue)"

/-- `FEValue.OutputExpression`. -/
def FEValue.OutputExpression (f : FEValue) : Except FEErr Expression :=
  match f.StrValue with
  | some s => .ok (.valueE (.str s))
  | none =>
    match f.IntValue with
    | some i => .ok (.valueE (.int i))
    | none =>
      match f.FloatValue with
      | some fl => .ok (.valueE (.float fl))
      | none => .error (.invalid "FEValue")

/-- `FEMathValue`. -/
structure FEMathValue : Type where
  IntValue : Option Int
  FloatValue : Option GoFloat
deriving DecidableEq, Repr

/-- `FEMathValue.OutputExpression`. -/
def FEMathValue.OutputExpression (f : FEMathValue) : Except FEErr Expression :=
  match f.IntValue with
  | some i => .ok (.valueE (.int i))
  | none =>
    match f.FloatValue with
    | some fl => .ok (.valueE (.float fl))
    | none => .error (.invalid "FEMathValue")

/-- `FEMathArithmeticOp`: presence of one of `+ - * / %`. -/
structure FEMathArithmeticOp : Type where
  Addition : Option Bool
  Subtraction : Option Bool
  Multiply : Option Bool
  Division : Option Bool
  Modulo : Option Bool
deriving DecidableEq, Repr

/-- `FEMathArithmeticOp.OutputExpression` (the Go method returns a
`FuncExpr` with the operator name and no parameters yet). -/
def FEMathArithmeticOp.OutputExpression (f : FEMathArithmeticOp) :
    Except FEErr Expression :=
  if f.Addition.isSome then .ok (.funcE MathFuncAdd [])
  else if f.Subtraction.isSome then .ok (.funcE MathFuncSub [])
  else if f.Multiply.isSome then .ok (.funcE MathFuncMul [])
  else if f.Division.isSome then .ok (.funcE MathFuncDiv [])
  else if f.Modulo.isSome then .ok (.funcE MathFuncMod [])
  else .error (.invalid "FEMathArithmeticOp")

/-- `FEOpChar`. -/
structure FEOpChar : Type where
  Not : Option Bool
  Equal : Option Bool
  LessThan : Option Bool
  GreaterThan : Option Bool
deriving DecidableEq, Repr

/-- `FECompareOp`: one or two operator characters. -/
structure FECompareOp : Type where
  OpChars0 : Option FEOpChar
  OpChars1 : Option FEOpChar
deriving DecidableEq, Repr

/-- `FECompareOp.IsEqual`: `=` or `==`. -/
def FECompareOp.IsEqual (feo : FECompareOp) : Bool :=
  let c0eq : Bool :=
    match feo.OpChars0 with
    | some c => c.Equal.isSome
    | none => false
  let c1eq : Bool :=
    match feo.OpChars1 with
    | some c => c.Equal.isSome
    | none => false
  (c0eq && feo.OpChars1.isNone) || (c0eq && c1eq)

/-- `FECompareOp.IsNotEqual`: `!=` or `<>`. -/
def FECompareOp.IsNotEqual (feo : FECompareOp) : Bool :=
  let notEqual0 : Bool :=
    (match feo.OpChars0 with
     | some c => c.Not.isSome
     | none => false) &&
    (match feo.OpChars1 with
     | some c => c.Equal.isSome
     | none => false)
  let notEqual1 : Bool :=
    (match feo.OpChars0 with
     | some c => c.LessThan.isSome
     | none => false) &&
    (match feo.OpChars1 with
     | some c => c.GreaterThan.isSome
     | none => false)
  notEqual0 || notEqual1

/-- `FECompareOp.IsGreaterThan`: `>`. -/
def FECompareOp.IsGreaterThan (feo : FECompareOp) : Bool :=
  (match feo.OpChars0 with
   | some c => c.GreaterThan.isSome
   | none => false) && feo.OpChars1.isNone

/-- `FECompareOp.IsGreaterThanOrEqualTo`: `>=`. -/
def FECompareOp.IsGreaterThanOrEqualTo (feo : FECompareOp) : Bool :=
  (match feo.OpChars0 with
   | some c => c.GreaterThan.isSome
   | none => false) &&
  (match feo.OpChars1 with
   | some c => c.Equal.isSome
   | none => false)

/-- `FECompareOp.IsLessThan`: `<`. -/
def FECompareOp.IsLessThan (feo : FECompareOp) : Bool :=
  (match feo.OpChars0 with
   | some c => c.LessThan.isSome
   | none => false) && feo.OpChars1.isNone

/-- `FECompareOp.IsLessThanOrEqualTo`: `<=`. -/
def FECompareOp.IsLessThanOrEqualTo (feo : FECompareOp) : Bool :=
  (match feo.OpChars0 with
   | some c => c.LessThan.isSome
   | none => false) &&
  (match feo.OpChars1 with
   | some c => c.Equal.isSome
   | none => false)

/-- `FECompareOp.OutputExpression`. -/
def FECompareOp.OutputExpression (f : FECompareOp) (lhs rhs : Expression) :
    Except FEErr Expression :=
  if f.IsEqual then .ok (.equalsE lhs rhs)
  else if f.IsNotEqual then .ok (.notEqualsE lhs rhs)
  else if f.IsGreaterThan then .ok (.greaterThanE lhs rhs)
  else if f.IsGreaterThanOrEqualTo then .ok (.greaterEqualsE lhs rhs)
  else if f.IsLessThan then .ok (.lessThanE lhs rhs)
  else if f.IsLessThanOrEqualTo then .ok (.lessEqualsE lhs rhs)
  else .error (.invalid "FECompareOp")

/-- `FECheckOp`: `IS [NOT] (NULL | MISSING)`. -/
structure FECheckOp : Type where
  Not : Option Bool
  Null : Option Bool
  Missing : Option Bool
deriving DecidableEq, Repr

/-- `FECheckOp.isNot`. -/
def FECheckOp.isNot (feco : FECheckOp) : Bool :=
  feco.Not = some true

/-- `FECheckOp.isMissingInternal`. -/
def FECheckOp.isMissingInternal (feco : FECheckOp) : Bool :=
  feco.Missing = some true

/-- `FECheckOp.IsMissing`. -/
def FECheckOp.IsMissing (feco : FECheckOp) : Bool :=
  !feco.isNot && feco.isMissingInternal

/-- `FECheckOp.IsNotMissing`. -/
def FECheckOp.IsNotMissing (feco : FECheckOp) : Bool :=
  feco.isNot && feco.isMissingInternal

/-- `FECheckOp.isNullInternal`. -/
def FECheckOp.isNullInternal (feco : FECheckOp) : Bool :=
  feco.Null = some true

/-- `FECheckOp.IsNull`. -/
def FECheckOp.IsNull (feco : FECheckOp) : Bool :=
  !feco.isNot && feco.isNullInternal

/-- `FECheckOp.IsNotNull`. -/
def FECheckOp.IsNotNull (feco : FECheckOp) : Bool :=
  feco.isNot && feco.isNullInternal

/-- `FECheckOp.OutputExpression`. -/
def FECheckOp.OutputExpression (f : FECheckOp) (subExpr : Expression) :
    Except FEErr Expression :=
  if f.IsNotMissing then .ok (.existsE subExpr)
  else if f.IsMissing then .ok (.notExistsE subExpr)
  else if f.IsNull then .ok (.equalsE subExpr (.valueE .null))
  else if f.IsNotNull then .ok (.notE (.equalsE subExpr (.valueE .null)))
  else .error (.invalid "FECheckOp")

/-- `FEStringType`: the four capture slots of a path segment. -/
structure FEStringType : Type where
  EscapedStrVal : String
  CharVal : String
  RawStr : String
  StrValue : String
deriving DecidableEq, Repr

/-- `FEStringType.String`. -/
def FEStringType.String (f : FEStringType) : String :=
  if f.CharVal.length > 0 then f.CharVal
  else if f.RawStr.length > 0 then f.RawStr
  else if f.StrValue.length > 0 then f.StrValue
  else if f.EscapedStrVal.length > 0 then f.EscapedStrVal
  else ""

/-- `FEArrayIndex`. -/
structure FEArrayIndex : Type where
  ArrayIndex : String
deriving DecidableEq, Repr

/-- `FEArrayIndex.String`: `fmt.Sprintf("[%v]", i.ArrayIndex)`. -/
def FEArrayIndex.String (i : FEArrayIndex) : String :=
  "[" ++ i.ArrayIndex ++ "]"

/-- `FEOnePathFuncNoArgName`. -/
structure FEOnePathFuncNoArgName : Type where
  Meta : Option Bool
deriving DecidableEq, Repr

/-- `FEOnePathFuncNoArgName.String`. -/
def FEOnePathFuncNoArgName.String (n : FEOnePathFuncNoArgName) : String :=
  if n.Meta = some true then OperatorMeta
  else "?? (FEOnePathFuncNoArgName)"

/-- `FEOnePathFuncNoArg`. -/
structure FEOnePathFuncNoArg : Type where
  OnePathFuncNoArgName : Option FEOnePathFuncNoArgName
deriving DecidableEq, Repr

/-- `FEOnePathFuncNoArg.String`. -/
def FEOnePathFuncNoArg.String (na : FEOnePathFuncNoArg) : String :=
  match na.OnePathFuncNoArgName with
  | some n => n.String ++ "()"
  | none => "?? (FEOnePathFuncNoArg)"

/-- `FEOnePathFuncExpr`. -/
structure FEOnePathFuncExpr : Type where
  OnePathFuncNoArg : Option FEOnePathFuncNoArg
deriving DecidableEq, Repr

/-- `FEOnePathFuncExpr.String`. -/
def FEOnePathFuncExpr.String (e : FEOnePathFuncExpr) : String :=
  match e.OnePathFuncNoArg with
  | some na => na.String
  | none => "?? FEOnePathFuncExpr"

/-- `FEOnePath`: one path segment with optional array indexes. -/
structure FEOnePath : Type where
  OnePathFunc : Option FEOnePathFuncExpr
  StrValue : Option FEStringType
  ArrayIndexes : List FEArrayIndex
deriving DecidableEq, Repr

/-- `FEOnePath.String`, which dereferences `StrValue` when `OnePathFunc`
is nil — a nil `StrValue` there is a Go panic, hence the `Option` result
(`none` = panic).  Go joins the head and the array-index strings with
spaces. -/
def FEOnePath.StringM (feop : FEOnePath) : Option String :=
  match feop.OnePathFunc with
  | some f =>
    some (String.intercalate " " (f.String :: feop.ArrayIndexes.map FEArrayIndex.String))
  | none =>
    match feop.StrValue with
    | none => none
    | some s =>
      some (String.intercalate " " (s.String :: feop.ArrayIndexes.map FEArrayIndex.String))

/-- `FEOnePath.OutputOnePath`: the segment name and the rendered array
indexes.  In the both-nil case Go formats an error message through
`f.String()`, which dereferences the nil `StrValue` — a panic. -/
def FEOnePath.OutputOnePath (f : FEOnePath) :
    Except FEErr (String × List String) :=
  let arrayIdx := f.ArrayIndexes.map FEArrayIndex.String
  match f.StrValue with
  | some s => .ok (s.String, arrayIdx)
  | none =>
    match f.OnePathFunc with
    | some fn => .ok (fn.String, arrayIdx)
    | none => .error .goPanic

/-- `FEField`. -/
structure FEField : Type where
  MathNeg : Option Bool
  Path : List FEOnePath
  MathOp : Option FEMathArithmeticOp
  MathValue : Option FEMathValue
deriving DecidableEq, Repr

/-- `FEField.ShouldHandleSpecialValue`: true when the path is a single
segment whose text matches one of the three ISO-8601 patterns.  Evaluating
the segment text can panic (nil `StrValue`), hence `Option` (`none` =
panic). -/
def FEField.ShouldHandleSpecialValueM (f : FEField) : Option Bool :=
  match f.Path with
  | [p] =>
    match p.StringM with
    | none => none
    | some s =>
      some (iso8601Year s || iso8601YearAndMonth s || iso8601CompleteDate s)
  | _ => some false

/-- `FEField.OutputExpressionSpecialAsValue`: `ValueExpr{f.Path[0].String()}`. -/
def FEField.OutputExpressionSpecialAsValue (f : FEField) :
    Except FEErr Expression :=
  match f.Path with
  | p :: _ =>
    match p.StringM with
    | some s => .ok (.valueE (.str s))
    | none => .error .goPanic
  | [] => .error .goPanic

/-- The `for _, onePath := range f.Path` loop of `FEField.OutputExpression`:
each segment contributes its name and then its array-index strings. -/
def pathListOut : List FEOnePath → Except FEErr (List String)
  | [] => .ok []
  | p :: rest =>
    match p.OutputOnePath with
    | .error e => .error e
    | .ok (nm, arrs) =>
      match pathListOut rest with
      | .error e => .error e
      | .ok tl => .ok (nm :: (arrs ++ tl))

/-- `FEField.OutputExpression`.  The special-value check runs first; the
math part wraps the field in `neg`/operator `FuncExpr`s.  When `MathNeg`
is set and `MathOp` is set but `MathValue` is nil, Go calls
`OutputExpression` on the nil `MathValue` — a panic.  (The Go type
assertion `mathOpExpr.(FuncExpr)` cannot fail because
`FEMathArithmeticOp.OutputExpression` only returns `FuncExpr`s; a
non-`funcE` result is mapped to the panic error for faithfulness.) -/
def FEField.OutputExpression (f : FEField) : Except FEErr Expression :=
  match f.ShouldHandleSpecialValueM with
  | none => .error .goPanic
  | some true => f.OutputExpressionSpecialAsValue
  | some false =>
    match pathListOut f.Path with
    | .error e => .error e
    | .ok path =>
      if f.MathNeg.isSome || (f.MathOp.isSome && f.MathValue.isSome) then
        match f.MathOp with
        | none => .ok (.funcE MathFuncNeg [.fieldE path])
        | some op =>
          match op.OutputExpression with
          | .error e => .error e
          | .ok mop =>
            match mop with
            | .funcE nm ps =>
              let fieldArg : Expression :=
                if f.MathNeg.isSome then .funcE MathFuncNeg [.fieldE path]
                else .fieldE path
              match f.MathValue with
              | none => .error .goPanic
              | some mv =>
                match mv.OutputExpression with
                | .error e => .error e
                | .ok valExpr => .ok (.funcE nm (ps ++ [fieldArg, valExpr]))
            | _ => .error .goPanic
      else .ok (.fieldE path)

/-- `FEExistsClause`. -/
structure FEExistsClause : Type where
  Field : Option FEField
deriving DecidableEq, Repr

/-- `FEExistsClause.OutputExpression`. -/
def FEExistsClause.OutputExpression (f : FEExistsClause) :
    Except FEErr Expression :=
  match f.Field with
  | some fld =>
    match fld.OutputExpression with
    | .error e => .error e
    | .ok fieldExpr => .ok (.existsE fieldExpr)
  | none => .error (.invalid "FEExistsClause")

/-- `FEConstFuncNoArgName`. -/
structure FEConstFuncNoArgName : Type where
  Pi : Option Bool
  E : Option Bool
deriving DecidableEq, Repr

/-- `FEConstFuncNoArg`. -/
structure FEConstFuncNoArg : Type where
  ConstFuncNoArgName : Option FEConstFuncNoArgName
deriving DecidableEq, Repr

/-- `FEConstFuncNoArg.OutputExpression`. -/
def FEConstFuncNoArg.OutputExpression (f : FEConstFuncNoArg) :
    Except FEErr Expression :=
  match f.ConstFuncNoArgName with
  | none => .error (.invalid "FEConstFuncNoArg")
  | some n =>
    if n.Pi = some true then .ok (.valueE (.float mathPi))
    else if n.E = some true then .ok (.valueE (.float mathE))
    else .error (.invalid "FEConstFuncNoArg")

/-- `FEConstFuncOneArgName`: the 17 one-argument function slots. -/
structure FEConstFuncOneArgName : Type where
  Abs : Option Bool
  Acos : Option Bool
  Asin : Option Bool
  Atan : Option Bool
  Ceil : Option Bool
  Cos : Option Bool
  Date : Option Bool
  Degrees : Option Bool
  Exp : Option Bool
  Floor : Option Bool
  Log : Option Bool
  Ln : Option Bool
  Sine : Option Bool
  Tangent : Option Bool
  Radians : Option Bool
  Round : Option Bool
  Sqrt : Option Bool
deriving DecidableEq, Repr

/-- `FEConstFuncOneArgName.OutputExpression`: the IR function name. -/
def FEConstFuncOneArgName.OutputExpression (arg : FEConstFuncOneArgName) :
    Except FEErr String :=
  if arg.Abs = some true then .ok MathFuncAbs
  else if arg.Acos = some true then .ok MathFuncAcos
  else if arg.Asin = some true then .ok MathFuncAsin
  else if arg.Atan = some true then .ok MathFuncAtan
  else if arg.Ceil = some true then .ok MathFuncCeil
  else if arg.Cos = some true then .ok MathFuncCos
  else if arg.Date = some true then .ok DateFunc
  else if arg.Degrees = some true then .ok MathFuncDegrees
  else if arg.Exp = some true then .ok MathFuncExp
  else if arg.Floor = some true then .ok MathFuncFloor
  else if arg.Log = some true then .ok MathFuncLog
  else if arg.Ln = some true then .ok MathFuncLn
  else if arg.Sine = some true then .ok MathFuncSin
  else if arg.Tangent = some true then .ok MathFuncTan
  else if arg.Radians = some true then .ok MathFuncRadians
  else if arg.Round = some true then .ok MathFuncRound
  else if arg.Sqrt = some true then .ok MathFuncSqrt
  else .error .notFound

/-- `FEConstFuncTwoArgsName`. -/
structure FEConstFuncTwoArgsName : Type where
  Atan2 : Option Bool
  Power : Option Bool
deriving DecidableEq, Repr

/-- `FEConstFuncTwoArgsName.OutputExpression`. -/
def FEConstFuncTwoArgsName.OutputExpression (arg : FEConstFuncTwoArgsName) :
    Except FEErr String :=
  if arg.Atan2 = some true then .ok MathFuncAtan2
  else if arg.Power = some true then .ok MathFuncPow
  else .error .notFound

/-- `FEBooleanFuncTwoArgsName`. -/
structure FEBooleanFuncTwoArgsName : Type where
  RegexContains : Option Bool
deriving DecidableEq, Repr

/-! The `ConstFunc` family is mutually recursive through
`FEConstFuncArgument`. -/

mutual
/-- `FEConstFuncExpression`. -/
inductive FEConstFuncExpression : Type
  | mk (ConstFuncNoArg : Option FEConstFuncNoArg)
      (ConstFuncOneArg : Option FEConstFuncOneArg)
      (ConstFuncTwoArgs : Option FEConstFuncTwoArgs)

/-- `FEConstFuncOneArg`. -/
inductive FEConstFuncOneArg : Type
  | mk (ConstFuncOneArgName : Option FEConstFuncOneArgName)
      (Argument : Option FEConstFuncArgument)

/-- `FEConstFuncTwoArgs`. -/
inductive FEConstFuncTwoArgs : Type
  | mk (ConstFuncTwoArgsName : Option FEConstFuncTwoArgsName)
      (Argument0 : Option FEConstFuncArgument)
      (Argument1 : Option FEConstFuncArgument)

/-- `FEConstFuncArgument`. -/
inductive FEConstFuncArgument : Type
  | mk (SubFunc : Option FEConstFuncExpression)
      (Field : Option FEField)
      (Argument : Option FEValue)
end

/-- `FEConstFuncArgumentRHS`. -/
structure FEConstFuncArgumentRHS : Type where
  SubFunc : Option FEConstFuncExpression
  Argument : Option FEValue

/-- `FEBooleanFuncTwoArgs`. -/
structure FEBooleanFuncTwoArgs : Type where
  BooleanFuncTwoArgsName : Option FEBooleanFuncTwoArgsName
  Argument0 : Option FEConstFuncArgument
  Argument1 : Option FEConstFuncArgumentRHS

/-- `FEBooleanFuncExpr`. -/
structure FEBooleanFuncExpr : Type where
  BooleanFuncTwoArgs : Option FEBooleanFuncTwoArgs
  ExistsClause : Option FEExistsClause

/-- `FEBooleanExpr`. -/
structure FEBooleanExpr : Type where
  BooleanVal : Option FEBoolean
  BooleanFunc : Option FEBooleanFuncExpr

/-- `FELhs`. -/
structure FELhs : Type where
  Func : Option FEConstFuncExpression
  Bool : Option FEBoolean
  Field : Option FEField
  Value : Option FEValue

/-- `FERhs`. -/
structure FERhs : Type where
  Func : Option FEConstFuncExpression
  Bool : Option FEBoolean
  Value : Option FEValue
  Field : Option FEField

/-- `FEOperand`. -/
structure FEOperand : Type where
  BooleanExpr : Option FEBooleanExpr
  LHS : Option FELhs
  Op : Option FECompareOp
  RHS : Option FERhs
  CheckOp : Option FECheckOp

/-- `FECondition`: recursive through the `NOT` slot. -/
inductive FECondition : Type
  | mk (Not : Option FECondition) (Operand : Option FEOperand)

/-- The `Not` field of a `FECondition`. -/
def FECondition.Not : FECondition → Option FECondition
  | .mk n _ => n

/-- The `Operand` field of a `FECondition`. -/
def FECondition.Operand : FECondition → Option FEOperand
  | .mk _ o => o

/-- `FEAndCondition`. -/
structure FEAndCondition : Type where
  OpenParens : List FEOpenParen
  OrConditions : List FECondition
  CloseParens : List FECloseParen

/-- `FilterExpression`: recursive through `SubFilterExpr`. -/
inductive FilterExpression : Type
  | mk (AndConditions : List FEAndCondition)
      (SubFilterExpr : List FilterExpression)

/-- The `AndConditions` field of a `FilterExpression`. -/
def FilterExpression.AndConditions : FilterExpression → List FEAndCondition
  | .mk a _ => a

/-- The `SubFilterExpr` field of a `FilterExpression`. -/
def FilterExpression.SubFilterExpr : FilterExpression → List FilterExpression
  | .mk _ s => s

/-- `FECondition.GetTotalOpenParens`: only the `NOT` chain contributes
(an operand holds no parens). -/
def FECondition.GetTotalOpenParens : FECondition → Nat
  | .mk n _ =>
    match n with
    | some c => c.GetTotalOpenParens
    | none => 0

/-- `FECondition.GetTotalCloseParens`. -/
def FECondition.GetTotalCloseParens : FECondition → Nat
  | .mk n _ =>
    match n with
    | some c => c.GetTotalCloseParens
    | none => 0

/-- The summation loop of `FEAndCondition.GetTotalOpenParens` over
`OrConditions`. -/
def condListOpen : List FECondition → Nat
  | [] => 0
  | c :: rest => c.GetTotalOpenParens + condListOpen rest

/-- The summation loop of `FEAndCondition.GetTotalCloseParens`. -/
def condListClose : List FECondition → Nat
  | [] => 0
  | c :: rest => c.GetTotalCloseParens + condListClose rest

/-- `FEAndCondition.GetTotalOpenParens`: its own `(` captures plus the
conditions' counts. -/
def FEAndCondition.GetTotalOpenParens (f : FEAndCondition) : Nat :=
  f.OpenParens.length + condListOpen f.OrConditions

/-- `FEAndCondition.GetTotalCloseParens`. -/
def FEAndCondition.GetTotalCloseParens (f : FEAndCondition) : Nat :=
  f.CloseParens.length + condListClose f.OrConditions

/-- The summation loop of `FilterExpression.GetTotalOpenParens` over
`AndConditions`. -/
def acListOpen : List FEAndCondition → Nat
  | [] => 0
  | a :: rest => a.GetTotalOpenParens + acListOpen rest

/-- The summation loop of `FilterExpression.GetTotalCloseParens` over
`AndConditions`. -/
def acListClose : List FEAndCondition → Nat
  | [] => 0
  | a :: rest => a.GetTotalCloseParens + acListClose rest

mutual
/-- `FilterExpression.GetTotalOpenParens`. -/
def FilterExpression.GetTotalOpenParens : FilterExpression → Nat
  | .mk acs subs => acListOpen acs + feListOpen subs

/-- The summation loop over `SubFilterExpr`. -/
def feListOpen : List FilterExpression → Nat
  | [] => 0
  | f :: rest => f.GetTotalOpenParens + feListOpen rest
end

mutual
/-- `FilterExpression.GetTotalCloseParens`. -/
def FilterExpression.GetTotalCloseParens : FilterExpression → Nat
  | .mk acs subs => acListClose acs + feListClose subs

/-- The summation loop over `SubFilterExpr`. -/
def feListClose : List FilterExpression → Nat
  | [] => 0
  | f :: rest => f.GetTotalCloseParens + feListClose rest
end

/-- `FEConstFuncArgumentRHS.OutputRegexExpression`: a PCRE-shaped literal
becomes a Pcre node through the backend (`pcreOk` is the backend's
compile check, see `MakePcreExpression`), anything else a plain
`RegexExpr`. -/
def FEConstFuncArgumentRHS.OutputRegexExpression (pcreOk : String → Bool)
    (f : FEConstFuncArgumentRHS) : Except FEErr Expression :=
  match f.Argument with
  | none => .error (.invalid "FEConstFuncArgumentRHS")
  | some a =>
    if tokenIsPcreValueType a.String then MakePcreExpression pcreOk a.String
    else .ok (.regexE a.String)

mutual
/-- `FEConstFuncExpression.OutputExpression`. -/
def FEConstFuncExpression.OutputExpression :
    FEConstFuncExpression → Except FEErr Expression
  | .mk noArg oneArg twoArgs =>
    match noArg with
    | some na => na.OutputExpression
    | none =>
      match oneArg with
      | some oa => oa.OutputExpression
      | none =>
        match twoArgs with
        | some ta => ta.OutputExpression
        | none => .error (.invalid "FEConstFuncExpression")

/-- `FEConstFuncOneArg.OutputExpression`. -/
def FEConstFuncOneArg.OutputExpression :
    FEConstFuncOneArg → Except FEErr Expression
  | .mk nm arg =>
    match nm, arg with
    | some n, some a =>
      match n.OutputExpression with
      | .error e => .error e
      | .ok name =>
        match a.OutputExpression with
        | .error e => .error e
        | .ok argExpr => .ok (.funcE name [argExpr])
    | _, _ => .error (.invalid "FEConstFuncOneArg")

/-- `FEConstFuncTwoArgs.OutputExpression`. -/
def FEConstFuncTwoArgs.OutputExpression :
    FEConstFuncTwoArgs → Except FEErr Expression
  | .mk nm arg0 arg1 =>
    match nm, arg0, arg1 with
    | some n, some a0, some a1 =>
      match n.OutputExpression with
      | .error e => .error e
      | .ok name =>
        match a0.OutputExpression with
        | .error e => .error e
        | .ok x0 =>
          match a1.OutputExpression with
          | .error e => .error e
          | .ok x1 => .ok (.funcE name [x0, x1])
    | _, _, _ => .error (.invalid "FEConstFuncTwoArgs")

/-- `FEConstFuncArgument.OutputExpression`: the literal argument is
checked first, then the field, then the sub-function. -/
def FEConstFuncArgument.OutputExpression :
    FEConstFuncArgument → Except FEErr Expression
  | .mk subFn fld arg =>
    match arg with
    | some a => a.OutputExpression
    | none =>
      match fld with
      | some f => f.OutputExpression
      | none =>
        match subFn with
        | some sf => sf.OutputExpression
        | none => .error (.invalid "FEConstFuncArgument")
end

/-- `FEConstFuncArgumentRHS.OutputExpression`: sub-function first, then
the literal. -/
def FEConstFuncArgumentRHS.OutputExpression (f : FEConstFuncArgumentRHS) :
    Except FEErr Expression :=
  match f.SubFunc with
  | some sf => sf.OutputExpression
  | none =>
    match f.Argument with
    | some a => a.OutputExpression
    | none => .error (.invalid "FEConstFuncArgumentRHS")

/-- `FEBooleanFuncTwoArgs.OutputExpression`.  The happy path requires the
name slot to be REGEXP_CONTAINS and both arguments present; the name's own
`OutputExpression` then yields the empty `LikeExpr` whose two sides are
filled in immediately (built directly here).  In the failure branch Go
formats the error with `f.BooleanFuncTwoArgsName.String()`, which panics
when the name pointer is nil. -/
def FEBooleanFuncTwoArgs.OutputExpression (pcreOk : String → Bool)
    (f : FEBooleanFuncTwoArgs) : Except FEErr Expression :=
  match f.BooleanFuncTwoArgsName with
  | none => .error .goPanic
  | some n =>
    match n.RegexContains, f.Argument0, f.Argument1 with
    | some true, some arg0, some arg1 =>
      match arg0.OutputExpression with
      | .error e => .error e
      | .ok lhs =>
        match arg1.OutputRegexExpression pcreOk with
        | .error e => .error e
        | .ok rhs => .ok (.likeE lhs rhs)
    | _, _, _ => .error (.invalid "FEBooleanFuncTwoArgs")

/-- `FEBooleanFuncExpr.OutputExpression`. -/
def FEBooleanFuncExpr.OutputExpression (pcreOk : String → Bool)
    (f : FEBooleanFuncExpr) : Except FEErr Expression :=
  match f.BooleanFuncTwoArgs with
  | some t => t.OutputExpression pcreOk
  | none =>
    match f.ExistsClause with
    | some e => e.OutputExpression
    | none => .error (.invalid "FEBooleanFuncExpr")

/-- `FEBooleanExpr.OutputExpression`. -/
def FEBooleanExpr.OutputExpression (pcreOk : String → Bool)
    (f : FEBooleanExpr) : Except FEErr Expression :=
  match f.BooleanVal with
  | some b => b.OutputExpression false
  | none =>
    match f.BooleanFunc with
    | some bf => bf.OutputExpression pcreOk
    | none => .error (.invalid "FEBooleanExpr")

/-- `FELhs.OutputExpression`: field, value, function, boolean, in that
order. -/
def FELhs.OutputExpression (f : FELhs) : Except FEErr Expression :=
  match f.Field with
  | some fld => fld.OutputExpression
  | none =>
    match f.Value with
    | some v => v.OutputExpression
    | none =>
      match f.Func with
      | some fn => fn.OutputExpression
      | none =>
        match f.Bool with
        | some b => b.OutputExpression true
        | none => .error (.invalid "FELhs")

/-- `FERhs.OutputExpression`: same order as the LHS. -/
def FERhs.OutputExpression (f : FERhs) : Except FEErr Expression :=
  match f.Field with
  | some fld => fld.OutputExpression
  | none =>
    match f.Value with
    | some v => v.OutputExpression
    | none =>
      match f.Func with
      | some fn => fn.OutputExpression
      | none =>
        match f.Bool with
        | some b => b.OutputExpression true
        | none => .error (.invalid "FERhs")

/-- `FEOperand.OutputExpression`. -/
def FEOperand.OutputExpression (pcreOk : String → Bool) (f : FEOperand) :
    Except FEErr Expression :=
  match f.BooleanExpr with
  | some be => be.OutputExpression pcreOk
  | none =>
    match f.LHS with
    | some l =>
      match l.OutputExpression with
      | .error e => .error e
      | .ok lhsExpr =>
        match f.CheckOp with
        | some chk => chk.OutputExpression lhsExpr
        | none =>
          match f.Op, f.RHS with
          | some op, some r =>
            match r.OutputExpression with
            | .error e => .error e
            | .ok rhsExpr => op.OutputExpression lhsExpr rhsExpr
          | _, _ => .error (.invalid "FEOperand")
    | none => .error (.invalid "FEOperand")

/-- `FECondition.OutputExpression`: a `NOT` wraps the recursive result
(errors propagate), otherwise the operand translates. -/
def FECondition.OutputExpression (pcreOk : String → Bool) :
    FECondition → Except FEErr Expression
  | .mk n op =>
    match n with
    | some c =>
      match FECondition.OutputExpression pcreOk c with
      | .error e => .error e
      | .ok sub => .ok (.notE sub)
    | none =>
      match op with
      | some o => o.OutputExpression pcreOk
      | none => .error (.invalid "FECondition")

/-- The loop of `FEAndCondition.OutputExpression` over `OrConditions`. -/
def condListOut (pcreOk : String → Bool) :
    List FECondition → Except FEErr (List Expression)
  | [] => .ok []
  | c :: rest =>
    match c.OutputExpression pcreOk with
    | .error e => .error e
    | .ok x =>
      match condListOut pcreOk rest with
      | .error e => .error e
      | .ok xs => .ok (x :: xs)

/-- `FEAndCondition.OutputExpression`: an `AndExpr` of the conditions. -/
def FEAndCondition.OutputExpression (pcreOk : String → Bool)
    (f : FEAndCondition) : Except FEErr Expression :=
  match condListOut pcreOk f.OrConditions with
  | .error e => .error e
  | .ok xs => .ok (.andE xs)

/-- The loop of `FilterExpression.OutputExpression` over `AndConditions`. -/
def acListOut (pcreOk : String → Bool) :
    List FEAndCondition → Except FEErr (List Expression)
  | [] => .ok []
  | a :: rest =>
    match a.OutputExpression pcreOk with
    | .error e => .error e
    | .ok x =>
      match acListOut pcreOk rest with
      | .error e => .error e
      | .ok xs => .ok (x :: xs)

mutual
/-- `FilterExpression.OutputExpression`: checks this node's own totals,
builds the `OrExpr` of the `AndConditions`, and (when sub-filters exist)
wraps it with their results in an `AndExpr`.  Each sub-filter re-runs the
totals check on itself and its error propagates. -/
def FilterExpression.OutputExpression (pcreOk : String → Bool) :
    FilterExpression → Except FEErr Expression
  | .mk acs subs =>
    if FilterExpression.GetTotalOpenParens (.mk acs subs)
        ≠ FilterExpression.GetTotalCloseParens (.mk acs subs) then
      .error .malformedParenthesis
    else
      match acListOut pcreOk acs with
      | .error e => .error e
      | .ok orXs =>
        if subs.length > 0 then
          match feListOut pcreOk subs with
          | .error e => .error e
          | .ok subXs => .ok (.andE (.orE orXs :: subXs))
        else .ok (.orE orXs)

/-- The loop over `SubFilterExpr`. -/
def feListOut (pcreOk : String → Bool) :
    List FilterExpression → Except FEErr (List Expression)
  | [] => .ok []
  | f :: rest =>
    match FilterExpression.OutputExpression pcreOk f with
    | .error e => .error e
    | .ok x =>
      match feListOut pcreOk rest with
      | .error e => .error e
      | .ok xs => .ok (x :: xs)
end

mutual
/-- Some node of the sub-filter tree (the expression itself or a nested
`SubFilterExpr` member) has unequal open/close totals.  This is the
notion the corrected claim C9 is stated with. -/
def hasUnbalancedSubexpr : FilterExpression → Bool
  | .mk acs subs =>
    (FilterExpression.GetTotalOpenParens (.mk acs subs)
      ≠ FilterExpression.GetTotalCloseParens (.mk acs subs) : Bool)
    || anyUnbalancedSub subs

/-- `hasUnbalancedSubexpr` over a list of sub-filters. -/
def anyUnbalancedSub : List FilterExpression → Bool
  | [] => false
  | f :: rest => hasUnbalancedSubexpr f || anyUnbalancedSub rest
end

/-! ## Claim C10: ISO-8601 special-casing of field expressions -/

/-- A single path segment holding the literal text `2021-01-01`. -/
def dateSeg : FEOnePath := ⟨none, some ⟨"", "", "", "2021-01-01"⟩, []⟩

/-- A field expression `- 2021-01-01 + 5`: negated, one date-shaped
segment, with a trailing arithmetic op and value. -/
def dateField : FEField :=
  ⟨some true, [dateSeg], some ⟨some true, none, none, none, none⟩,
    some ⟨some 5, none⟩⟩

/-- Claim C10 holds: for every field expression whose path is exactly one
segment whose text matches an ISO-8601 year, year-month or complete-date
pattern, `FEField.OutputExpression` returns the string `ValueExpr` — and
since this branch runs before the math handling, any `MathNeg`, `MathOp`
or `MathValue` on the field is dropped.  The statement quantifies over an
arbitrary `FEField`, so it covers every field occurrence (LHS, RHS,
function arguments, EXISTS), not only arguments of DATE(). -/
theorem claim_C10 :
    ∀ (f : FEField) (p : FEOnePath) (s : String),
      f.Path = [p] → p.StringM = some s →
      (iso8601Year s || iso8601YearAndMonth s || iso8601CompleteDate s)
        = true →
      f.OutputExpression = .ok (.valueE (.str s)) := by
  intro f p s hPath hS hiso
  have h1 : f.ShouldHandleSpecialValueM = some true := by
    rw [FEField.ShouldHandleSpecialValueM, hPath]
    simp [hS, hiso]
  simp only [FEField.OutputExpression, h1,
    FEField.OutputExpressionSpecialAsValue, hPath, hS]

theorem claim_C10_witness :
    iso8601CompleteDate "2021-01-01" = true ∧
    dateField.OutputExpression = .ok (.valueE (.str "2021-01-01")) :=
  ⟨by decide, claim_C10 dateField dateSeg "2021-01-01" rfl rfl (by decide)⟩

/-! ## Claim C9: the parenthesis error

`ErrorMalformedParenthesis` is produced in exactly one place — the totals
check at the head of `FilterExpression.OutputExpression` — so any
`malformedParenthesis` result must come from the expression itself or from
one of its nested sub-filter expressions re-checking its own totals.  The
lemmas below establish that no other translation step can produce it. -/

theorem feboolean_no_mp (f : FEBoolean) (asValue : Bool) :
    f.OutputExpression asValue ≠ .error .malformedParenthesis := by
  rw [FEBoolean.OutputExpression]
  repeat' split
  all_goals simp

theorem fevalue_no_mp (f : FEValue) :
    f.OutputExpression ≠ .error .malformedParenthesis := by
  rw [FEValue.OutputExpression]
  repeat' split
  all_goals simp

theorem femathvalue_no_mp (f : FEMathValue) :
    f.OutputExpression ≠ .error .malformedParenthesis := by
  rw [FEMathValue.OutputExpression]
  repeat' split
  all_goals simp

theorem femathop_no_mp (f : FEMathArithmeticOp) :
    f.OutputExpression ≠ .error .malformedParenthesis := by
  rw [FEMathArithmeticOp.OutputExpression]
  repeat' split
  all_goals simp

theorem fecompareop_no_mp (f : FECompareOp) (lhs rhs : Expression) :
    f.OutputExpression lhs rhs ≠ .error .malformedParenthesis := by
  rw [FECompareOp.OutputExpression]
  repeat' split
  all_goals simp

theorem fecheckop_no_mp (f : FECheckOp) (sub : Expression) :
    f.OutputExpression sub ≠ .error .malformedParenthesis := by
  rw [FECheckOp.OutputExpression]
  repeat' split
  all_goals simp

theorem feconstfuncnoarg_no_mp (f : FEConstFuncNoArg) :
    f.OutputExpression ≠ .error .malformedParenthesis := by
  rw [FEConstFuncNoArg.OutputExpression]
  repeat' split
  all_goals simp

theorem feonearg_name_no_mp (n : FEConstFuncOneArgName) :
    n.OutputExpression ≠ .error .malformedParenthesis := by
  intro hc
  rw [FEConstFuncOneArgName.OutputExpression] at hc
  by_cases h1 : n.Abs = some true
  · rw [if_pos h1] at hc
    cases hc
  · rw [if_neg h1] at hc
    by_cases h2 : n.Acos = some true
    · rw [if_pos h2] at hc
      cases hc
    · rw [if_neg h2] at hc
      by_cases h3 : n.Asin = some true
      · rw [if_pos h3] at hc
        cases hc
      · rw [if_neg h3] at hc
        by_cases h4 : n.Atan = some true
        · rw [if_pos h4] at hc
          cases hc
        · rw [if_neg h4] at hc
          by_cases h5 : n.Ceil = some true
          · rw [if_pos h5] at hc
            cases hc
          · rw [if_neg h5] at hc
            by_cases h6 : n.Cos = some true
            · rw [if_pos h6] at hc
              cases hc
            · rw [if_neg h6] at hc
              by_cases h7 : n.Date = some true
              · rw [if_pos h7] at hc
                cases hc
              · rw [if_neg h7] at hc
                by_cases h8 : n.Degrees = some true
                · rw [if_pos h8] at hc
                  cases hc
                · rw [if_neg h8] at hc
                  by_cases h9 : n.Exp = some true
                  · rw [if_pos h9] at hc
                    cases hc
                  · rw [if_neg h9] at hc
                    by_cases h10 : n.Floor = some true
                    · rw [if_pos h10] at hc
                      cases hc
                    · rw [if_neg h10] at hc
                      by_cases h11 : n.Log = some true
                      · rw [if_pos h11] at hc
                        cases hc
                      · rw [if_neg h11] at hc
                        by_cases h12 : n.Ln = some true
                        · rw [if_pos h12] at hc
                          cases hc
                        · rw [if_neg h12] at hc
                          by_cases h13 : n.Sine = some true
                          · rw [if_pos h13] at hc
                            cases hc
                          · rw [if_neg h13] at hc
                            by_cases h14 : n.Tangent = some true
                            · rw [if_pos h14] at hc
                              cases hc
                            · rw [if_neg h14] at hc
                              by_cases h15 : n.Radians = some true
                              · rw [if_pos h15] at hc
                                cases hc
                              · rw [if_neg h15] at hc
                                by_cases h16 : n.Round = some true
                                · rw [if_pos h16] at hc
                                  cases hc
                                · rw [if_neg h16] at hc
                                  by_cases h17 : n.Sqrt = some true
                                  · rw [if_pos h17] at hc
                                    cases hc
                                  · rw [if_neg h17] at hc
                                    cases hc

theorem fetwoargs_name_no_mp (n : FEConstFuncTwoArgsName) :
    n.OutputExpression ≠ .error .malformedParenthesis := by
  rw [FEConstFuncTwoArgsName.OutputExpression]
  repeat' split
  all_goals simp

theorem makepcre_no_mp (pcreOk : String → Bool) (s : String) :
    MakePcreExpression pcreOk s ≠ .error .malformedParenthesis := by
  rw [MakePcreExpression]
  split
  all_goals simp

theorem outregex_no_mp (pcreOk : String → Bool)
    (f : FEConstFuncArgumentRHS) :
    f.OutputRegexExpression pcreOk ≠ .error .malformedParenthesis := by
  rw [FEConstFuncArgumentRHS.OutputRegexExpression]
  split
  · simp
  · split
    · exact makepcre_no_mp pcreOk _
    · simp

theorem outputOnePath_no_mp (p : FEOnePath) :
    p.OutputOnePath ≠ .error .malformedParenthesis := by
  rw [FEOnePath.OutputOnePath]
  repeat' split
  all_goals simp

theorem pathListOut_no_mp :
    ∀ l : List FEOnePath, pathListOut l ≠ .error .malformedParenthesis
  | [] => by simp [pathListOut]
  | p :: rest => by
    rw [pathListOut]
    split
    · rename_i e he
      intro hc
      cases hc
      exact outputOnePath_no_mp p he
    · split
      · rename_i e he
        intro hc
        cases hc
        exact pathListOut_no_mp rest he
      · simp

theorem femathop_shape (op : FEMathArithmeticOp) {mop : Expression}
    (h : op.OutputExpression = .ok mop) : ∃ nm, mop = .funcE nm [] := by
  rw [FEMathArithmeticOp.OutputExpression] at h
  repeat' split at h
  all_goals cases h
  all_goals exact ⟨_, rfl⟩

theorem fefield_no_mp (f : FEField) :
    f.OutputExpression ≠ .error .malformedParenthesis := by
  intro hc
  rw [FEField.OutputExpression] at hc
  split at hc
  · cases hc
  · rw [FEField.OutputExpressionSpecialAsValue] at hc
    repeat' split at hc
    all_goals cases hc
  · split at hc
    · rename_i e he
      cases hc
      exact pathListOut_no_mp _ he
    · split at hc
      · split at hc
        · cases hc
        · split at hc
          · rename_i e he
            cases hc
            exact femathop_no_mp _ he
          · repeat'
              first
                | (rename_i e hee
                   cases hc
                   exact femathvalue_no_mp _ hee)
                | cases hc
                | split at hc
      · cases hc

theorem feexists_no_mp (f : FEExistsClause) :
    f.OutputExpression ≠ .error .malformedParenthesis := by
  rw [FEExistsClause.OutputExpression]
  split
  · split
    · rename_i e he
      intro hc
      cases hc
      exact fefield_no_mp _ he
    · simp
  · simp

mutual

theorem constexpr_no_mp :
    ∀ f : FEConstFuncExpression,
      FEConstFuncExpression.OutputExpression f
        ≠ .error .malformedParenthesis
  | .mk (some na) _ _ => by
    simp only [FEConstFuncExpression.OutputExpression]
    exact feconstfuncnoarg_no_mp na
  | .mk none (some oa) _ => by
    simp only [FEConstFuncExpression.OutputExpression]
    exact constonearg_no_mp oa
  | .mk none none (some ta) => by
    simp only [FEConstFuncExpression.OutputExpression]
    exact consttwoargs_no_mp ta
  | .mk none none none => by
    simp [FEConstFuncExpression.OutputExpression]

theorem constonearg_no_mp :
    ∀ f : FEConstFuncOneArg,
      FEConstFuncOneArg.OutputExpression f ≠ .error .malformedParenthesis
  | .mk (some n) (some a) => by
    intro hc
    simp only [FEConstFuncOneArg.OutputExpression] at hc
    split at hc
    · rename_i e he
      cases hc
      exact feonearg_name_no_mp n he
    · split at hc
      · rename_i e he
        cases hc
        exact constarg_no_mp a he
      · cases hc
  | .mk (some n) none => by
    simp [FEConstFuncOneArg.OutputExpression]
  | .mk none _ => by
    simp [FEConstFuncOneArg.OutputExpression]

theorem consttwoargs_no_mp :
    ∀ f : FEConstFuncTwoArgs,
      FEConstFuncTwoArgs.OutputExpression f ≠ .error .malformedParenthesis
  | .mk (some n) (some a0) (some a1) => by
    intro hc
    simp only [FEConstFuncTwoArgs.OutputExpression] at hc
    split at hc
    · rename_i e he
      cases hc
      exact fetwoargs_name_no_mp n he
    · split at hc
      · rename_i e he
        cases hc
        exact constarg_no_mp a0 he
      · split at hc
        · rename_i e he
          cases hc
          exact constarg_no_mp a1 he
        · cases hc
  | .mk (some n) (some a0) none => by
    simp [FEConstFuncTwoArgs.OutputExpression]
  | .mk (some n) none _ => by
    simp [FEConstFuncTwoArgs.OutputExpression]
  | .mk none _ _ => by
    simp [FEConstFuncTwoArgs.OutputExpression]

theorem constarg_no_mp :
    ∀ f : FEConstFuncArgument,
      FEConstFuncArgument.OutputExpression f ≠ .error .malformedParenthesis
  | .mk _ _ (some a) => by
    simp only [FEConstFuncArgument.OutputExpression]
    exact fevalue_no_mp a
  | .mk _ (some f2) none => by
    simp only [FEConstFuncArgument.OutputExpression]
    exact fefield_no_mp f2
  | .mk (some sf) none none => by
    simp only [FEConstFuncArgument.OutputExpression]
    exact constexpr_no_mp sf
  | .mk none none none => by
    simp [FEConstFuncArgument.OutputExpression]

end

theorem constargrhs_no_mp (f : FEConstFuncArgumentRHS) :
    f.OutputExpression ≠ .error .malformedParenthesis := by
  intro hc
  rw [FEConstFuncArgumentRHS.OutputExpression] at hc
  split at hc
  · exact constexpr_no_mp _ hc
  · split at hc
    · exact fevalue_no_mp _ hc
    · cases hc

theorem febooltwo_no_mp (pcreOk : String → Bool)
    (f : FEBooleanFuncTwoArgs) :
    f.OutputExpression pcreOk ≠ .error .malformedParenthesis := by
  intro hc
  rw [FEBooleanFuncTwoArgs.OutputExpression] at hc
  split at hc
  · cases hc
  · split at hc
    · split at hc
      · rename_i e he
        cases hc
        exact constarg_no_mp _ he
      · split at hc
        · rename_i e he
          cases hc
          exact outregex_no_mp pcreOk _ he
        · cases hc
    · cases hc

theorem feboolfuncexpr_no_mp (pcreOk : String → Bool)
    (f : FEBooleanFuncExpr) :
    f.OutputExpression pcreOk ≠ .error .malformedParenthesis := by
  intro hc
  rw [FEBooleanFuncExpr.OutputExpression] at hc
  split at hc
  · exact febooltwo_no_mp pcreOk _ hc
  · split at hc
    · exact feexists_no_mp _ hc
    · cases hc

theorem febooleanexpr_no_mp (pcreOk : String → Bool) (f : FEBooleanExpr) :
    f.OutputExpression pcreOk ≠ .error .malformedParenthesis := by
  intro hc
  rw [FEBooleanExpr.OutputExpression] at hc
  split at hc
  · exact feboolean_no_mp _ _ hc
  · split at hc
    · exact feboolfuncexpr_no_mp pcreOk _ hc
    · cases hc

theorem felhs_no_mp (f : FELhs) :
    f.OutputExpression ≠ .error .malformedParenthesis := by
  intro hc
  rw [FELhs.OutputExpression] at hc
  split at hc
  · exact fefield_no_mp _ hc
  · split at hc
    · exact fevalue_no_mp _ hc
    · split at hc
      · exact constexpr_no_mp _ hc
      · split at hc
        · exact feboolean_no_mp _ _ hc
        · cases hc

theorem ferhs_no_mp (f : FERhs) :
    f.OutputExpression ≠ .error .malformedParenthesis := by
  intro hc
  rw [FERhs.OutputExpression] at hc
  split at hc
  · exact fefield_no_mp _ hc
  · split at hc
    · exact fevalue_no_mp _ hc
    · split at hc
      · exact constexpr_no_mp _ hc
      · split at hc
        · exact feboolean_no_mp _ _ hc
        · cases hc

theorem feoperand_no_mp (pcreOk : String → Bool) (f : FEOperand) :
    f.OutputExpression pcreOk ≠ .error .malformedParenthesis := by
  intro hc
  rw [FEOperand.OutputExpression] at hc
  split at hc
  · exact febooleanexpr_no_mp pcreOk _ hc
  · split at hc
    · split at hc
      · rename_i e he
        cases hc
        exact felhs_no_mp _ he
      · split at hc
        · exact fecheckop_no_mp _ _ hc
        · split at hc
          · split at hc
            · rename_i e he
              cases hc
              exact ferhs_no_mp _ he
            · exact fecompareop_no_mp _ _ _ hc
          · cases hc
    · cases hc

theorem fecond_no_mp (pcreOk : String → Bool) :
    ∀ c : FECondition,
      FECondition.OutputExpression pcreOk c ≠ .error .malformedParenthesis
  | .mk (some c) _ => by
    intro hc
    simp only [FECondition.OutputExpression] at hc
    split at hc
    · rename_i e he
      cases hc
      exact fecond_no_mp pcreOk c he
    · cases hc
  | .mk none (some o) => by
    simp only [FECondition.OutputExpression]
    exact feoperand_no_mp pcreOk o
  | .mk none none => by
    simp [FECondition.OutputExpression]

theorem condListOut_no_mp (pcreOk : String → Bool) :
    ∀ l : List FECondition,
      condListOut pcreOk l ≠ .error .malformedParenthesis
  | [] => by simp [condListOut]
  | c :: rest => by
    intro hc
    rw [condListOut] at hc
    split at hc
    · rename_i e he
      cases hc
      exact fecond_no_mp pcreOk c he
    · split at hc
      · rename_i e he
        cases hc
        exact condListOut_no_mp pcreOk rest he
      · cases hc

theorem feandcond_no_mp (pcreOk : String → Bool) (f : FEAndCondition) :
    f.OutputExpression pcreOk ≠ .error .malformedParenthesis := by
  intro hc
  rw [FEAndCondition.OutputExpression] at hc
  split at hc
  · rename_i e he
    cases hc
    exact condListOut_no_mp pcreOk _ he
  · cases hc

theorem acListOut_no_mp (pcreOk : String → Bool) :
    ∀ l : List FEAndCondition,
      acListOut pcreOk l ≠ .error .malformedParenthesis
  | [] => by simp [acListOut]
  | a :: rest => by
    intro hc
    rw [acListOut] at hc
    split at hc
    · rename_i e he
      cases hc
      exact feandcond_no_mp pcreOk a he
    · split at hc
      · rename_i e he
        cases hc
        exact acListOut_no_mp pcreOk rest he
      · cases hc

mutual

theorem filterOut_mp (pcreOk : String → Bool) :
    ∀ fe : FilterExpression,
      FilterExpression.OutputExpression pcreOk fe
        = .error .malformedParenthesis →
      hasUnbalancedSubexpr fe = true
  | .mk acs subs => by
    intro h
    rw [FilterExpression.OutputExpression] at h
    split at h
    · rename_i hne
      rw [hasUnbalancedSubexpr]
      simp [hne]
    · split at h
      · rename_i e he
        cases h
        exact absurd he (acListOut_no_mp pcreOk acs)
      · split at h
        · split at h
          · rename_i e he
            cases h
            rw [hasUnbalancedSubexpr, feListOut_mp pcreOk subs he]
            simp
          · cases h
        · cases h

theorem feListOut_mp (pcreOk : String → Bool) :
    ∀ l : List FilterExpression,
      feListOut pcreOk l = .error .malformedParenthesis →
      anyUnbalancedSub l = true
  | [] => by
    intro h
    rw [feListOut] at h
    cases h
  | f :: rest => by
    intro h
    rw [feListOut] at h
    split at h
    · rename_i e he
      cases h
      rw [anyUnbalancedSub, filterOut_mp pcreOk f he]
      simp
    · split at h
      · rename_i e he
        cases h
        rw [anyUnbalancedSub, feListOut_mp pcreOk rest he]
        simp
      · cases h

end

/-- Claim C9, amended: a differing top-level total still forces
`ErrorMalformedParenthesis`, but the converse direction of the frozen iff
is weakened — a `malformedParenthesis` result means the expression itself
*or one of its nested sub-filter expressions* has differing totals, since
each sub-filter re-runs the check on its own counts and its error
propagates. -/
theorem claim_C9 :
    ∀ (pcreOk : String → Bool) (f : FilterExpression),
      (f.GetTotalOpenParens ≠ f.GetTotalCloseParens →
        FilterExpression.OutputExpression pcreOk f
          = .error .malformedParenthesis) ∧
      (FilterExpression.OutputExpression pcreOk f
          = .error .malformedParenthesis →
        hasUnbalancedSubexpr f = true) := by
  intro pcreOk f
  refine ⟨?_, fun h => filterOut_mp pcreOk f h⟩
  intro hne
  cases f with
  | mk acs subs =>
    rw [FilterExpression.OutputExpression, if_pos hne]

/-- The condition `TRUE` (a boolean literal operand). -/
def fecondTrue : FECondition :=
  .mk none (some ⟨some ⟨some ⟨some true, none, none, none⟩, none⟩,
    none, none, none, none⟩)

/-- `( TRUE` — one unmatched opening parenthesis. -/
def acOpen1 : FEAndCondition := ⟨[⟨"("⟩], [fecondTrue], []⟩

/-- `TRUE )` — one unmatched closing parenthesis. -/
def acClose1 : FEAndCondition := ⟨[], [fecondTrue], [⟨")"⟩]⟩

/-- A sub-filter expression whose own totals differ (0 open, 1 close). -/
def feSubUnbal : FilterExpression := .mk [acClose1] []

/-- A filter expression whose totals match globally (1 open from the
AndCondition, 1 close inside the sub-filter) while the sub-filter is
unbalanced on its own. -/
def feTopBal : FilterExpression := .mk [acOpen1] [feSubUnbal]

/-- The frozen iff fails: `feTopBal` has equal global open/close totals,
yet `OutputExpression` returns `ErrorMalformedParenthesis` — the nested
sub-filter re-checks its own (unbalanced) totals and the error
propagates. -/
theorem claim_C9_counterexample :
    FilterExpression.GetTotalOpenParens feTopBal
      = FilterExpression.GetTotalCloseParens feTopBal ∧
    FilterExpression.OutputExpression (fun _ => true) feTopBal
      = .error .malformedParenthesis :=
  ⟨rfl, rfl⟩

theorem claim_C9_witness :
    FilterExpression.OutputExpression (fun _ => true) feSubUnbal
      = .error .malformedParenthesis ∧
    hasUnbalancedSubexpr feSubUnbal = true := by
  have h1 := (claim_C9 (fun _ => true) feSubUnbal).1 (by decide)
  exact ⟨h1, (claim_C9 (fun _ => true) feSubUnbal).2 h1⟩
